import Mathlib

/-!
Verification of the core scheduling and reduction algorithm of `dask_groupby`
(file `dask_groupby/core.py`), via a shallow embedding of its operations on
1-D and 2-D arrays modelled as Lean lists.

Conventions used throughout:
* a float label array is modelled as `List (Option Int)` where `none` stands
  for NaN (the "missing" sentinel); numpy equality on floats makes
  NaN ≠ NaN, which is mirrored by `beqLbl`;
* numpy integer arrays are `List Int`, fancy indexing is `applyIdx`,
  `np.argsort` is `argsortLbl` (a stable sort of positions), and
  `np.unique` is sort-then-adjacent-dedup (`npUnique`);
* fallible numpy code (raising `ValueError` and friends) returns
  `Except String`.
-/

/-- Float-like group labels: `none` models NaN. -/
abbrev Lbl := Option Int

/-- numpy `==` on float labels: NaN compares unequal to everything,
including itself. -/
def beqLbl : Lbl → Lbl → Bool
  | some a, some b => a == b
  | _, _ => false

/-- Plain integer equality, for integer identity sequences. -/
def beqInt : Int → Int → Bool := fun a b => a == b

/-- numpy `<=` as used by `np.sort`/`np.argsort` on floats: NaN sorts last. -/
def lblLe : Lbl → Lbl → Bool
  | some a, some b => a ≤ b
  | some _, none => true
  | none, some _ => false
  | none, none => true

/-- `label in from_` for a numpy array `from_`: any position compares equal. -/
def memB (eq : γ → γ → Bool) (l : List γ) (x : γ) : Bool :=
  l.any (fun a => eq a x)

/-- `np.argwhere(from_ == label)[0, 0]`: index of the first position comparing
equal, `-1` when there is none. -/
def idxOfB (eq : γ → γ → Bool) (l : List γ) (x : γ) : Int :=
  match l with
  | [] => -1
  | a :: rest =>
    if eq a x then 0
    else
      let r := idxOfB eq rest x
      if r = -1 then -1 else r + 1

/-- Fancy indexing `xs[ix]` with in-range non-negative indices, `d` being a
syntactic default that is never reached on in-range input. -/
def applyIdx (xs : List α) (ix : List Nat) (d : α) : List α :=
  ix.map (fun i => xs.getD i d)

/-- Shallow embedding of `reindex_` (core.py lines 45-69) for 1-D arrays,
where `axis=0` and `axis=-1` coincide.  `eq` is numpy `==` on the identity
dtype.  Structure follows the source: the `array.shape[axis] == 0` shortcut
builds `np.full((len(to),), fill_value)`; otherwise positions of `to` are
looked up in `from_` (`-1` when absent, which numpy fancy indexing reads as
"last element" before the fill overwrite); absent positions require a
non-`None` fill value. -/
def reindex1 (eq : γ → γ → Bool) (x : List α) (from_ to_ : List γ)
    (fill : Option α) : Except String (List α) :=
  match x with
  | [] =>
    -- np.full with fill_value=None fails to cast on an integer dtype
    match fill with
    | some f => .ok (List.replicate to_.length f)
    | none => .error "cannot cast None"
  | x0 :: _ =>
    let idx : List Int := to_.map (fun label =>
      if memB eq from_ label then idxOfB eq from_ label else -1)
    let reindexed := idx.map (fun i =>
      if i < 0 then x.getLastD x0 else x.getD i.toNat x0)
    if idx.any (fun i => i = -1) then
      match fill with
      | none => .error "Filling is required. fill_value cannot be None."
      | some f => .ok ((idx.zip reindexed).map (fun p => if p.1 = -1 then f else p.2))
    else .ok reindexed

/-- Shallow embedding of `reindex_` for 2-D arrays of shape
`(x.length, ncols)`, keeping both supported conventions `axis = 0` and
`axis = -1` (`axis0 = true` selects axis 0).  Mirrors the source exactly;
in particular the empty-axis shortcut builds
`np.full(array.shape[:-1] + (len(to),), fill_value)` irrespective of `axis`. -/
def reindex2 [Inhabited α] (eq : γ → γ → Bool) (x : List (List α)) (ncols : Nat)
    (from_ to_ : List γ) (fill : Option α) (axis0 : Bool) :
    Except String (List (List α)) :=
  let axLen := if axis0 then x.length else ncols
  if axLen = 0 then
    match fill with
    | some f => .ok (List.replicate x.length (List.replicate to_.length f))
    | none => .error "cannot cast None"
  else
    let idx : List Int := to_.map (fun label =>
      if memB eq from_ label then idxOfB eq from_ label else -1)
    if axis0 then
      let reindexed := idx.map (fun i =>
        if i < 0 then x.getLastD [] else x.getD i.toNat [])
      if idx.any (fun i => i = -1) then
        match fill with
        | none => .error "Filling is required. fill_value cannot be None."
        | some f => .ok ((idx.zip reindexed).map
            (fun p => if p.1 = -1 then List.replicate ncols f else p.2))
      else .ok reindexed
    else
      let pickRow := fun (row : List α) => idx.map (fun i =>
        if i < 0 then row.getLastD default else row.getD i.toNat default)
      if idx.any (fun i => i = -1) then
        match fill with
        | none => .error "Filling is required. fill_value cannot be None."
        | some f => .ok (x.map (fun row =>
            (idx.zip (pickRow row)).map (fun p => if p.1 = -1 then f else p.2)))
      else .ok (x.map pickRow)

/-- Total read-off of an `Except` result. -/
def okD (e : Except String β) (d : β) : β :=
  match e with
  | .ok v => v
  | .error _ => d

instance [DecidableEq ε] [DecidableEq β] : DecidableEq (Except ε β) := fun a b =>
  match a, b with
  | .ok x, .ok y =>
    if h : x = y then isTrue (by rw [h]) else isFalse (by intro hc; cases hc; exact h rfl)
  | .error x, .error y =>
    if h : x = y then isTrue (by rw [h]) else isFalse (by intro hc; cases hc; exact h rfl)
  | .ok _, .error _ => isFalse (by intro hc; cases hc)
  | .error _, .ok _ => isFalse (by intro hc; cases hc)

/-- `lblLe` as a Prop relation, for the Mathlib sorting API. -/
def LblLe (a b : Lbl) : Prop := lblLe a b = true

instance : DecidableRel LblLe :=
  fun a b => inferInstanceAs (Decidable (lblLe a b = true))

instance : IsTotal Lbl LblLe := by
  constructor
  intro a b
  cases a <;> cases b <;> simp [LblLe, lblLe]
  exact le_total _ _

instance : IsTrans Lbl LblLe := by
  constructor
  intro a b c
  cases a <;> cases b <;> cases c <;> simp [LblLe, lblLe]
  exact fun h1 h2 => le_trans h1 h2

instance : IsAntisymm Lbl LblLe := by
  constructor
  intro a b h1 h2
  cases a <;> cases b <;> simp [LblLe, lblLe] at *
  exact le_antisymm h1 h2

/-- Comparison of (position, label) pairs by label, for `np.argsort`. -/
def PairLe (a b : Nat × Lbl) : Prop := LblLe a.2 b.2

instance : DecidableRel PairLe :=
  fun a b => inferInstanceAs (Decidable (lblLe a.2 b.2 = true))

instance : IsTotal (Nat × Lbl) PairLe :=
  ⟨fun a b => IsTotal.total (r := LblLe) a.2 b.2⟩

instance : IsTrans (Nat × Lbl) PairLe :=
  ⟨fun _ _ _ h1 h2 => IsTrans.trans (r := LblLe) _ _ _ h1 h2⟩

/-- `np.sort` on a float label array (NaN sorts last). -/
def sortLbl (l : List Lbl) : List Lbl := List.insertionSort LblLe l

/-- `np.argsort` on a float label array, as the stably sorted list of
(position, label) pairs; positions are the `.map Prod.fst` projection.
(numpy's default sort is stable only up to equal keys; every use below is on
duplicate-free label lists, where any correct sort agrees.) -/
def argsortPairs (l : List Lbl) : List (Nat × Lbl) :=
  List.insertionSort PairLe ((List.range l.length).map (fun i => (i, l.getD i none)))

/-- Adjacent-deduplication pass of `np.unique` (applied after sorting):
drops a value whenever the next one compares `==`-equal.  Under the float
semantics of `beqLbl` every NaN survives, as in the numpy of this era; for
`==`-equal values the kept representative is the identical value. -/
def dedupAdj (eq : γ → γ → Bool) : List γ → List γ
  | [] => []
  | [a] => [a]
  | a :: b :: rest =>
    if eq a b then dedupAdj eq (b :: rest) else a :: dedupAdj eq (b :: rest)

/-- `np.unique` on a float label array: sort, then drop adjacent duplicates. -/
def npUnique (l : List Lbl) : List Lbl := dedupAdj beqLbl (sortLbl l)

/-- `np.sort` on an integer array. -/
def sortInt (l : List Int) : List Int := List.insertionSort (· ≤ ·) l

/-- Sorted deduplication of an integer list: the canonical
"sorted unique values" form used in statements. -/
def uniqInt (l : List Int) : List Int := dedupAdj beqInt (sortInt l)

/-- Left-to-right scan recording each value the first time it is seen. -/
def firstAppAux (seen : List Int) : List Int → List Int
  | [] => []
  | a :: rest =>
    if a ∈ seen then firstAppAux seen rest
    else a :: firstAppAux (a :: seen) rest

/-- First-appearance order of the distinct values of an integer list, the
order in which `pandas.factorize` enumerates codes. -/
def firstApp (l : List Int) : List Int := firstAppAux [] l

/-- `pandas.factorize` on a float label array: NaN gets code `-1`, any other
value the position of its first appearance among the distinct values. -/
def pdFactorize (l : List Lbl) : List Int × List Int :=
  let groups := firstApp (l.filterMap id)
  (l.map (fun x => match x with
    | none => -1
    | some v => idxOfB beqInt groups v), groups)

/-- `idx[idx == -1] = idx.max() + 1` (core.py line 113): missing labels are
assigned the trailing sentinel bucket one past the largest code.  `foldl max
(-1)` agrees with `np.ndarray.max` on any non-empty code list (codes are
always ≥ -1); numpy raises on an empty one, which the caller checks. -/
def sentinelize (idx : List Int) : List Int :=
  let s := idx.foldl max (-1) + 1
  idx.map (fun i => if i = -1 then s else i)

/-- The dense (non-binned) branch of `factorize_` (core.py lines 105-116)
for one label variable: `pd.factorize`, then replace the `-1` codes of
missing values by the trailing sentinel `idx.max() + 1` (which raises on an
empty label array). -/
def factorizeDense (groupvar : List Lbl) : Except String (List Int × List Int) :=
  let p := pdFactorize groupvar
  if p.1.isEmpty then .error "zero-size array to reduction operation maximum"
  else .ok (sentinelize p.1, p.2)

/-- `np.digitize(v, edges)` for monotonically increasing `edges`
(`right=False`): the number of edges ≤ v, so that
`edges[i-1] <= v < edges[i]` yields `i`. -/
def digitize (v : Int) (edges : List Int) : Int :=
  (edges.countP (fun e => decide (e ≤ v)) : Nat)

/-- The binned branch of `factorize_` (core.py lines 100-104):
requires the bin edges (`expect`), maps every value through `np.digitize`,
and records the edges themselves as the found groups. -/
def factorizeBinned (groupvar : List Int) (expect : Option (List Int)) :
    Except String (List Int × List Int) :=
  match expect with
  | none => .error "ValueError"
  | some edges => .ok (groupvar.map (fun v => digitize v edges), edges)

/-- The values at the positions belonging to group `g`, in positional
order. -/
def sel (labels : List Int) (vals : List α) (g : Int) : List α :=
  (labels.zip vals).filterMap (fun p => if p.1 = g then some p.2 else none)

/-- One numpy_groupies kernel: the reduction function over a group's member
list, plus the fill value for empty groups.  Modelled from the spec: the
Aggregation Engine is an external collaborator with contract
`apply(group_index, values, op_name, size, fill_value) -> array[..., size]`. -/
structure NpgOp (α : Type) where
  f : List α → α
  fill : α

/-- `numpy_groupies.aggregate_numpy.aggregate` on 1-D input (modelled from
the spec's engine contract): one slot per group in `range size`, holding the
op over the group's members, or the fill value when the group is empty. -/
def npgAggregate (op : NpgOp α) (group_idx : List Int) (vals : List α)
    (size : Nat) : List α :=
  (List.range size).map (fun (g : Nat) =>
    let m := sel group_idx vals (g : Int)
    if m.isEmpty then op.fill else op.f m)

/-- A partial result (spec section 3): observed group identities plus one
intermediate array per op. -/
structure PRes (α : Type) where
  groups : List Lbl
  intermediates : List (List α)
deriving DecidableEq

/-- The output group identities of `chunk_reduce` when no fixed output set
is supplied (core.py lines 249-257): `[NaN]` for an entirely
excluded/empty block, otherwise the observed identities sorted through
`np.argsort`. -/
def chunkGroups (by_ : List Lbl) : List Lbl :=
  let p := pdFactorize by_
  let group_idx := sentinelize p.1
  let groups : List Lbl := p.2.map some
  let mask := group_idx.map (fun i => decide (i ≠ -1))
  let empty := mask.all (fun b => !b) || by_.isEmpty
  if empty then [none] else (argsortPairs groups).map Prod.snd

/-- The body of the per-op loop of `chunk_reduce` (core.py lines 261-284):
the synthesized fill result for an empty block, else one engine call with
`size = idx.max() + 1`, the trailing-bucket drop when the mask recorded
excluded entries, and reindexing onto `expected_groups` or the argsort
permutation onto the sorted observed identities. -/
def chunkOpIntermediate (array : List α) (by_ : List Lbl)
    (fz : List Int × List Int) (expected : Option (List Lbl))
    (rgroups : List Lbl) (op : NpgOp α) : Except String (List α) :=
  let group_idx := fz.1
  let groups : List Lbl := fz.2.map some
  let mask := group_idx.map (fun i => decide (i ≠ -1))
  let empty := mask.all (fun b => !b) || by_.isEmpty
  let sortidx := (argsortPairs groups).map Prod.fst
  if empty then .ok (List.replicate rgroups.length op.fill)
  else
    let size := (group_idx.foldl max (-1) + 1).toNat
    let result := npgAggregate op group_idx array size
    let result := if mask.any (fun b => !b) then result.dropLast else result
    match expected with
    | some e => reindex1 beqLbl result groups e (some op.fill)
    | none => .ok (applyIdx result sortidx op.fill)

/-- Shallow embedding of `chunk_reduce` (core.py lines 166-286) for a 1-D
label array and a same-length value array (so the reduction axis is the last
one and no offsetting happens): factorize the labels with the missing
sentinel, then run `chunkOpIntermediate` per op; the output groups are
`expected_groups` when supplied, else `chunkGroups`. -/
def chunkReduceE (ops : List (NpgOp α)) (array : List α) (by_ : List Lbl)
    (expected : Option (List Lbl)) : Except String (PRes α) :=
  match factorizeDense by_ with
  | .error e => .error e
  | .ok fz =>
    let rgroups : List Lbl :=
      match expected with
      | some e => e
      | none => chunkGroups by_
    match ops.mapM (chunkOpIntermediate array by_ fz expected rgroups) with
    | .error e => .error e
    | .ok intermediates => .ok ⟨rgroups, intermediates⟩

/-- One step of the intermediate-combination loop of `_npg_combine`
(core.py lines 442-462): concatenate intermediate number `io.1` of every
reindexed sibling, then either record an empty result (the
"all empty when combined" branch) or re-reduce it with combine op `io.2`
against the concatenated groups. -/
def combineStep (groups : List Lbl) (reindexed : List (PRes α))
    (acc : List Lbl × List (List α)) (io : Nat × NpgOp α) :
    Except String (List Lbl × List (List α)) :=
  let array := (reindexed.map (fun p => p.intermediates.getD io.1 [])).flatten
  if array.length = 0 then
    Except.ok (([] : List Lbl), acc.2 ++ [([] : List α)])
  else
    match chunkReduceE [io.2] array groups none with
    | .error e => .error e
    | .ok r => Except.ok (r.groups, acc.2 ++ [r.intermediates.headD []])

/-- The reindex-one-sibling step of `_npg_combine` (core.py lines 386-393,
403): broadcast the union identities and reindex every intermediate onto
them with the descriptor's per-intermediate fill values. -/
def combineReindex (ops : List (NpgOp α)) (unique_groups : List Lbl)
    (p : PRes α) : Except String (PRes α) :=
  match (p.intermediates.zip ops).mapM (fun vo =>
      reindex1 beqLbl vo.1 p.groups unique_groups (some vo.2.fill)) with
  | .error e => .error e
  | .ok ints => .ok ⟨unique_groups, ints⟩

/-- Shallow embedding of `_npg_combine` (core.py lines 367-463) for the
"reduce" reduction type, 1-D groups (`group_ndim = 1`) and one reduction
axis: take the union of the sibling identities with `np.unique`, reindex
every sibling's intermediates onto it (`combineReindex`), concatenate groups
and intermediates, and re-reduce per combine op (`combineStep`). -/
def npgCombineE (ops : List (NpgOp α)) (xs : List (PRes α)) :
    Except String (PRes α) :=
  let unique_groups := npUnique ((xs.map (fun p => p.groups)).flatten)
  match xs.mapM (combineReindex ops unique_groups) with
  | .error e => .error e
  | .ok reindexed =>
    let groups := (reindexed.map (fun p => p.groups)).flatten
    match ops.enum.foldlM (combineStep groups reindexed)
        (([] : List Lbl), ([] : List (List α))) with
    | .error e => .error e
    | .ok res => .ok ⟨res.1, res.2⟩

/-- Default output identities for materialized labels
(core.py lines 667-670): `np.unique(by)` with NaN dropped on a floating
dtype. -/
def defaultExpected (by_ : List Lbl) : List Lbl :=
  (npUnique by_).filter (fun g => g.isSome)

/-- Shallow embedding of the numpy (non-dask) path of `groupby_reduce`
(core.py lines 622-730) for a single named reduction whose finalize is the
identity (such as sum) over 1-D values and labels: the shape assertion,
defaulting of `expected_groups`, one `chunk_reduce` call with
`expected_groups=None` and the descriptor fill value (or the user's), then
`_finalize_results` without count masking, which reindexes onto the expected
groups with the user fill value and also returns the observed groups. -/
def groupbyReduceNp (op : NpgOp α) (array : List α) (by_ : List Lbl)
    (expected : Option (List Lbl)) (fill_value : Option α) :
    Except String (List α × List Lbl) :=
  if array.length ≠ by_.length then
    .error "AssertionError"
  else
    let expected : Option (List Lbl) :=
      match expected with
      | some e => some e
      | none => some (defaultExpected by_)
    let fv := match fill_value with
      | some f => f
      | none => op.fill
    match chunkReduceE [⟨op.f, fv⟩] array by_ none with
    | .error e => .error e
    | .ok results =>
      let r0 := results.intermediates.headD []
      match
        (match expected with
         | some e => reindex1 beqLbl r0 results.groups e fill_value
         | none => Except.ok r0) with
      | .error e => .error e
      | .ok final => .ok (final, results.groups)

/-- Shallow embedding of `offset_labels` (core.py lines 72-87) on 2-D group
labels (rows = untouched-dimension slices, last axis = flattened reduction
dimensions): add `slice_position * ngroups` to every entry, restore `-1`
where the label was `-1`, and report the flattened index-space size.
`labels.max()` is over the whole array; `foldl max (-1)` agrees with it
whenever all entries are ≥ -1 and the array is non-empty (numpy raises on an
empty one). -/
def offsetLabels (labels : List (List Int)) : List (List Int) × Int × Int :=
  let ngroups : Int := labels.flatten.foldl max (-1) + 1
  let offset := labels.enum.map (fun pr => pr.2.map (fun l => l + (pr.1 : Int) * ngroups))
  let offset2 := (offset.zip labels).map (fun rr =>
    (rr.1.zip rr.2).map (fun ol => if ol.2 = -1 then -1 else ol.1))
  (offset2, ngroups, (labels.length : Int) * ngroups)

/-- Normalization of the `axis` argument of `groupby_reduce`
(core.py lines 662-665): default to the trailing `by.ndim` axes of the value
array, else `normalize_axis_tuple` (negative entries get `array.ndim`
added). -/
def normalizeAxis (axis : Option (List Int)) (arrayNdim byNdim : Nat) : List Int :=
  match axis with
  | none => (List.range byNdim).map (fun i => ((arrayNdim - byNdim + i : Nat) : Int))
  | some a => a.map (fun i => if i < 0 then i + (arrayNdim : Int) else i)

/-- The eager validation prefix of `groupby_reduce` (core.py lines 660-683):
the value/label shape assertion, axis normalization, the numpy-only
defaulting of `expected_groups`, and the `NotImplementedError` raised for a
single reduction axis over a multi-dimensional label array without
`expected_groups` - all before any task graph exists.  Returns the
normalized axis tuple when no error is raised. -/
def groupbyReduceValidate (arrayShape byShape : List Nat)
    (axis : Option (List Int)) (expectedGiven : Bool) (byIsNumpy : Bool) :
    Except String (List Int) :=
  if arrayShape.drop (arrayShape.length - byShape.length) ≠ byShape then
    .error "AssertionError"
  else
    let ax := normalizeAxis axis arrayShape.length byShape.length
    let expectedGiven := expectedGiven || byIsNumpy
    if ax.length = 1 ∧ byShape.length > 1 ∧ expectedGiven = false then
      .error "Please provide expected_groups when not reducing along all axes."
    else
      .ok ax

/-- Modelled from the spec: the built-in Aggregation Descriptor for "sum"
(module `dask_groupby/aggregations.py`, not among the sources): chunk op
"sum", combine op "sum", fill value 0, identity finalize. -/
def sumAgg : NpgOp Int := ⟨fun l => l.foldl (· + ·) 0, 0⟩

/-- The spec's `reduce(G)` for a set of blocks: chunk-reduce every block and
merge the partials with a single `_npg_combine` step using the combine op. -/
def reduceBlocks (chunkOp combineOp : NpgOp α) (G : List (List α × List Int)) :
    Except String (PRes α) :=
  match G.mapM (fun b => chunkReduceE [chunkOp] b.1 (b.2.map some) none) with
  | .error e => .error e
  | .ok parts => npgCombineE [combineOp] parts

/-- The value a partial `(groups, values)` contributes for identity `g` when
reindexed onto a group set containing `g`: its stored value when it observed
`g`, the fill value `e` otherwise.  Characterization form used in the
statements about `_npg_combine`. -/
def groupLookup (e : α) (p : List Int × List α) (g : Int) : α :=
  if memB beqInt p.1 g then p.2.getD (idxOfB beqInt p.1 g).toNat e else e

/-- The value one input block contributes for identity `g` after its chunk
reduction: the chunk op over the block members labelled `g`, or the fill
value `e` when the block has none.  Characterization form used in the
statements about `reduceBlocks`. -/
def blockContrib (hf : List α → α) (e : α) (b : List α × List Int) (g : Int) :
    α :=
  if memB beqInt b.2 g then hf (sel b.2 b.1 g) else e

/-! ### The argreduce path: `chunk_argreduce` (core.py lines 135-163) and the
argreduce branch of `_npg_combine` (lines 412-437), for 1-D input.  The
numpy_groupies "max"/"argmax"/"count" kernels and the argmax Aggregation
Descriptor (fill values, op lists) are modelled from the spec, like the
"reduce"-type kernels above; everything else is embedded from core.py. -/

/-- Left-biased selection of the larger of two tagged values: numpy's
first-occurrence tie rule, `b` wins only when strictly larger. -/
def pickBy [LinearOrder α] (val : β → α) (a b : β) : β :=
  if val a < val b then b else a

/-- The first element of largest `val` (first occurrence wins ties), `d` for
an empty list. -/
def firstMaxBy [LinearOrder α] (val : β → α) (d : β) : List β → β
  | [] => d
  | x :: r => r.foldl (pickBy val) x

/-- The `(flat position, value)` pairs of the entries labelled `g`, positions
counted from `k`: the member view an arg-kernel reduces over. -/
def selWithPos (g : Int) : Nat → List Int → List α → List (Nat × α)
  | _, [], _ => []
  | _, _ :: _, [] => []
  | k, a :: ls, v :: vs =>
    if a = g then (k, v) :: selWithPos g (k + 1) ls vs
    else selWithPos g (k + 1) ls vs

/-- The flat position of the first maximal member of group `g` (0 when the
group is empty): the per-slot result of the engine's "argmax" kernel. -/
def argSelPos [LinearOrder α] (labels : List Int) (vals : List α) (g : Int) :
    Nat :=
  match selWithPos g 0 labels vals with
  | [] => 0
  | x :: r => (r.foldl (pickBy Prod.snd) x).1

/-- `numpy_groupies` "argmax" on 1-D input (modelled from the spec's engine
contract): one slot per group holding the flat position of the group's first
maximal member. -/
def npgArgmax [LinearOrder α] (group_idx : List Int) (vals : List α)
    (size : Nat) : List Nat :=
  (List.range size).map (fun (g : Nat) => argSelPos group_idx vals (g : Int))

/-- `numpy_groupies` "count" on 1-D input (modelled from the spec's engine
contract): one slot per group holding the number of members (0, the count
fill, for an empty group). -/
def npgCount (group_idx : List Int) (size : Nat) : List Int :=
  (List.range size).map (fun (g : Nat) =>
    ((sel group_idx group_idx (g : Int)).length : Int))

/-- The engine's "max" kernel as an op descriptor entry (modelled from the
spec): the running maximum of the group members, `fillv` for an empty slot. -/
def maxOp [LinearOrder α] (fillv : α) : NpgOp α :=
  ⟨fun l => match l with | [] => fillv | x :: t => t.foldl max x, fillv⟩

/-- The per-op body of `chunk_reduce` for the "argmax" op at
`expected_groups=None` (the only instantiation reached through
`chunk_argreduce`, which always passes `None` to the inner `chunk_reduce`,
core.py line 151): same structure as `chunkOpIntermediate`, with the argmax
engine kernel and no reindex branch, hence no failure case. -/
def chunkPosIntermediate [LinearOrder α] (array : List α) (by_ : List Lbl)
    (fz : List Int × List Int) : List Nat :=
  let group_idx := fz.1
  let groups : List Lbl := fz.2.map some
  let mask := group_idx.map (fun i => decide (i ≠ -1))
  let empty := mask.all (fun b => !b) || by_.isEmpty
  let sortidx := (argsortPairs groups).map Prod.fst
  if empty then List.replicate (chunkGroups by_).length 0
  else
    let size := (group_idx.foldl max (-1) + 1).toNat
    let result := npgArgmax group_idx array size
    let result := if mask.any (fun b => !b) then result.dropLast else result
    applyIdx result sortidx 0

/-- The per-op body of `chunk_reduce` for the "count" op at
`expected_groups=None`, mirroring `chunkOpIntermediate` with the count
kernel. -/
def chunkCountIntermediate (by_ : List Lbl) (fz : List Int × List Int) :
    List Int :=
  let group_idx := fz.1
  let mask := group_idx.map (fun i => decide (i ≠ -1))
  let empty := mask.all (fun b => !b) || by_.isEmpty
  let sortidx := (argsortPairs (fz.2.map some)).map Prod.fst
  if empty then List.replicate (chunkGroups by_).length 0
  else
    let size := (group_idx.foldl max (-1) + 1).toNat
    let result := npgCount group_idx size
    let result := if mask.any (fun b => !b) then result.dropLast else result
    applyIdx result sortidx 0

/-- Shallow embedding of `chunk_argreduce` (core.py lines 135-163) for 1-D
input at `func=("max", "argmax")`, as called from the argreduce branch of
`_npg_combine` (line 418): run `chunk_reduce` on the values (always with
`expected_groups=None`, line 151), map the returned flat positions back
through the caller's index array (`newidx`, lines 153-156), and reindex only
that index intermediate onto `expected_groups` with fill 0 when one is given
(lines 158-161). -/
def chunkArgreduceE [LinearOrder α] (fillv : α) (array : List α)
    (idx : List Int) (by_ : List Lbl) (expected : Option (List Lbl)) :
    Except String (List Lbl × List α × List Int) :=
  match factorizeDense by_ with
  | .error e => .error e
  | .ok fz =>
    match chunkOpIntermediate array by_ fz none (chunkGroups by_)
        (maxOp fillv) with
    | .error e => .error e
    | .ok maxes =>
      let poss := chunkPosIntermediate array by_ fz
      let newidx := poss.map (fun p => idx.getD p 0)
      match expected with
      | none => .ok (chunkGroups by_, maxes, newidx)
      | some eg =>
        match reindex1 beqLbl newidx (chunkGroups by_) eg (some 0) with
        | .error e => .error e
        | .ok ridx => .ok (chunkGroups by_, maxes, ridx)

/-- An argreduce partial result: observed identities plus the
(value, index, counts) intermediates (core.py line 414). -/
structure APres (α : Type) where
  groups : List Lbl
  vals : List α
  idxs : List Int
  counts : List Int
deriving DecidableEq

/-- `chunk_argreduce` at the blockwise step (`_get_chunk_reduction` returns
it for the "argreduce" type, core.py lines 22-27), where `func=agg.chunk`
also carries the "count" op and `expected_groups=None` (line 501 with
`split_out=1`): the three intermediates of one block. -/
def chunkArgleafE [LinearOrder α] (fillv : α) (array : List α)
    (idx : List Int) (by_ : List Lbl) : Except String (APres α) :=
  match factorizeDense by_ with
  | .error e => .error e
  | .ok fz =>
    match chunkOpIntermediate array by_ fz none (chunkGroups by_)
        (maxOp fillv) with
    | .error e => .error e
    | .ok maxes =>
      let poss := chunkPosIntermediate array by_ fz
      .ok ⟨chunkGroups by_, maxes, poss.map (fun p => idx.getD p 0),
        chunkCountIntermediate by_ fz⟩

/-- The argreduce branch of `_npg_combine` (core.py lines 382-393, 403,
412-437) for 1-D groups: union the sibling identities, reindex every
sibling's three intermediates onto the union with the descriptor fills
(`fillv` for the value, `filli` for the index, 0 for the count), concatenate,
re-run `chunk_argreduce` on the concatenated value/index pair, and sum the
concatenated counts with a separate `chunk_reduce` (lines 427-437). -/
def argCombineE [LinearOrder α] (fillv : α) (filli : Int)
    (xs : List (APres α)) : Except String (APres α) :=
  let unique_groups := npUnique ((xs.map (fun p => p.groups)).flatten)
  match xs.mapM (fun p =>
      (match reindex1 beqLbl p.vals p.groups unique_groups (some fillv) with
      | .error e => .error e
      | .ok v =>
        match reindex1 beqLbl p.idxs p.groups unique_groups (some filli) with
        | .error e => .error e
        | .ok i =>
          match reindex1 beqLbl p.counts p.groups unique_groups (some 0) with
          | .error e => .error e
          | .ok c => .ok ⟨unique_groups, v, i, c⟩ :
        Except String (APres α))) with
  | .error e => .error e
  | .ok reindexed =>
    let groups := (reindexed.map (fun p => p.groups)).flatten
    let array := (reindexed.map (fun p => p.vals)).flatten
    let idx := (reindexed.map (fun p => p.idxs)).flatten
    let counts := (reindexed.map (fun p => p.counts)).flatten
    match chunkArgreduceE fillv array idx groups none with
    | .error e => .error e
    | .ok r =>
      match chunkReduceE [⟨fun l => l.foldl (· + ·) 0, 0⟩] counts groups
          none with
      | .error e => .error e
      | .ok cr => .ok ⟨r.1, r.2.1, r.2.2, cr.intermediates.headD []⟩

/-- The spec's `reduce(G)` for an argreduce: `chunk_argreduce` on every block
`(values, index, labels)`, then one argreduce combine step. -/
def argReduceBlocks [LinearOrder α] (fillv : α) (filli : Int)
    (G : List (List α × List Int × List Int)) : Except String (APres α) :=
  match G.mapM (fun b => chunkArgleafE fillv b.1 b.2.1 (b.2.2.map some)) with
  | .error e => .error e
  | .ok parts => argCombineE fillv filli parts

/-- Positions `base, base+L, base+2L, ...` tagged onto a list: the flat
coordinates of one group's slots across equal-length concatenated
segments. -/
def strided (L : Nat) : Nat → List γ → List (Nat × γ)
  | _, [] => []
  | base, v :: vs => (base, v) :: strided L (base + L) vs

/-- The (value, original index) pair a 4-tuple argreduce partial contributes
for identity `g`: its stored pair when it observed `g`, the fill pair
otherwise. -/
def pairLookup [LinearOrder α] (fillv : α) (filli : Int)
    (p : List Int × List α × List Int × List Int) (g : Int) : α × Int :=
  (groupLookup fillv (p.1, p.2.1) g, groupLookup filli (p.1, p.2.2.1) g)

/-- The (value, original index) pair one argreduce block contributes for
identity `g`: its maximal member's value and original index, or the fill
pair when the block has no member of `g`. -/
def blockArgContrib [LinearOrder α] (fillv : α) (filli : Int)
    (b : List α × List Int × List Int) (g : Int) : α × Int :=
  if memB beqInt b.2.2 g then
    ((maxOp fillv).f (sel b.2.2 b.1 g), b.2.1.getD (argSelPos b.2.2 b.1 g) 0)
  else (fillv, filli)

/-- The count one argreduce block contributes for identity `g`: the number
of members labelled `g` (0 when it has none). -/
def blockCountContrib (b : List α × List Int × List Int) (g : Int) : Int :=
  if memB beqInt b.2.2 g then ((sel b.2.2 b.2.2 g).length : Int) else 0

/-! ### Utility lemmas -/

theorem beqInt_iff (a b : Int) : beqInt a b = true ↔ a = b := by
  simp [beqInt]

theorem beqLbl_some_iff (a b : Int) : beqLbl (some a) (some b) = true ↔ a = b := by
  simp [beqLbl]

theorem memB_iff_int (l : List Int) (x : Int) : memB beqInt l x = true ↔ x ∈ l := by
  induction l with
  | nil => simp [memB]
  | cons a rest ih =>
    simp only [memB, List.any_cons, Bool.or_eq_true, List.mem_cons, beqInt_iff] at *
    constructor
    · rintro (rfl | h)
      · exact Or.inl rfl
      · exact Or.inr (ih.mp h)
    · rintro (rfl | h)
      · exact Or.inl rfl
      · exact Or.inr (ih.mpr h)

theorem idxOfB_ge_neg (eq : γ → γ → Bool) (l : List γ) (x : γ) :
    -1 ≤ idxOfB eq l x := by
  induction l with
  | nil => simp [idxOfB]
  | cons a rest ih =>
    by_cases h : eq a x
    · simp [idxOfB, h]
    · simp only [idxOfB, h, if_false]
      by_cases h2 : idxOfB eq rest x = -1
      · simp [h2]
      · simp only [h2, if_false]
        omega

theorem idxOfB_eq_neg_one_iff (eq : γ → γ → Bool) (l : List γ) (x : γ) :
    idxOfB eq l x = -1 ↔ memB eq l x = false := by
  induction l with
  | nil => simp [idxOfB, memB]
  | cons a rest ih =>
    by_cases h : eq a x
    · simp [idxOfB, memB, h]
    · simp only [idxOfB, h, if_false, memB, List.any_cons, Bool.or_eq_false_iff]
      have h3 := idxOfB_ge_neg eq rest x
      by_cases h2 : idxOfB eq rest x = -1
      · rw [if_pos h2]
        have h4 := ih.mp h2
        simp only [memB] at h4
        simp [Bool.eq_false_iff.mpr h, h4]
      · simp only [h2, if_false]
        have h4 : memB eq rest x = true := by
          cases hb : memB eq rest x
          · exact absurd (ih.mpr hb) h2
          · rfl
        simp only [memB] at h4
        simp only [h4]
        constructor
        · intro hc; omega
        · rintro ⟨-, hc⟩; cases hc

theorem idxOfB_lt_length (eq : γ → γ → Bool) (l : List γ) (x : γ)
    (h : memB eq l x = true) : idxOfB eq l x < (l.length : Int) := by
  induction l with
  | nil => simp [memB] at h
  | cons a rest ih =>
    by_cases ha : eq a x
    · simp [idxOfB, ha]
    · simp only [memB, List.any_cons, ha, Bool.false_or] at h
      have h2 : idxOfB eq rest x ≠ -1 := by
        intro hc
        have := (idxOfB_eq_neg_one_iff eq rest x).mp hc
        simp only [memB] at this
        rw [this] at h
        cases h
      have h3 := ih (by simpa [memB] using h)
      simp only [idxOfB, ha, if_false, h2]
      simp only [List.length_cons]
      omega

theorem idxOfB_getD (eq : γ → γ → Bool) (l : List γ) (x : γ) (d : γ)
    (h : memB eq l x = true) : eq (l.getD (idxOfB eq l x).toNat d) x = true := by
  induction l with
  | nil => simp [memB] at h
  | cons a rest ih =>
    by_cases ha : eq a x
    · simpa [idxOfB, ha] using ha
    · simp only [memB, List.any_cons, ha, Bool.false_or] at h
      have h2 : idxOfB eq rest x ≠ -1 := by
        intro hc
        have := (idxOfB_eq_neg_one_iff eq rest x).mp hc
        simp only [memB] at this
        rw [this] at h
        cases h
      have h3 := idxOfB_ge_neg eq rest x
      have h4 : (idxOfB eq rest x + 1).toNat = (idxOfB eq rest x).toNat + 1 := by omega
      simp only [idxOfB, ha, if_false, h2, if_false, Bool.false_eq_true]
      rw [h4, List.getD_cons_succ]
      exact ih (by simpa [memB] using h)

theorem getD_mem_of_lt (l : List γ) (k : Nat) (d : γ) (hk : k < l.length) :
    l.getD k d ∈ l := by
  rw [List.getD_eq_getElem l d hk]
  exact List.getElem_mem hk

theorem idxOfB_nodup_self (A : List Int) (hA : A.Nodup) (k : Nat)
    (hk : k < A.length) : idxOfB beqInt A (A.getD k 0) = (k : Int) := by
  induction A generalizing k with
  | nil => simp at hk
  | cons a rest ih =>
    rcases Nat.eq_zero_or_pos k with rfl | hpos
    · simp [idxOfB, beqInt]
    · obtain ⟨k', rfl⟩ : ∃ k', k = k' + 1 := ⟨k - 1, by omega⟩
      have hk' : k' < rest.length := by simpa using hk
      have hmem : rest.getD k' 0 ∈ rest := getD_mem_of_lt rest k' 0 hk'
      obtain ⟨hnot, hnd⟩ := List.nodup_cons.mp hA
      have hne : beqInt a (rest.getD k' 0) = false := by
        rcases Bool.eq_false_or_eq_true (beqInt a (rest.getD k' 0)) with ht | hf
        · exact absurd (((beqInt_iff _ _).mp ht) ▸ hmem) hnot
        · exact hf
      have hrec := ih hnd k' hk'
      simp only [List.getD_cons_succ, idxOfB, hne, if_false, hrec]
      have : (k' : Int) ≠ -1 := by omega
      simp [this]

/-! ### Reindexer characterization -/

theorem map_const_eq_replicate (l : List γ) (c : α) :
    l.map (fun _ => c) = List.replicate l.length c := by
  induction l with
  | nil => rfl
  | cons a rest ih => simp [List.replicate_succ, ih]

theorem reindex1_char (eq : γ → γ → Bool) (x : List α) (A B : List γ) (f : α)
    (hx : x.length = A.length) :
    reindex1 eq x A B (some f) =
      .ok (B.map (fun lab =>
        if memB eq A lab then x.getD (idxOfB eq A lab).toNat f else f)) := by
  cases x with
  | nil =>
    have hA : A = [] := by
      cases A with
      | nil => rfl
      | cons a rest => simp at hx
    subst hA
    simp only [reindex1, memB, List.any_nil, Bool.false_eq_true, if_false]
    rw [map_const_eq_replicate]
  | cons x0 t =>
    have hxlen : (x0 :: t).length = A.length := hx
    simp only [reindex1]
    set g1 : γ → Int := fun lab =>
      if memB eq A lab then idxOfB eq A lab else -1 with hg1
    set pick : Int → α := fun i =>
      if i < 0 then (x0 :: t).getLastD x0 else (x0 :: t).getD i.toNat x0 with hpick
    have hpt : ∀ lab, (if g1 lab = -1 then f else pick (g1 lab)) =
        (if memB eq A lab then (x0 :: t).getD (idxOfB eq A lab).toNat f else f) := by
      intro lab
      by_cases hm : memB eq A lab
      · have hge := idxOfB_ge_neg eq A lab
        have hlt := idxOfB_lt_length eq A lab hm
        have hne : idxOfB eq A lab ≠ -1 := by
          intro hc
          rw [(idxOfB_eq_neg_one_iff eq A lab).mp hc] at hm
          cases hm
        have hnn : ¬ idxOfB eq A lab < 0 := by
          rcases (lt_or_eq_of_le hge) with h | h
          · omega
          · exact absurd h.symm hne
        have hbound : (idxOfB eq A lab).toNat < (x0 :: t).length := by
          rw [hxlen]; omega
        simp only [hg1, hpick, hm, if_true, hne, if_false, hnn]
        rw [List.getD_eq_getElem _ x0 hbound, List.getD_eq_getElem _ f hbound]
      · simp [hg1, hm]
    rcases Bool.eq_false_or_eq_true ((B.map g1).any fun i => decide (i = -1)) with hany | hany
    · simp only [hany, if_true]
      congr 1
      have hzip : (B.map g1).zip ((B.map g1).map pick) =
          B.map (fun lab => (g1 lab, pick (g1 lab))) := by
        rw [List.map_map, List.zip_map']
        simp [Function.comp]
      rw [hzip, List.map_map]
      refine List.map_congr_left ?_
      intro lab _
      simpa using hpt lab
    · simp only [hany, Bool.false_eq_true, if_false]
      rw [List.map_map]
      congr 1
      refine List.map_congr_left ?_
      intro lab hlab
      have hne : g1 lab ≠ -1 := by
        intro hc
        have : ((B.map g1).any fun i => decide (i = -1)) = true := by
          rw [List.any_eq_true]
          exact ⟨g1 lab, List.mem_map_of_mem g1 hlab, by simp [hc]⟩
        rw [this] at hany
        cases hany
      have := hpt lab
      rw [if_neg hne] at this
      simpa using this

theorem reindex1_len (eq : γ → γ → Bool) (x : List α) (A B : List γ)
    (fl : Option α) (y : List α) (h : reindex1 eq x A B fl = .ok y) :
    y.length = B.length := by
  cases x with
  | nil =>
    cases fl with
    | some f =>
      simp only [reindex1] at h
      cases h
      simp
    | none => simp [reindex1] at h
  | cons x0 t =>
    simp only [reindex1] at h
    rcases Bool.eq_false_or_eq_true
        ((B.map fun lab => if memB eq A lab then idxOfB eq A lab else -1).any
          fun i => decide (i = -1)) with hany | hany
    · rw [hany] at h
      simp only [if_true] at h
      cases fl with
      | none => simp at h
      | some f =>
        simp only [Except.ok.injEq] at h
        subst h
        simp [List.length_zip]
    · rw [hany] at h
      simp only [Bool.false_eq_true, if_false, Except.ok.injEq] at h
      subst h
      simp

/-- C4 helper: the identity-index formula for one reindex pass. -/
theorem reindex1_formula_getD (eq : γ → γ → Bool) (x : List α) (A B : List γ)
    (f : α) (hx : x.length = A.length) (j : Nat) (hj : j < B.length) (d : γ) :
    (okD (reindex1 eq x A B (some f)) []).getD j f =
      (if memB eq A (B.getD j d) then x.getD (idxOfB eq A (B.getD j d)).toNat f
       else f) := by
  rw [reindex1_char eq x A B f hx]
  simp only [okD]
  have hjm : j < (B.map (fun lab =>
      if memB eq A lab then x.getD (idxOfB eq A lab).toNat f else f)).length := by
    simpa using hj
  rw [List.getD_eq_getElem _ f hjm, List.getElem_map, List.getD_eq_getElem B d hj]

/-- C4: for every array `x`, identity sequences `A` and `B`, and fill value
`f`, `reindex(reindex(x, A, B, f), B, A, f)` restores the original value of
`x` at every position whose identity lies in both `A` and `B`; and when `A`
and `B` are disjoint, `reindex(x, A, B, f)` is filled entirely with `f`. -/
theorem reindex_round_trip (x : List Int) (A B : List Int) (f : Int)
    (hA : A.Nodup) (hx : x.length = A.length) :
    (∀ k, k < A.length → memB beqInt B (A.getD k 0) = true →
      (okD ((reindex1 beqInt x A B (some f)).bind
        (fun y => reindex1 beqInt y B A (some f))) []).getD k f = x.getD k f)
    ∧ ((∀ a ∈ A, memB beqInt B a = false) →
      reindex1 beqInt x A B (some f) = .ok (List.replicate B.length f)) := by
  constructor
  · intro k hk hmem
    rw [reindex1_char beqInt x A B f hx]
    set G : Int → Int := fun lab =>
      if memB beqInt A lab then x.getD (idxOfB beqInt A lab).toNat f else f with hG
    set y := B.map G with hy
    have hylen : y.length = B.length := by simp [hy]
    have hbind : (Except.ok y).bind
        (fun y0 => reindex1 beqInt y0 B A (some f)) =
        reindex1 beqInt y B A (some f) := rfl
    rw [hbind, reindex1_formula_getD beqInt y B A f hylen k hk 0, if_pos hmem]
    have hge := idxOfB_ge_neg beqInt B (A.getD k 0)
    have hlt := idxOfB_lt_length beqInt B (A.getD k 0) hmem
    have hne2 : idxOfB beqInt B (A.getD k 0) ≠ -1 := by
      intro hc
      rw [(idxOfB_eq_neg_one_iff beqInt B (A.getD k 0)).mp hc] at hmem
      cases hmem
    have hidxlt : (idxOfB beqInt B (A.getD k 0)).toNat < B.length := by omega
    have hylt : (idxOfB beqInt B (A.getD k 0)).toNat < y.length := by
      rw [hylen]; exact hidxlt
    have hgy : y.getD (idxOfB beqInt B (A.getD k 0)).toNat f =
        G (B.getD (idxOfB beqInt B (A.getD k 0)).toNat 0) := by
      rw [hy, List.getD_eq_getElem _ f hylt, List.getElem_map,
        List.getD_eq_getElem B 0 hidxlt]
    rw [hgy]
    have hBval : B.getD (idxOfB beqInt B (A.getD k 0)).toNat 0 = A.getD k 0 :=
      (beqInt_iff _ _).mp (idxOfB_getD beqInt B (A.getD k 0) 0 hmem)
    rw [hBval, hG]
    have hmemA : memB beqInt A (A.getD k 0) = true :=
      (memB_iff_int A _).mpr (getD_mem_of_lt A k 0 hk)
    show (if memB beqInt A (A.getD k 0) = true then
        x.getD (idxOfB beqInt A (A.getD k 0)).toNat f else f) = x.getD k f
    rw [if_pos hmemA, idxOfB_nodup_self A hA k hk]
    simp
  · intro hdisj
    rw [reindex1_char beqInt x A B f hx]
    congr 1
    have hall : ∀ lab ∈ B,
        (if memB beqInt A lab then x.getD (idxOfB beqInt A lab).toNat f else f) =
          (fun _ => f) lab := by
      intro lab hlab
      have hm : memB beqInt A lab = false := by
        cases hmA : memB beqInt A lab
        · rfl
        · have hlabA : lab ∈ A := (memB_iff_int A lab).mp hmA
          have := hdisj lab hlabA
          rw [(memB_iff_int B lab).mpr hlab] at this
          cases this
      simp [hm]
    rw [List.map_congr_left hall, map_const_eq_replicate]

/-- C4 witness: concrete instances of both clauses. -/
theorem reindex_round_trip_w :
    (okD ((reindex1 beqInt ([5,6] : List Int) [1,2] [2] (some 0)).bind
      (fun y => reindex1 beqInt y [2] [1,2] (some 0))) []).getD 1 0 = 6 ∧
    reindex1 beqInt ([5,6] : List Int) [1,2] [7,8] (some 0) = .ok [0,0] := by
  constructor
  · exact ((reindex_round_trip [5,6] [1,2] [2] 0 (by decide) (by decide)).1 1
      (by decide) (by decide)).trans (by decide : ([5,6] : List Int).getD 1 0 = 6)
  · exact ((reindex_round_trip [5,6] [1,2] [7,8] 0 (by decide) (by decide)).2
      (by decide)).trans
      (by decide : (Except.ok (List.replicate ([7,8] : List Int).length (0 : Int)) :
        Except String (List Int)) = .ok ([0,0] : List Int))

/-- C2: on twelve 1s with labels `[0,0,2,2,2,1,1,2,2,1,1,0]`, `func=sum` and
the fixed output identity set `[0,1,2]`, the reduction returns exactly
`[3,4,5]`. -/
theorem scenario_one :
    groupbyReduceNp sumAgg (List.replicate 12 (1:Int))
      (([0,0,2,2,2,1,1,2,2,1,1,0] : List Int).map some)
      (some (([0,1,2] : List Int).map some)) none =
    .ok ([3,4,5], [some 0, some 1, some 2]) := by decide

/-- C3: with the first five positions marked missing, `func=sum` returns
`[1,4,2]`; missing entries are excluded from every group.  The factorization
assigns missing positions the trailing sentinel code `max+1 = 3` (second
conjunct), and the sentinel bucket is dropped from the per-block result
after the reduction (the returned arrays have one slot per real group
only). -/
theorem scenario_two :
    groupbyReduceNp sumAgg (List.replicate 12 (1:Int))
      [none, none, none, none, none, some 1, some 1, some 2, some 2,
        some 1, some 1, some 0] none none =
      .ok ([1,4,2], [some 0, some 1, some 2]) ∧
    sentinelize (pdFactorize [none, none, none, none, none, some 1, some 1,
        some 2, some 2, some 1, some 1, some 0]).1 =
      [3, 3, 3, 3, 3, 0, 0, 1, 1, 0, 0, 2] := by decide

/-! ### Binned factorization (C6) -/

theorem sortedLt_head_le (a : Int) (t : List Int)
    (hs : List.Sorted (· < ·) (a :: t)) : ∀ e ∈ a :: t, a ≤ e := by
  intro e he
  rcases List.mem_cons.mp he with rfl | he
  · exact le_refl _
  · exact le_of_lt ((List.sorted_cons.mp hs).1 e he)

theorem getLastD_mem (l : List Int) (d : Int) (h : l ≠ []) : l.getLastD d ∈ l := by
  induction l with
  | nil => exact absurd rfl h
  | cons a rest ih =>
    cases rest with
    | nil => simp
    | cons b t =>
      rw [List.getLastD_cons]
      exact List.mem_cons_of_mem a (ih (by simp))

theorem sortedLt_le_getLastD (l : List Int) (hs : List.Sorted (· < ·) l) :
    ∀ e ∈ l, e ≤ l.getLastD 0 := by
  induction l with
  | nil => intro e he; cases he
  | cons a rest ih =>
    intro e he
    cases rest with
    | nil =>
      rcases List.mem_cons.mp he with rfl | he
      · simp
      · cases he
    | cons b t =>
      rw [List.getLastD_cons]
      rcases List.mem_cons.mp he with rfl | he
      · have hbt := (List.sorted_cons.mp hs).1
        have hm : (b :: t).getLastD 0 ∈ b :: t := getLastD_mem _ 0 (by simp)
        exact le_of_lt (hbt _ hm)
      · exact ih (List.sorted_cons.mp hs).2 e he

theorem digitize_in_bin (edges : List Int) (v : Int)
    (hs : List.Sorted (· < ·) edges) :
    ∀ j, j + 1 < edges.length → edges.getD j 0 ≤ v → v < edges.getD (j+1) 0 →
      digitize v edges = (j : Int) + 1 := by
  induction edges with
  | nil => intro j hj; simp at hj
  | cons a rest ih =>
    intro j hj hle hlt
    have hsr : List.Sorted (· < ·) rest := (List.sorted_cons.mp hs).2
    cases j with
    | zero =>
      cases rest with
      | nil => simp at hj
      | cons b t =>
        simp only [List.getD_cons_zero] at hle
        have hltb : v < b := by simpa using hlt
        have hzero : (b :: t).countP (fun e => decide (e ≤ v)) = 0 := by
          rw [List.countP_eq_zero]
          intro e he
          have hbe := sortedLt_head_le b t hsr e he
          simp only [decide_eq_true_eq]
          omega
        simp only [digitize, List.countP_cons, hzero, decide_eq_true_eq, hle,
          if_pos, decide_eq_true_eq]
        simp [hle]
    | succ j' =>
      have hj' : j' + 1 < rest.length := by simpa using hj
      have hle' : rest.getD j' 0 ≤ v := by simpa using hle
      have hlt' : v < rest.getD (j' + 1) 0 := by simpa using hlt
      have hav : a ≤ v := by
        have hmem : rest.getD j' 0 ∈ rest := getD_mem_of_lt rest j' 0 (by omega)
        have := (List.sorted_cons.mp hs).1 _ hmem
        omega
      have hrec := ih hsr j' hj' hle' hlt'
      simp only [digitize] at hrec ⊢
      rw [List.countP_cons]
      simp only [decide_eq_true_eq, hav, if_pos]
      push_cast
      push_cast at hrec
      omega

/-- C6 counterexample: with bin edges `[10, 20]` (one bin `[10, 20)`), the
value 15 inside the bin at position 0 of the fixed set receives group index
1 - not the bin's position 0 - and the value 5 outside every bin receives
group index 0, not `-1`. -/
theorem factorize_binned_cx :
    (okD (factorizeBinned [15] (some [10, 20])) ([], [])).1 = [1] ∧
    ¬ (okD (factorizeBinned [15] (some [10, 20])) ([], [])).1 = [0] ∧
    (okD (factorizeBinned [5] (some [10, 20])) ([], [])).1 = [0] ∧
    ¬ (okD (factorizeBinned [5] (some [10, 20])) ([], [])).1 = [-1] := by
  decide

/-- C6 amended: when a fixed binned output set is requested, the group index
of a value is `np.digitize` against the edges: `1 + (position of the
containing bin)` for in-range values, 0 below the first edge, and
`len(edges)` at or above the last edge; indices are never `-1`, and the edge
list itself is recorded as the found groups. -/
theorem factorize_binned_char (edges : List Int) (v : Int)
    (hs : List.Sorted (· < ·) edges) :
    ((edges ≠ [] → v < edges.getD 0 0 →
        factorizeBinned [v] (some edges) = .ok ([0], edges)) ∧
     (∀ j, j + 1 < edges.length → edges.getD j 0 ≤ v → v < edges.getD (j+1) 0 →
        factorizeBinned [v] (some edges) = .ok ([(j : Int) + 1], edges)) ∧
     (edges ≠ [] → edges.getLastD 0 ≤ v →
        factorizeBinned [v] (some edges) = .ok ([(edges.length : Int)], edges)) ∧
     0 ≤ digitize v edges) := by
  refine ⟨?_, ?_, ?_, ?_⟩
  · intro hne hv
    have hzero : edges.countP (fun e => decide (e ≤ v)) = 0 := by
      rw [List.countP_eq_zero]
      intro e he
      cases edges with
      | nil => cases he
      | cons a rest =>
        have := sortedLt_head_le a rest hs e he
        simp only [List.getD_cons_zero] at hv
        simp only [decide_eq_true_eq]
        omega
    simp [factorizeBinned, digitize, hzero]
  · intro j hj hle hlt
    have := digitize_in_bin edges v hs j hj hle hlt
    simp [factorizeBinned, this]
  · intro hne hv
    have hall : edges.countP (fun e => decide (e ≤ v)) = edges.length := by
      rw [List.countP_eq_length]
      intro e he
      have := sortedLt_le_getLastD edges hs e he
      simp only [decide_eq_true_eq]
      omega
    simp [factorizeBinned, digitize, hall]
  · simp [digitize]

/-- C6 amended witness: concrete instances of the three positional clauses. -/
theorem factorize_binned_char_w :
    factorizeBinned [5] (some [10, 20]) = .ok ([0], [10, 20]) ∧
    factorizeBinned [15] (some [10, 20]) = .ok ([1], [10, 20]) ∧
    factorizeBinned [25] (some [10, 20]) = .ok ([2], [10, 20]) := by
  refine ⟨?_, ?_, ?_⟩
  · exact (factorize_binned_char [10, 20] 5 (by decide)).1 (by decide) (by decide)
  · exact ((factorize_binned_char [10, 20] 15 (by decide)).2.1 0 (by decide)
      (by decide) (by decide)).trans (by decide)
  · exact ((factorize_binned_char [10, 20] 25 (by decide)).2.2.1 (by decide)
      (by decide)).trans (by decide)

/-! ### Eager axis-subset validation (C7) -/

/-- C7 counterexample: reducing over the strict subset `axis=(1,2)` of a
3-dimensional label array without `expected_groups` is NOT rejected - the
validation succeeds, against the claim that every strict-subset call raises
eagerly.  (The source only raises for `len(axis) == 1 and by.ndim > 1`.) -/
theorem axis_subset_cx :
    groupbyReduceValidate [2,2,2] [2,2,2] (some [1,2]) false false = .ok [1,2] ∧
    (normalizeAxis (some [1,2]) 3 3).length < 3 := by decide

/-- C7 amended: the eager `NotImplementedError` fires exactly when the
normalized axis tuple has length one, the label array is multi-dimensional,
and `expected_groups` is still absent after the numpy-only defaulting (so
never for materialized numpy labels); reducing over a strict subset of two
or more axes passes validation. -/
theorem axis_subset_check (ashape bshape : List Nat) (axis : Option (List Int))
    (eg np1 : Bool)
    (hshape : ashape.drop (ashape.length - bshape.length) = bshape) :
    (groupbyReduceValidate ashape bshape axis eg np1 =
        .error "Please provide expected_groups when not reducing along all axes."
      ↔ ((normalizeAxis axis ashape.length bshape.length).length = 1 ∧
          bshape.length > 1 ∧ eg = false ∧ np1 = false)) ∧
    (1 < (normalizeAxis axis ashape.length bshape.length).length →
      groupbyReduceValidate ashape bshape axis eg np1 =
        .ok (normalizeAxis axis ashape.length bshape.length)) := by
  have hor : (eg || np1) = false ↔ eg = false ∧ np1 = false := by
    cases eg <;> cases np1 <;> simp
  constructor
  · simp only [groupbyReduceValidate, hshape, if_neg (by simp : ¬ bshape ≠ bshape)]
    by_cases hc : (normalizeAxis axis ashape.length bshape.length).length = 1 ∧
        bshape.length > 1 ∧ (eg || np1) = false
    · rw [if_pos hc]
      constructor
      · intro _
        exact ⟨hc.1, hc.2.1, hor.mp hc.2.2⟩
      · intro _
        rfl
    · rw [if_neg hc]
      constructor
      · intro hcontra
        cases hcontra
      · rintro ⟨h1, h2, h3, h4⟩
        exact absurd ⟨h1, h2, hor.mpr ⟨h3, h4⟩⟩ hc
  · intro hlen
    simp only [groupbyReduceValidate, hshape, if_neg (by simp : ¬ bshape ≠ bshape)]
    rw [if_neg ?_]
    intro hc
    exact absurd hc.1 (by omega)

/-- C7 amended witness: a single-axis call over 2-D labels raises, a
two-axis strict subset over 3-D labels passes. -/
theorem axis_subset_check_w :
    groupbyReduceValidate [2,2] [2,2] (some [1]) false false =
      .error "Please provide expected_groups when not reducing along all axes." ∧
    groupbyReduceValidate [2,2,2] [2,2,2] (some [1,2]) false false = .ok [1,2] := by
  constructor
  · exact (axis_subset_check [2,2] [2,2] (some [1]) false false (by decide)).1.mpr
      (by decide)
  · exact ((axis_subset_check [2,2,2] [2,2,2] (some [1,2]) false false
      (by decide)).2 (by decide)).trans (by decide)

/-! ### Label offsetting (C8) -/

theorem foldlMax_init_le (l : List Int) (a : Int) : a ≤ l.foldl max a := by
  induction l generalizing a with
  | nil => simp
  | cons b rest ih => exact le_trans (le_max_left a b) (ih (max a b))

theorem foldlMax_le_of_mem (l : List Int) (a x : Int) (h : x ∈ l) :
    x ≤ l.foldl max a := by
  induction l generalizing a with
  | nil => cases h
  | cons b rest ih =>
    rcases List.mem_cons.mp h with rfl | h
    · exact le_trans (le_max_right a x) (foldlMax_init_le rest (max a x))
    · exact ih (max a b) h

/-- C8: `offset_labels` on 2-D group labels with entries ≥ -1 maps the entry
`l` of untouched-dimension slice `p` to `l + p * ngroups`, preserves every
`-1` exclusion marker, and lands every offset index in the flat 1-D index
space of size `num_slices * ngroups`. -/
theorem offset_labels_spec (labels : List (List Int))
    (h : ∀ row ∈ labels, ∀ l ∈ row, -1 ≤ l) :
    (offsetLabels labels).2.2 = (labels.length : Int) * (offsetLabels labels).2.1 ∧
    ∀ p q, p < labels.length → q < (labels.getD p []).length →
      (((labels.getD p []).getD q 0 = -1 →
         ((offsetLabels labels).1.getD p []).getD q 0 = -1) ∧
       ((labels.getD p []).getD q 0 ≠ -1 →
         ((offsetLabels labels).1.getD p []).getD q 0 =
           (labels.getD p []).getD q 0 + (p : Int) * (offsetLabels labels).2.1 ∧
         0 ≤ ((offsetLabels labels).1.getD p []).getD q 0 ∧
         ((offsetLabels labels).1.getD p []).getD q 0 < (offsetLabels labels).2.2)) := by
  constructor
  · rfl
  · intro p q hp hq
    set ng : Int := labels.flatten.foldl max (-1) + 1 with hng
    have hng_def : (offsetLabels labels).2.1 = ng := rfl
    have hsize_def : (offsetLabels labels).2.2 = (labels.length : Int) * ng := rfl
    have hgetDp : labels.getD p [] = labels[p] := List.getD_eq_getElem labels [] hp
    rw [hgetDp] at hq
    have hp2 : p < ((((labels.enum.map
        (fun pr => pr.2.map (fun l => l + (pr.1 : Int) * ng))).zip labels)).map
          (fun rr => (rr.1.zip rr.2).map
            (fun ol => if ol.2 = -1 then -1 else ol.1))).length := by
      simp [List.length_zip]
      omega
    have hrow : (offsetLabels labels).1.getD p [] =
        ((labels[p].map (fun l => l + (p : Int) * ng)).zip labels[p]).map
          (fun ol => if ol.2 = -1 then -1 else ol.1) := by
      show (((labels.enum.map
          (fun pr => pr.2.map (fun l => l + (pr.1 : Int) * ng))).zip labels).map
          (fun rr => (rr.1.zip rr.2).map
            (fun ol => if ol.2 = -1 then -1 else ol.1))).getD p [] = _
      rw [List.getD_eq_getElem _ [] hp2, List.getElem_map, List.getElem_zip,
        List.getElem_map, List.getElem_enum]
    have hqz : q < (((labels[p].map (fun l => l + (p : Int) * ng)).zip
        labels[p]).map (fun ol => if ol.2 = -1 then -1 else ol.1)).length := by
      simp [List.length_zip]
      omega
    have hqm : q < (labels[p].map (fun l => l + (p : Int) * ng)).length := by
      simpa using hq
    have hentry : ((offsetLabels labels).1.getD p []).getD q 0 =
        (if labels[p][q] = -1 then -1 else labels[p][q] + (p : Int) * ng) := by
      rw [hrow, List.getD_eq_getElem _ 0 hqz, List.getElem_map, List.getElem_zip,
        List.getElem_map]
    have hgetDq : (labels.getD p []).getD q 0 = labels[p][q] := by
      rw [hgetDp, List.getD_eq_getElem _ 0 hq]
    rw [hgetDq, hentry, hng_def, hsize_def]
    constructor
    · intro hneg
      rw [if_pos hneg]
    · intro hpos
      rw [if_neg hpos]
      have hmemrow : labels[p][q] ∈ labels[p] := List.getElem_mem hq
      have hmemlabels : labels[p] ∈ labels := List.getElem_mem hp
      have hge : -1 ≤ labels[p][q] := h _ hmemlabels _ hmemrow
      have hflat : labels[p][q] ∈ labels.flatten :=
        List.mem_flatten.mpr ⟨labels[p], hmemlabels, hmemrow⟩
      have hle : labels[p][q] ≤ labels.flatten.foldl max (-1) :=
        foldlMax_le_of_mem _ _ _ hflat
      have hlt_ng : labels[p][q] < ng := by omega
      have hng_pos : 0 < ng := by omega
      refine ⟨rfl, ?_, ?_⟩
      · have : 0 ≤ (p : Int) * ng :=
          mul_nonneg (by exact_mod_cast Nat.zero_le p) (le_of_lt hng_pos)
        omega
      · have h1 : labels[p][q] + (p : Int) * ng < ((p : Int) + 1) * ng := by
          have : ((p : Int) + 1) * ng = (p : Int) * ng + ng := by ring
          omega
        have h2 : ((p : Int) + 1) * ng ≤ (labels.length : Int) * ng := by
          refine mul_le_mul_of_nonneg_right ?_ (le_of_lt hng_pos)
          exact_mod_cast hp
        omega

/-- C8 witness: the concrete offsetting of `[[0,1,-1],[2,0,1]]`
(`ngroups = 3`): size 6, entry (1,0) maps to `2 + 1*3 = 5`, the `-1` at
(0,2) is preserved. -/
theorem offset_labels_spec_w :
    (offsetLabels [[0,1,-1],[2,0,1]]).2.2 = 6 ∧
    ((offsetLabels [[0,1,-1],[2,0,1]]).1.getD 1 []).getD 0 0 = 5 ∧
    ((offsetLabels [[0,1,-1],[2,0,1]]).1.getD 0 []).getD 2 0 = -1 := by
  have h := offset_labels_spec [[0,1,-1],[2,0,1]] (by decide)
  refine ⟨?_, ?_, ?_⟩
  · exact h.1.trans (by decide)
  · exact (((h.2 1 0 (by decide) (by decide)).2 (by decide)).1).trans (by decide)
  · exact (h.2 0 2 (by decide) (by decide)).1 (by decide)

/-! ### 2-D Reindexer contract (C5) -/

/-- C5 counterexample: for axis 0 with empty `from_identities` (so the array
is empty along axis 0), the result is the empty array of shape
`(0, len(to))` - its reindexed axis has length 0, not `len(to_identities)`,
because the shortcut builds `np.full(array.shape[:-1] + (len(to),), ...)`
regardless of the axis. -/
theorem reindex2_axis0_empty_cx :
    reindex2 beqInt ([] : List (List Int)) 1 [] [0] (some 7) true = .ok [] ∧
    (okD (reindex2 beqInt ([] : List (List Int)) 1 [] [0] (some 7) true)
      [[99]]).length ≠ 1 := by
  decide

/-- Shared pointwise characterization of the fancy-index-then-overwrite
step of `reindex_`. -/
theorem reindex_core_char (eq : γ → γ → Bool) (A B : List γ) (pick : Int → β)
    (fv : β) (pickv : γ → β)
    (hpick : ∀ lab, memB eq A lab = true → pick (idxOfB eq A lab) = pickv lab) :
    (((B.map (fun lab => if memB eq A lab then idxOfB eq A lab else -1)).zip
        ((B.map (fun lab => if memB eq A lab then idxOfB eq A lab else -1)).map
          pick)).map (fun p => if p.1 = -1 then fv else p.2)) =
      B.map (fun lab => if memB eq A lab then pickv lab else fv) ∧
    (((B.map (fun lab => if memB eq A lab then idxOfB eq A lab else -1)).any
        (fun i => i = -1)) = false →
      (B.map (fun lab => if memB eq A lab then idxOfB eq A lab else -1)).map pick =
      B.map (fun lab => if memB eq A lab then pickv lab else fv)) := by
  set g1 : γ → Int := fun lab =>
    if memB eq A lab then idxOfB eq A lab else -1 with hg1
  have hpt : ∀ lab, (if g1 lab = -1 then fv else pick (g1 lab)) =
      (if memB eq A lab then pickv lab else fv) := by
    intro lab
    by_cases hm : memB eq A lab
    · have hne : g1 lab ≠ -1 := by
        rw [hg1]
        simp only [hm, if_true]
        intro hc
        rw [(idxOfB_eq_neg_one_iff eq A lab).mp hc] at hm
        cases hm
      rw [if_neg hne, if_pos hm, hg1]
      simp only [hm, if_true]
      exact hpick lab hm
    · have he : g1 lab = -1 := by
        rw [hg1]
        simp [hm]
      rw [if_pos he, if_neg hm]
  constructor
  · have hzip : (B.map g1).zip ((B.map g1).map pick) =
        B.map (fun lab => (g1 lab, pick (g1 lab))) := by
      rw [List.map_map, List.zip_map']
      simp [Function.comp]
    rw [hzip, List.map_map]
    refine List.map_congr_left ?_
    intro lab _
    simpa using hpt lab
  · intro hany
    rw [List.map_map]
    refine List.map_congr_left ?_
    intro lab hlab
    have hne : g1 lab ≠ -1 := by
      intro hc
      have : ((B.map g1).any fun i => decide (i = -1)) = true := by
        rw [List.any_eq_true]
        exact ⟨g1 lab, List.mem_map_of_mem g1 hlab, by simp [hc]⟩
      rw [this] at hany
      cases hany
    have := hpt lab
    rw [if_neg hne] at this
    simpa using this

/-- C5 amended: the Reindexer copies through target positions whose identity
is present in `from_identities`, fills absent positions with `fill_value`
(rows of fill for axis 0), and raises when `fill_value` is `None` while
absent positions exist - for both axis conventions; the output element type
equals the input element type by construction.  With empty
`from_identities` (the reindexed axis having length 0) the last-axis
convention returns the all-fill array of the target shape, but the axis-0
convention returns the empty array of shape `(0, len(to))` instead of
`len(to)` rows. -/
theorem reindexer_contract (x : List (List Int)) (ncols : Nat) (A B : List Int)
    (f : Int) (hrect : ∀ r ∈ x, r.length = ncols) :
    (ncols ≠ 0 → ncols = A.length →
      reindex2 beqInt x ncols A B (some f) false =
        .ok (x.map (fun row => B.map (fun lab =>
          if memB beqInt A lab then row.getD (idxOfB beqInt A lab).toNat f
          else f)))) ∧
    (ncols ≠ 0 → (∃ b ∈ B, memB beqInt A b = false) →
      reindex2 beqInt x ncols A B none false =
        .error "Filling is required. fill_value cannot be None.") ∧
    (ncols = 0 →
      reindex2 beqInt x ncols A B (some f) false =
        .ok (List.replicate x.length (List.replicate B.length f))) ∧
    (x.length ≠ 0 → x.length = A.length →
      reindex2 beqInt x ncols A B (some f) true =
        .ok (B.map (fun lab =>
          if memB beqInt A lab then x.getD (idxOfB beqInt A lab).toNat []
          else List.replicate ncols f))) ∧
    (x.length ≠ 0 → (∃ b ∈ B, memB beqInt A b = false) →
      reindex2 beqInt x ncols A B none true =
        .error "Filling is required. fill_value cannot be None.") ∧
    (x.length = 0 → reindex2 beqInt x ncols A B (some f) true = .ok []) := by
  have hanytrue : (∃ b ∈ B, memB beqInt A b = false) →
      ((B.map (fun lab =>
        if memB beqInt A lab then idxOfB beqInt A lab else -1)).any
        (fun i => i = -1)) = true := by
    rintro ⟨b, hb, habs⟩
    rw [List.any_eq_true]
    refine ⟨-1, ?_, by simp⟩
    rw [List.mem_map]
    exact ⟨b, hb, by simp [habs]⟩
  refine ⟨?_, ?_, ?_, ?_, ?_, ?_⟩
  · intro hnc hA
    simp only [reindex2, Bool.false_eq_true, if_false]
    rw [if_neg (by simpa using hnc)]
    rcases Bool.eq_false_or_eq_true ((B.map (fun lab =>
        if memB beqInt A lab then idxOfB beqInt A lab else -1)).any
        (fun i => i = -1)) with hany | hany
    · rw [hany]
      simp only [if_true]
      congr 1
      refine List.map_congr_left ?_
      intro row hrow
      have hrl : row.length = ncols := hrect row hrow
      refine ((reindex_core_char beqInt A B
        (fun i => if i < 0 then row.getLastD default else row.getD i.toNat default)
        f (fun lab => row.getD (idxOfB beqInt A lab).toNat f) ?_).1)
      intro lab hm
      have hge := idxOfB_ge_neg beqInt A lab
      have hlt := idxOfB_lt_length beqInt A lab hm
      have hnn : ¬ idxOfB beqInt A lab < 0 := by
        have hne : idxOfB beqInt A lab ≠ -1 := by
          intro hc
          rw [(idxOfB_eq_neg_one_iff beqInt A lab).mp hc] at hm
          cases hm
        omega
      have hbound : (idxOfB beqInt A lab).toNat < row.length := by
        rw [hrl, hA]
        omega
      simp only [hnn, if_false]
      rw [List.getD_eq_getElem _ default hbound, List.getD_eq_getElem _ f hbound]
    · rw [hany]
      simp only [Bool.false_eq_true, if_false]
      congr 1
      refine List.map_congr_left ?_
      intro row hrow
      have hrl : row.length = ncols := hrect row hrow
      refine ((reindex_core_char beqInt A B
        (fun i => if i < 0 then row.getLastD default else row.getD i.toNat default)
        f (fun lab => row.getD (idxOfB beqInt A lab).toNat f) ?_).2 hany)
      intro lab hm
      have hge := idxOfB_ge_neg beqInt A lab
      have hlt := idxOfB_lt_length beqInt A lab hm
      have hnn : ¬ idxOfB beqInt A lab < 0 := by
        have hne : idxOfB beqInt A lab ≠ -1 := by
          intro hc
          rw [(idxOfB_eq_neg_one_iff beqInt A lab).mp hc] at hm
          cases hm
        omega
      have hbound : (idxOfB beqInt A lab).toNat < row.length := by
        rw [hrl, hA]
        omega
      simp only [hnn, if_false]
      rw [List.getD_eq_getElem _ default hbound, List.getD_eq_getElem _ f hbound]
  · intro hnc hex
    simp only [reindex2]
    rw [if_neg (by simpa using hnc)]
    simp only [Bool.false_eq_true, if_false]
    rw [hanytrue hex]
    simp
  · intro hz
    subst hz
    simp [reindex2]
  · intro hnx hA
    simp only [reindex2, if_true]
    rw [if_neg (by simpa using hnx)]
    rcases Bool.eq_false_or_eq_true ((B.map (fun lab =>
        if memB beqInt A lab then idxOfB beqInt A lab else -1)).any
        (fun i => i = -1)) with hany | hany
    · rw [hany]
      simp only [if_true]
      congr 1
      refine ((reindex_core_char beqInt A B
        (fun i => if i < 0 then x.getLastD [] else x.getD i.toNat [])
        (List.replicate ncols f)
        (fun lab => x.getD (idxOfB beqInt A lab).toNat []) ?_).1)
      intro lab hm
      have hge := idxOfB_ge_neg beqInt A lab
      have hne : idxOfB beqInt A lab ≠ -1 := by
        intro hc
        rw [(idxOfB_eq_neg_one_iff beqInt A lab).mp hc] at hm
        cases hm
      have hnn : ¬ idxOfB beqInt A lab < 0 := by omega
      simp only [hnn, if_false]
    · rw [hany]
      simp only [Bool.false_eq_true, if_false]
      congr 1
      refine ((reindex_core_char beqInt A B
        (fun i => if i < 0 then x.getLastD [] else x.getD i.toNat [])
        (List.replicate ncols f)
        (fun lab => x.getD (idxOfB beqInt A lab).toNat []) ?_).2 hany)
      intro lab hm
      have hge := idxOfB_ge_neg beqInt A lab
      have hne : idxOfB beqInt A lab ≠ -1 := by
        intro hc
        rw [(idxOfB_eq_neg_one_iff beqInt A lab).mp hc] at hm
        cases hm
      have hnn : ¬ idxOfB beqInt A lab < 0 := by omega
      simp only [hnn, if_false]
  · intro hnx hex
    simp only [reindex2, if_true]
    rw [if_neg (by simpa using hnx)]
    rw [hanytrue hex]
    simp
  · intro hz
    have hx : x = [] := List.length_eq_zero.mp hz
    subst hx
    simp [reindex2]

/-- C5 amended witness: copy-through and fill on the last axis, the
`None`-fill error, and an axis-0 instance. -/
theorem reindexer_contract_w :
    reindex2 beqInt ([[1,2]] : List (List Int)) 2 [10,20] [20,30] (some 7) false =
      .ok [[2,7]] ∧
    reindex2 beqInt ([[1,2]] : List (List Int)) 2 [10,20] [20,30] none false =
      .error "Filling is required. fill_value cannot be None." ∧
    reindex2 beqInt ([[1],[2]] : List (List Int)) 1 [10,20] [20,30] (some 7) true =
      .ok [[2],[7]] := by
  refine ⟨?_, ?_, ?_⟩
  · exact ((reindexer_contract [[1,2]] 2 [10,20] [20,30] 7 (by decide)).1
      (by decide) (by decide)).trans (by decide)
  · exact (reindexer_contract [[1,2]] 2 [10,20] [20,30] 7 (by decide)).2.1
      (by decide) (by decide)
  · exact ((reindexer_contract [[1],[2]] 1 [10,20] [20,30] 7 (by decide)).2.2.2.1
      (by decide) (by decide)).trans (by decide)

/-! ### First-appearance and sorted-unique machinery -/

theorem mem_firstAppAux (seen l : List Int) (x : Int) :
    x ∈ firstAppAux seen l ↔ x ∈ l ∧ x ∉ seen := by
  induction l generalizing seen with
  | nil => simp [firstAppAux]
  | cons a rest ih =>
    by_cases ha : a ∈ seen
    · rw [firstAppAux, if_pos ha, ih]
      constructor
      · rintro ⟨hx, hs⟩
        exact ⟨List.mem_cons_of_mem a hx, hs⟩
      · rintro ⟨hx, hs⟩
        rcases List.mem_cons.mp hx with rfl | hx
        · exact absurd ha hs
        · exact ⟨hx, hs⟩
    · rw [firstAppAux, if_neg ha]
      simp only [List.mem_cons, ih]
      by_cases hxa : x = a
      · subst hxa
        simp [ha]
      · tauto

theorem nodup_firstAppAux (seen l : List Int) : (firstAppAux seen l).Nodup := by
  induction l generalizing seen with
  | nil => simp [firstAppAux]
  | cons a rest ih =>
    by_cases ha : a ∈ seen
    · rw [firstAppAux, if_pos ha]
      exact ih seen
    · rw [firstAppAux, if_neg ha]
      refine List.nodup_cons.mpr ⟨?_, ih (a :: seen)⟩
      intro hc
      exact ((mem_firstAppAux (a :: seen) rest a).mp hc).2
        (List.mem_cons.mpr (Or.inl rfl))

theorem mem_firstApp (l : List Int) (x : Int) : x ∈ firstApp l ↔ x ∈ l := by
  rw [firstApp, mem_firstAppAux]
  simp

theorem nodup_firstApp (l : List Int) : (firstApp l).Nodup :=
  nodup_firstAppAux [] l

theorem dedupAdj_sublist (eq : γ → γ → Bool) (l : List γ) :
    (dedupAdj eq l).Sublist l := by
  induction l with
  | nil => simp [dedupAdj]
  | cons a rest ih =>
    cases rest with
    | nil => simp [dedupAdj]
    | cons b t =>
      rw [dedupAdj]
      by_cases hab : eq a b
      · rw [if_pos hab]
        exact ih.cons a
      · rw [if_neg hab]
        exact ih.cons₂ a

theorem mem_dedupAdj_int (m : List Int) (x : Int) :
    x ∈ dedupAdj beqInt m ↔ x ∈ m := by
  constructor
  · intro h
    exact (dedupAdj_sublist beqInt m).mem h
  · intro h
    induction m with
    | nil => cases h
    | cons a rest ih =>
      cases rest with
      | nil => simpa [dedupAdj] using h
      | cons b t =>
        rw [dedupAdj]
        by_cases hab : beqInt a b
        · rw [if_pos hab]
          have hab' : a = b := (beqInt_iff a b).mp hab
          rcases List.mem_cons.mp h with rfl | h2
          · exact ih (by simp [hab'])
          · exact ih h2
        · rw [if_neg hab]
          rcases List.mem_cons.mp h with rfl | h2
          · exact List.mem_cons.mpr (Or.inl rfl)
          · exact List.mem_cons.mpr (Or.inr (ih h2))

theorem sorted_dedupAdj_int (m : List Int) (hs : List.Sorted (· ≤ ·) m) :
    List.Sorted (· ≤ ·) (dedupAdj beqInt m) :=
  hs.sublist (dedupAdj_sublist beqInt m)

theorem nodup_dedupAdj_int (m : List Int) (hs : List.Sorted (· ≤ ·) m) :
    (dedupAdj beqInt m).Nodup := by
  induction m with
  | nil => simp [dedupAdj]
  | cons a rest ih =>
    cases rest with
    | nil => simp [dedupAdj]
    | cons b t =>
      have hsr : List.Sorted (· ≤ ·) (b :: t) := (List.sorted_cons.mp hs).2
      rw [dedupAdj]
      by_cases hab : beqInt a b
      · rw [if_pos hab]
        exact ih hsr
      · rw [if_neg hab]
        refine List.nodup_cons.mpr ⟨?_, ih hsr⟩
        intro hc
        have hmem : a ∈ b :: t := (dedupAdj_sublist beqInt (b :: t)).mem hc
        have hne : a ≠ b := fun hc2 => hab ((beqInt_iff a b).mpr hc2)
        rcases List.mem_cons.mp hmem with rfl | hmem2
        · exact hne rfl
        · have hle : a ≤ b := (List.sorted_cons.mp hs).1 b
            (List.mem_cons.mpr (Or.inl rfl))
          have hge : b ≤ a := (List.sorted_cons.mp hsr).1 a hmem2
          exact hne (le_antisymm hle hge)

theorem uniqInt_sorted (l : List Int) : List.Sorted (· ≤ ·) (uniqInt l) :=
  sorted_dedupAdj_int _ (List.sorted_insertionSort _ l)

theorem uniqInt_nodup (l : List Int) : (uniqInt l).Nodup :=
  nodup_dedupAdj_int _ (List.sorted_insertionSort _ l)

theorem mem_uniqInt (l : List Int) (x : Int) : x ∈ uniqInt l ↔ x ∈ l := by
  rw [uniqInt, mem_dedupAdj_int, sortInt, List.mem_insertionSort]

/-- Two sorted duplicate-free integer lists with the same members are
equal. -/
theorem sorted_nodup_ext (l1 l2 : List Int)
    (hs1 : List.Sorted (· ≤ ·) l1) (hs2 : List.Sorted (· ≤ ·) l2)
    (hn1 : l1.Nodup) (hn2 : l2.Nodup)
    (hm : ∀ a, a ∈ l1 ↔ a ∈ l2) : l1 = l2 := by
  have hperm : l1.Perm l2 := (List.perm_ext_iff_of_nodup hn1 hn2).mpr hm
  exact List.eq_of_perm_of_sorted hperm hs1 hs2

theorem sortInt_firstApp_eq_uniqInt (l : List Int) :
    sortInt (firstApp l) = uniqInt l := by
  refine sorted_nodup_ext _ _ (List.sorted_insertionSort _ _) (uniqInt_sorted l)
    ((List.perm_insertionSort _ _).nodup_iff.mpr (nodup_firstApp l))
    (uniqInt_nodup l) ?_
  intro a
  rw [sortInt, List.mem_insertionSort, mem_firstApp, mem_uniqInt]

theorem orderedInsert_map_some (v : Int) (s : List Int) :
    List.orderedInsert LblLe (some v) (s.map some) =
      (List.orderedInsert (· ≤ ·) v s).map some := by
  induction s with
  | nil => rfl
  | cons b t ih =>
    by_cases hvb : v ≤ b
    · have h1 : LblLe (some v) (some b) := by
        simp [LblLe, lblLe, hvb]
      rw [List.map_cons, List.orderedInsert, if_pos h1,
        List.orderedInsert, if_pos hvb]
      rfl
    · have h1 : ¬ LblLe (some v) (some b) := by
        simp [LblLe, lblLe, hvb]
      rw [List.map_cons, List.orderedInsert, if_neg h1,
        List.orderedInsert, if_neg hvb, List.map_cons, ih]

theorem sortLbl_map_some (l : List Int) :
    sortLbl (l.map some) = (sortInt l).map some := by
  induction l with
  | nil => rfl
  | cons a t ih =>
    rw [List.map_cons, sortLbl]
    simp only [List.insertionSort]
    rw [sortLbl] at ih
    rw [ih]
    have hr : sortInt (a :: t) = List.orderedInsert (· ≤ ·) a (sortInt t) := by
      rw [sortInt, sortInt]
      simp only [List.insertionSort]
    rw [hr, orderedInsert_map_some]

theorem orderedInsert_none_all_none (k : Nat) :
    List.orderedInsert LblLe none (List.replicate k none) =
      List.replicate (k + 1) none := by
  cases k with
  | zero => rfl
  | succ k' =>
    rw [List.replicate_succ]
    simp only [List.orderedInsert]
    rw [if_pos (by simp [LblLe, lblLe] : LblLe none none)]
    rfl

theorem orderedInsert_none_decomp (s : List Int) (k : Nat) :
    List.orderedInsert LblLe none (s.map some ++ List.replicate k none) =
      s.map some ++ List.replicate (k + 1) none := by
  induction s with
  | nil =>
    simp only [List.map_nil, List.nil_append]
    exact orderedInsert_none_all_none k
  | cons w s' ih =>
    have h1 : ¬ LblLe none (some w) := by
      simp [LblLe, lblLe]
    rw [List.map_cons, List.cons_append]
    simp only [List.orderedInsert]
    rw [if_neg h1, ih]
    rfl

theorem orderedInsert_some_decomp (v : Int) (s : List Int) (k : Nat) :
    List.orderedInsert LblLe (some v) (s.map some ++ List.replicate k none) =
      (List.orderedInsert (· ≤ ·) v s).map some ++ List.replicate k none := by
  induction s with
  | nil =>
    cases k with
    | zero => rfl
    | succ k' =>
      rw [List.map_nil, List.nil_append, List.replicate_succ]
      simp only [List.orderedInsert]
      rw [if_pos (by simp [LblLe, lblLe] : LblLe (some v) none)]
      rfl
  | cons w s' ih =>
    by_cases hvw : v ≤ w
    · have h1 : LblLe (some v) (some w) := by simp [LblLe, lblLe, hvw]
      rw [List.map_cons, List.cons_append]
      simp only [List.orderedInsert]
      rw [if_pos h1, if_pos hvw]
      rfl
    · have h1 : ¬ LblLe (some v) (some w) := by simp [LblLe, lblLe, hvw]
      rw [List.map_cons, List.cons_append]
      simp only [List.orderedInsert]
      rw [if_neg h1, if_neg hvw, List.map_cons, List.cons_append, ih]

/-- `np.sort` on floats: the non-NaN values sorted, then all the NaNs. -/
theorem sortLbl_decomp (l : List Lbl) :
    sortLbl l = (sortInt (l.filterMap id)).map some ++
      List.replicate (l.countP (fun x => x.isNone)) none := by
  induction l with
  | nil => rfl
  | cons a t ih =>
    cases a with
    | none =>
      rw [sortLbl]
      simp only [List.insertionSort]
      rw [sortLbl] at ih
      rw [ih]
      have hfm : (none :: t).filterMap (id : Lbl → Option Int) = t.filterMap id := by
        simp
      have hcp : (none :: t).countP (fun x => x.isNone) =
          t.countP (fun x => x.isNone) + 1 := by
        rw [List.countP_cons]
        simp
      rw [hfm, hcp]
      exact orderedInsert_none_decomp _ _
    | some v =>
      rw [sortLbl]
      simp only [List.insertionSort]
      rw [sortLbl] at ih
      rw [ih]
      have hfm : (some v :: t).filterMap (id : Lbl → Option Int) =
          v :: t.filterMap id := by
        simp
      have hcp : (some v :: t).countP (fun x => x.isNone) =
          t.countP (fun x => x.isNone) := by
        rw [List.countP_cons]
        simp
      have hr : sortInt (v :: t.filterMap id) =
          List.orderedInsert (· ≤ ·) v (sortInt (t.filterMap id)) := by
        rw [sortInt, sortInt]
        simp only [List.insertionSort]
      rw [hfm, hcp, hr]
      exact orderedInsert_some_decomp _ _ _

theorem dedupAdj_all_none (R : List Lbl) (hR : ∀ r ∈ R, r = none) :
    dedupAdj beqLbl R = R := by
  induction R with
  | nil => rfl
  | cons a rest ih =>
    cases rest with
    | nil => rfl
    | cons b t =>
      have ha : a = none := hR a (by simp)
      have hb : b = none := hR b (by simp)
      subst ha
      subst hb
      rw [dedupAdj, if_neg (by simp [beqLbl])]
      rw [ih (fun r hr => hR r (List.mem_cons_of_mem _ hr))]

theorem dedupAdj_some_append_none (S : List Int) (k : Nat) :
    dedupAdj beqLbl (S.map some ++ List.replicate k none) =
      (dedupAdj beqInt S).map some ++ List.replicate k none := by
  induction S with
  | nil =>
    simp only [List.map_nil, List.nil_append, dedupAdj]
    exact dedupAdj_all_none _ (fun r hr => List.eq_of_mem_replicate hr)
  | cons a rest ih =>
    cases rest with
    | nil =>
      cases k with
      | zero => rfl
      | succ k' =>
        simp only [List.map_cons, List.map_nil, List.cons_append,
          List.nil_append, List.replicate_succ]
        rw [show dedupAdj beqLbl (some a :: none :: List.replicate k' none) =
            (if beqLbl (some a) none then
              dedupAdj beqLbl (none :: List.replicate k' none)
             else some a :: dedupAdj beqLbl (none :: List.replicate k' none))
          from rfl]
        rw [if_neg (by simp [beqLbl])]
        have h2 := dedupAdj_all_none (none :: List.replicate k' none)
          (fun r hr => by
            rcases List.mem_cons.mp hr with rfl | hr2
            · rfl
            · exact List.eq_of_mem_replicate hr2)
        rw [h2]
        rfl
    | cons b t =>
      rw [List.map_cons, List.map_cons, List.cons_append, List.cons_append,
        dedupAdj]
      rw [List.map_cons] at ih
      rw [List.cons_append] at ih
      by_cases hab : beqInt a b
      · rw [if_pos (by simpa [beqLbl, beqInt] using hab), dedupAdj,
          if_pos hab, ih]
      · rw [if_neg (by simpa [beqLbl, beqInt] using hab), dedupAdj,
          if_neg hab, ih, List.map_cons, List.cons_append]

/-- `np.unique` on floats: the sorted duplicate-free non-NaN values followed
by every NaN occurrence (this era's numpy keeps each NaN). -/
theorem npUnique_decomp (l : List Lbl) :
    npUnique l = (uniqInt (l.filterMap id)).map some ++
      List.replicate (l.countP (fun x => x.isNone)) none := by
  rw [npUnique, sortLbl_decomp, dedupAdj_some_append_none, uniqInt]

/-- The numpy-path default for `expected_groups`: sorted unique non-NaN
labels. -/
theorem defaultExpected_eq (l : List Lbl) :
    defaultExpected l = (uniqInt (l.filterMap id)).map some := by
  rw [defaultExpected, npUnique_decomp, List.filter_append]
  have h1 : ((uniqInt (l.filterMap id)).map some).filter (fun g => g.isSome) =
      (uniqInt (l.filterMap id)).map some := by
    rw [List.filter_eq_self]
    intro a ha
    rcases List.mem_map.mp ha with ⟨v, _, rfl⟩
    rfl
  have h2 : ∀ n : Nat, (List.replicate n (none : Lbl)).filter
      (fun g => g.isSome) = [] := by
    intro n
    induction n with
    | zero => rfl
    | succ n' ihn =>
      rw [List.replicate_succ, List.filter_cons]
      simpa using ihn
  rw [h1, h2, List.append_nil]

/-! ### argsort machinery -/

theorem mapRange_getD_comp (l : List β) (h : β → δ) (d : β) :
    (List.range l.length).map (fun i => h (l.getD i d)) = l.map h := by
  induction l with
  | nil => rfl
  | cons a t ih =>
    rw [List.length_cons, List.range_succ_eq_map, List.map_cons, List.map_map,
      List.map_cons]
    congr 1

theorem argsortPairs_perm (l : List Lbl) :
    (argsortPairs l).Perm
      ((List.range l.length).map (fun i => (i, l.getD i none))) :=
  List.perm_insertionSort _ _

theorem argsortPairs_mem (l : List Lbl) (pr : Nat × Lbl)
    (h : pr ∈ argsortPairs l) : pr.1 < l.length ∧ pr.2 = l.getD pr.1 none := by
  have h2 := (argsortPairs_perm l).mem_iff.mp h
  rcases List.mem_map.mp h2 with ⟨i, hi, rfl⟩
  exact ⟨List.mem_range.mp hi, rfl⟩

theorem argsortPairs_snd_eq_sortLbl (l : List Lbl) :
    (argsortPairs l).map Prod.snd = sortLbl l := by
  have hsorted1 : List.Sorted LblLe ((argsortPairs l).map Prod.snd) := by
    have hp : List.Sorted PairLe (argsortPairs l) :=
      List.sorted_insertionSort PairLe _
    exact List.Pairwise.map Prod.snd (fun a b hab => hab) hp
  have hperm : ((argsortPairs l).map Prod.snd).Perm l := by
    have h1 := (argsortPairs_perm l).map Prod.snd
    rw [List.map_map] at h1
    have h2 : ((List.range l.length).map
        ((fun pr => pr.2) ∘ (fun i => (i, l.getD i none)))) = l := by
      have := mapRange_getD_comp l id none
      simpa using this
    rw [h2] at h1
    exact h1
  exact List.eq_of_perm_of_sorted (hperm.trans (List.perm_insertionSort LblLe l).symm)
    hsorted1 (List.sorted_insertionSort LblLe l)

/-! ### chunk_reduce group characterization and C10 -/

theorem sentinelize_ne_neg (idx : List Int) : ∀ j ∈ sentinelize idx, j ≠ -1 := by
  intro j hj
  rw [sentinelize] at hj
  rcases List.mem_map.mp hj with ⟨i, hi, rfl⟩
  by_cases hc : i = -1
  · rw [if_pos hc]
    have := foldlMax_init_le idx (-1)
    omega
  · rw [if_neg hc]
    exact hc

theorem mask_all_false (idx : List Int) (hne : idx ≠ []) :
    ((sentinelize idx).map (fun i => decide (i ≠ -1))).all (fun b => !b) = false := by
  cases hidx : sentinelize idx with
  | nil =>
    have : (sentinelize idx).length = idx.length := by simp [sentinelize]
    rw [hidx] at this
    cases idx with
    | nil => exact absurd rfl hne
    | cons a t => simp at this
  | cons j t =>
    have hj : j ∈ sentinelize idx := by rw [hidx]; simp
    have hjne := sentinelize_ne_neg idx j hj
    rw [List.all_eq_false]
    refine ⟨decide (j ≠ -1), ?_, by simp [hjne]⟩
    simp

theorem pdFactorize_fst_length (by_ : List Lbl) :
    (pdFactorize by_).1.length = by_.length := by
  simp [pdFactorize]

theorem chunkGroups_char (by_ : List Lbl) (hne : by_ ≠ []) :
    chunkGroups by_ = (sortInt (firstApp (by_.filterMap id))).map some := by
  rw [chunkGroups]
  have hmask := mask_all_false (pdFactorize by_).1
    (by
      intro hc
      have := pdFactorize_fst_length by_
      rw [hc] at this
      cases by_ with
      | nil => exact absurd rfl hne
      | cons a t => simp at this)
  rw [hmask]
  have hbe : by_.isEmpty = false := by
    cases by_ with
    | nil => exact absurd rfl hne
    | cons a t => rfl
  rw [hbe]
  simp only [Bool.or_false, Bool.false_eq_true, if_false]
  rw [argsortPairs_snd_eq_sortLbl, sortLbl_map_some]
  rfl

theorem chunkReduceE_ok_inv (ops : List (NpgOp α)) (array : List α)
    (by_ : List Lbl) (expected : Option (List Lbl)) (p : PRes α)
    (h : chunkReduceE ops array by_ expected = .ok p) :
    by_ ≠ [] ∧ p.groups = (match expected with
      | some e => e
      | none => chunkGroups by_) := by
  unfold chunkReduceE at h
  split at h
  next e heq =>
    cases h
  next fz heq =>
    have hne : by_ ≠ [] := by
      intro hc
      subst hc
      simp [factorizeDense, pdFactorize] at heq
    refine ⟨hne, ?_⟩
    cases expected with
    | none =>
      dsimp only at h ⊢
      cases hmm : ops.mapM (chunkOpIntermediate array by_ fz none
          (chunkGroups by_)) with
      | error e =>
        rw [hmm] at h
        cases h
      | ok ints =>
        rw [hmm] at h
        cases h
        rfl
    | some e =>
      dsimp only at h ⊢
      cases hmm : ops.mapM (chunkOpIntermediate array by_ fz (some e) e) with
      | error e2 =>
        rw [hmm] at h
        cases h
      | ok ints =>
        rw [hmm] at h
        cases h
        rfl

/-- C10: on the numpy path with no fixed output identity set, the output
identity set defaults to the sorted unique labels with NaN dropped, and the
returned groups array equals exactly the sorted unique non-NaN labels; the
final result is sized by that defaulted set. -/
theorem default_expected_groups (op : NpgOp Int) (array : List Int)
    (by_ : List Lbl) (fv : Option Int) (res : List Int) (groups : List Lbl)
    (hok : groupbyReduceNp op array by_ none fv = .ok (res, groups)) :
    groups = (uniqInt (by_.filterMap id)).map some ∧
    defaultExpected by_ = (uniqInt (by_.filterMap id)).map some ∧
    res.length = (defaultExpected by_).length := by
  unfold groupbyReduceNp at hok
  split at hok
  · cases hok
  · cases fv with
    | none =>
      dsimp only at hok
      cases hchunk : chunkReduceE [⟨op.f, op.fill⟩] array by_ none with
      | error e =>
        rw [hchunk] at hok
        cases hok
      | ok results =>
        rw [hchunk] at hok
        dsimp only at hok
        cases hrdx : reindex1 beqLbl (results.intermediates.headD [])
            results.groups (defaultExpected by_) none with
        | error e =>
          rw [hrdx] at hok
          cases hok
        | ok final =>
          rw [hrdx] at hok
          cases hok
          have hinv := chunkReduceE_ok_inv _ _ _ _ _ hchunk
          have hgr : results.groups = chunkGroups by_ := hinv.2
          have hchar := chunkGroups_char by_ hinv.1
          refine ⟨?_, defaultExpected_eq by_, ?_⟩
          · rw [hgr, hchar, sortInt_firstApp_eq_uniqInt]
          · exact reindex1_len _ _ _ _ _ _ hrdx
    | some f =>
      dsimp only at hok
      cases hchunk : chunkReduceE [⟨op.f, f⟩] array by_ none with
      | error e =>
        rw [hchunk] at hok
        cases hok
      | ok results =>
        rw [hchunk] at hok
        dsimp only at hok
        cases hrdx : reindex1 beqLbl (results.intermediates.headD [])
            results.groups (defaultExpected by_) (some f) with
        | error e =>
          rw [hrdx] at hok
          cases hok
        | ok final =>
          rw [hrdx] at hok
          cases hok
          have hinv := chunkReduceE_ok_inv _ _ _ _ _ hchunk
          have hgr : results.groups = chunkGroups by_ := hinv.2
          have hchar := chunkGroups_char by_ hinv.1
          refine ⟨?_, defaultExpected_eq by_, ?_⟩
          · rw [hgr, hchar, sortInt_firstApp_eq_uniqInt]
          · exact reindex1_len _ _ _ _ _ _ hrdx

/-- C10 witness: concrete instance with a NaN label present. -/
theorem default_expected_groups_w :
    ([some 3, some 5] : List Lbl) =
      (uniqInt ([some 5, none, some 3].filterMap id)).map some ∧
    defaultExpected [some 5, none, some 3] =
      (uniqInt ([some 5, none, some 3].filterMap id)).map some ∧
    ([8, 1] : List Int).length =
      (defaultExpected [some 5, none, some 3]).length := by
  exact default_expected_groups sumAgg [1, 9, 8] [some 5, none, some 3] none
    [8, 1] [some 3, some 5] (by decide)

/-! ### Except and mapM plumbing -/

theorem exceptBind_ok (x : Except String β) (g : β → Except String δ) (y : δ)
    (h : (x >>= g) = .ok y) : ∃ a, x = .ok a ∧ g a = .ok y := by
  cases x with
  | error e => cases h
  | ok a => exact ⟨a, rfl, h⟩

theorem mapM_ok_mem (f : β → Except String δ) (l : List β) (ys : List δ)
    (h : l.mapM f = .ok ys) : ∀ y ∈ ys, ∃ x ∈ l, f x = .ok y := by
  induction l generalizing ys with
  | nil =>
    rw [List.mapM_nil] at h
    cases h
    intro y hy
    cases hy
  | cons a t ih =>
    rw [List.mapM_cons] at h
    rcases exceptBind_ok _ _ _ h with ⟨b, hb, h2⟩
    rcases exceptBind_ok _ _ _ h2 with ⟨bs, hbs, h3⟩
    cases h3
    intro y hy
    rcases List.mem_cons.mp hy with rfl | hy2
    · exact ⟨a, by simp, hb⟩
    · rcases ih bs hbs y hy2 with ⟨x, hx, hfx⟩
      exact ⟨x, List.mem_cons_of_mem a hx, hfx⟩

theorem mapM_ok_length (f : β → Except String δ) (l : List β) (ys : List δ)
    (h : l.mapM f = .ok ys) : ys.length = l.length := by
  induction l generalizing ys with
  | nil =>
    rw [List.mapM_nil] at h
    cases h
    rfl
  | cons a t ih =>
    rw [List.mapM_cons] at h
    rcases exceptBind_ok _ _ _ h with ⟨b, hb, h2⟩
    rcases exceptBind_ok _ _ _ h2 with ⟨bs, hbs, h3⟩
    cases h3
    simp [ih bs hbs]

theorem mapM_ok_of_forall (f : β → Except String δ) (g : β → δ) (l : List β)
    (h : ∀ x ∈ l, f x = .ok (g x)) : l.mapM f = .ok (l.map g) := by
  induction l with
  | nil => rw [List.mapM_nil]; rfl
  | cons a t ih =>
    rw [List.mapM_cons, h a (by simp),
      ih (fun x hx => h x (List.mem_cons_of_mem a hx))]
    rfl

theorem argsortPairs_length (l : List Lbl) :
    (argsortPairs l).length = l.length := by
  rw [(argsortPairs_perm l).length_eq]
  simp

theorem factorizeDense_ok_eq (by_ : List Lbl) (fz : List Int × List Int)
    (h : factorizeDense by_ = .ok fz) :
    fz = (sentinelize (pdFactorize by_).1, (pdFactorize by_).2) := by
  rw [factorizeDense] at h
  split at h
  · cases h
  · cases h
    rfl

theorem chunkReduceE_ok_arity (ops : List (NpgOp α)) (array : List α)
    (by_ : List Lbl) (expected : Option (List Lbl)) (p : PRes α)
    (h : chunkReduceE ops array by_ expected = .ok p) :
    p.intermediates.length = ops.length := by
  unfold chunkReduceE at h
  split at h
  next e heq => cases h
  next fz heq =>
    cases expected with
    | none =>
      dsimp only at h
      cases hmm : ops.mapM (chunkOpIntermediate array by_ fz none
          (chunkGroups by_)) with
      | error e =>
        rw [hmm] at h
        cases h
      | ok ints =>
        rw [hmm] at h
        cases h
        exact mapM_ok_length _ _ _ hmm
    | some e =>
      dsimp only at h
      cases hmm : ops.mapM (chunkOpIntermediate array by_ fz (some e) e) with
      | error e2 =>
        rw [hmm] at h
        cases h
      | ok ints =>
        rw [hmm] at h
        cases h
        exact mapM_ok_length _ _ _ hmm

theorem chunkOpIntermediate_ok_len (array : List α) (by_ : List Lbl)
    (fz : List Int × List Int) (expected : Option (List Lbl))
    (rgroups : List Lbl) (op : NpgOp α) (v : List α)
    (h : chunkOpIntermediate array by_ fz expected rgroups op = .ok v)
    (hsome : ∀ e, expected = some e → rgroups = e)
    (hnone : expected = none → rgroups = chunkGroups by_ ∧
      fz.1 = sentinelize (pdFactorize by_).1 ∧ fz.2 = (pdFactorize by_).2) :
    v.length = rgroups.length := by
  unfold chunkOpIntermediate at h
  cases expected with
  | some e =>
    dsimp only at h
    split at h
    next hempty =>
      cases h
      simp
    next hempty =>
      rw [hsome e rfl]
      exact reindex1_len _ _ _ _ _ _ h
  | none =>
    dsimp only at h
    split at h
    next hempty =>
      cases h
      simp
    next hempty =>
      cases h
      obtain ⟨hrg, hfz1, hfz2⟩ := hnone rfl
      rw [hfz1] at hempty
      rw [hrg, chunkGroups]
      rw [if_neg hempty]
      simp [applyIdx, argsortPairs_length, hfz2]

theorem chunkReduceE_ok_len (ops : List (NpgOp α)) (array : List α)
    (by_ : List Lbl) (expected : Option (List Lbl)) (p : PRes α)
    (h : chunkReduceE ops array by_ expected = .ok p) :
    ∀ v ∈ p.intermediates, v.length = p.groups.length := by
  unfold chunkReduceE at h
  split at h
  next e heq => cases h
  next fz heq =>
    have hfz := factorizeDense_ok_eq by_ fz heq
    cases expected with
    | none =>
      dsimp only at h
      cases hmm : ops.mapM (chunkOpIntermediate array by_ fz none
          (chunkGroups by_)) with
      | error e =>
        rw [hmm] at h
        cases h
      | ok ints =>
        rw [hmm] at h
        cases h
        intro v hv
        rcases mapM_ok_mem _ _ _ hmm v hv with ⟨op, _, hop⟩
        exact chunkOpIntermediate_ok_len array by_ fz none (chunkGroups by_)
          op v hop (fun e2 he => by cases he)
          (fun _ => ⟨rfl, by rw [hfz], by rw [hfz]⟩)
    | some e =>
      dsimp only at h
      cases hmm : ops.mapM (chunkOpIntermediate array by_ fz (some e) e) with
      | error e2 =>
        rw [hmm] at h
        cases h
      | ok ints =>
        rw [hmm] at h
        cases h
        intro v hv
        rcases mapM_ok_mem _ _ _ hmm v hv with ⟨op, _, hop⟩
        exact chunkOpIntermediate_ok_len array by_ fz (some e) e op v hop
          (fun e2 he => by cases he; rfl)
          (fun hc => by cases hc)

/-! ### Combine-side shape lemmas -/

theorem combineStep_ok (garg : List Lbl) (reindexed : List (PRes α)) (L : Nat)
    (acc out : List Lbl × List (List α)) (io : Nat × NpgOp α)
    (hL : ((reindexed.map (fun p => p.intermediates.getD io.1 [])).flatten).length = L)
    (h : combineStep garg reindexed acc io = .ok out) :
    out.1 = (if L = 0 then [] else chunkGroups garg) ∧
    ∃ v, out.2 = acc.2 ++ [v] ∧
      v.length = (if L = 0 then [] else chunkGroups garg).length := by
  unfold combineStep at h
  dsimp only at h
  split at h
  next hz =>
    cases h
    have hL0 : L = 0 := by omega
    subst hL0
    exact ⟨by simp, [], rfl, by simp⟩
  next hz =>
    have hLpos : L ≠ 0 := by omega
    rw [if_neg hLpos]
    cases hc : chunkReduceE [io.2]
        ((reindexed.map (fun p => p.intermediates.getD io.1 [])).flatten)
        garg none with
    | error e =>
      rw [hc] at h
      cases h
    | ok r =>
      rw [hc] at h
      cases h
      have hinv := chunkReduceE_ok_inv _ _ _ _ _ hc
      have hlen := chunkReduceE_ok_len _ _ _ _ _ hc
      have harty := chunkReduceE_ok_arity _ _ _ _ _ hc
      refine ⟨hinv.2, r.intermediates.headD [], rfl, ?_⟩
      cases hints : r.intermediates with
      | nil =>
        rw [hints] at harty
        simp at harty
      | cons v0 t =>
        have hv0 : v0 ∈ r.intermediates := by
          rw [hints]
          simp
        simp only [List.headD_cons]
        rw [hlen v0 hv0, hinv.2]

theorem combineFold_ok (garg : List Lbl) (reindexed : List (PRes α)) (L : Nat) :
    ∀ (ios : List (Nat × NpgOp α)) (acc out : List Lbl × List (List α)),
      ios ≠ [] →
      (∀ io ∈ ios,
        ((reindexed.map (fun p => p.intermediates.getD io.1 [])).flatten).length = L) →
      ios.foldlM (combineStep garg reindexed) acc = .ok out →
      out.1 = (if L = 0 then [] else chunkGroups garg) ∧
      ∀ v ∈ out.2, v ∈ acc.2 ∨
        v.length = (if L = 0 then [] else chunkGroups garg).length := by
  intro ios
  induction ios with
  | nil =>
    intro acc out hne
    exact absurd rfl hne
  | cons io rest ih =>
    intro acc out _ hL hfold
    rw [List.foldlM_cons] at hfold
    rcases exceptBind_ok _ _ _ hfold with ⟨acc', hstep, hrest⟩
    have hstepok := combineStep_ok garg reindexed L acc acc' io
      (hL io (by simp)) hstep
    cases rest with
    | nil =>
      rw [List.foldlM_nil] at hrest
      cases hrest
      obtain ⟨h1, v, h2, h3⟩ := hstepok
      refine ⟨h1, ?_⟩
      intro w hw
      rw [h2] at hw
      rcases List.mem_append.mp hw with hw2 | hw2
      · exact Or.inl hw2
      · rw [List.mem_singleton.mp hw2]
        exact Or.inr h3
    | cons io2 rest2 =>
      have hres := ih acc' out (by simp)
        (fun io3 h3 => hL io3 (List.mem_cons_of_mem _ h3)) hrest
      obtain ⟨hstep1, v, hacc', hlenv⟩ := hstepok
      refine ⟨hres.1, ?_⟩
      intro w hw
      rcases hres.2 w hw with hw2 | hw2
      · rw [hacc'] at hw2
        rcases List.mem_append.mp hw2 with hw3 | hw3
        · exact Or.inl hw3
        · rw [List.mem_singleton.mp hw3]
          exact Or.inr hlenv
      · exact Or.inr hw2

theorem combineReindex_ok_shape (ops : List (NpgOp α)) (U : List Lbl)
    (p p' : PRes α) (h : combineReindex ops U p = .ok p')
    (harity : p.intermediates.length = ops.length) :
    p'.groups = U ∧ p'.intermediates.length = ops.length ∧
    ∀ v ∈ p'.intermediates, v.length = U.length := by
  unfold combineReindex at h
  cases hmm : (p.intermediates.zip ops).mapM (fun vo =>
      reindex1 beqLbl vo.1 p.groups U (some vo.2.fill)) with
  | error e =>
    rw [hmm] at h
    cases h
  | ok ints =>
    rw [hmm] at h
    cases h
    refine ⟨rfl, ?_, ?_⟩
    · rw [mapM_ok_length _ _ _ hmm, List.length_zip, harity]
      exact Nat.min_self _
    · intro v hv
      rcases mapM_ok_mem _ _ _ hmm v hv with ⟨vo, _, hvo⟩
      exact reindex1_len _ _ _ _ _ _ hvo

theorem mem_enumFrom_lt (l : List β) (n : Nat) (pr : Nat × β)
    (h : pr ∈ l.enumFrom n) : pr.1 < n + l.length := by
  induction l generalizing n with
  | nil => cases h
  | cons a t ih =>
    rw [List.enumFrom] at h
    rcases List.mem_cons.mp h with rfl | h2
    · simp
    · have := ih (n + 1) h2
      simp only [List.length_cons]
      omega

theorem mem_enum_lt (l : List β) (pr : Nat × β) (h : pr ∈ l.enum) :
    pr.1 < l.length := by
  have := mem_enumFrom_lt l 0 pr h
  omega

theorem sum_map_const (l : List β) (c : Nat) :
    (l.map (fun _ => c)).sum = l.length * c := by
  induction l with
  | nil => simp
  | cons a t ih =>
    rw [List.map_cons, List.sum_cons, ih, List.length_cons]
    ring

theorem reindexed_flatten_len (reindexed : List (PRes α)) (U : List Lbl)
    (nops : Nat)
    (hsh : ∀ p' ∈ reindexed, p'.intermediates.length = nops ∧
      ∀ v ∈ p'.intermediates, v.length = U.length)
    (i : Nat) (hi : i < nops) :
    ((reindexed.map (fun p => p.intermediates.getD i [])).flatten).length =
      reindexed.length * U.length := by
  rw [List.length_flatten, List.map_map]
  have hcongr : reindexed.map (List.length ∘ fun p => p.intermediates.getD i []) =
      reindexed.map (fun _ => U.length) := by
    refine List.map_congr_left ?_
    intro p' hp'
    obtain ⟨hlen, hv⟩ := hsh p' hp'
    have hibound : i < p'.intermediates.length := by omega
    have hmem : p'.intermediates.getD i [] ∈ p'.intermediates := by
      rw [List.getD_eq_getElem _ [] hibound]
      exact List.getElem_mem hibound
    exact hv _ hmem
  rw [hcongr, sum_map_const]

/-- C9: every Partial result produced by the Chunk Reducer and by the
Combiner satisfies the invariant that each intermediate array's trailing
axis length equals the length of its groups sequence - including the
synthesized fill-value branches for empty/all-excluded input. -/
theorem partial_result_invariant (α : Type) :
    (∀ (ops : List (NpgOp α)) (array : List α) (by_ : List Lbl)
        (expected : Option (List Lbl)) (p : PRes α),
      chunkReduceE ops array by_ expected = .ok p →
      ∀ v ∈ p.intermediates, v.length = p.groups.length) ∧
    (∀ (ops : List (NpgOp α)) (xs : List (PRes α)) (q : PRes α),
      (∀ x ∈ xs, x.intermediates.length = ops.length) →
      npgCombineE ops xs = .ok q →
      ∀ v ∈ q.intermediates, v.length = q.groups.length) := by
  constructor
  · exact fun ops array by_ expected p h => chunkReduceE_ok_len ops array by_ expected p h
  · intro ops xs q harity h
    unfold npgCombineE at h
    dsimp only at h
    cases hmm : xs.mapM (combineReindex ops
        (npUnique ((xs.map (fun p => p.groups)).flatten))) with
    | error e =>
      rw [hmm] at h
      cases h
    | ok reindexed =>
      rw [hmm] at h
      dsimp only at h
      cases hfold : ops.enum.foldlM
          (combineStep ((reindexed.map (fun p => p.groups)).flatten) reindexed)
          (([] : List Lbl), ([] : List (List α))) with
      | error e =>
        rw [hfold] at h
        cases h
      | ok res =>
        rw [hfold] at h
        cases h
        have hsh : ∀ p' ∈ reindexed, p'.intermediates.length = ops.length ∧
            ∀ v ∈ p'.intermediates,
              v.length = (npUnique ((xs.map (fun p => p.groups)).flatten)).length := by
          intro p' hp'
          rcases mapM_ok_mem _ _ _ hmm p' hp' with ⟨p0, hp0, hcr⟩
          have := combineReindex_ok_shape ops _ p0 p' hcr (harity p0 hp0)
          exact ⟨this.2.1, this.2.2⟩
        cases hops : ops with
        | nil =>
          subst hops
          rw [show (([] : List (NpgOp α)).enum) = [] from rfl,
            List.foldlM_nil] at hfold
          cases hfold
          intro v hv
          cases hv
        | cons op0 opt =>
          have hne : ops.enum ≠ [] := by
            rw [hops]
            intro hc
            have : ((op0 :: opt).enum).length = 0 := by rw [hc]; rfl
            rw [List.enum_length] at this
            cases this
          have hfoldok := combineFold_ok
            ((reindexed.map (fun p => p.groups)).flatten) reindexed
            (reindexed.length *
              (npUnique ((xs.map (fun p => p.groups)).flatten)).length)
            ops.enum (([] : List Lbl), ([] : List (List α))) res hne
            (fun io hio => reindexed_flatten_len reindexed _ ops.length hsh io.1
              (mem_enum_lt ops io hio))
            hfold
          intro v hv
          rcases hfoldok.2 v hv with hc | hc
          · cases hc
          · rw [hc, hfoldok.1]

/-- C9 witness: the invariant at one concrete chunk reduction and one
concrete combine. -/
theorem partial_result_invariant_w :
    ([4, 2] : List Int).length = ([some 0, some 1] : List Lbl).length ∧
    ([5, 7] : List Int).length = ([some 0, some 1] : List Lbl).length := by
  constructor
  · exact (partial_result_invariant Int).1 [sumAgg] [1, 2, 3]
      [some 0, some 1, some 0] none ⟨[some 0, some 1], [[4, 2]]⟩
      (by decide) [4, 2] (by decide)
  · exact (partial_result_invariant Int).2 [sumAgg]
      [⟨[some 0], [[5]]⟩, ⟨[some 1], [[7]]⟩] ⟨[some 0, some 1], [[5, 7]]⟩
      (by decide) (by decide) [5, 7] (by decide)

/-! ### Selection and fold lemmas toward the associativity claim -/

theorem filterMap_id_map_some (l : List Int) :
    (l.map some).filterMap id = l := by
  simp

theorem sentinelize_id_of_ne (idx : List Int) (h : ∀ i ∈ idx, i ≠ -1) :
    sentinelize idx = idx := by
  rw [sentinelize]
  have : idx.map (fun i => if i = -1 then idx.foldl max (-1) + 1 else i) =
      idx.map (fun i => i) := by
    refine List.map_congr_left ?_
    intro i hi
    rw [if_neg (h i hi)]
  rw [this, List.map_id']

theorem mask_any_false (idx : List Int) (h : ∀ i ∈ idx, i ≠ -1) :
    (idx.map (fun i => decide (i ≠ -1))).any (fun b => !b) = false := by
  rw [List.any_eq_false]
  intro b hb
  rcases List.mem_map.mp hb with ⟨i, hi, rfl⟩
  simp [h i hi]

theorem sel_append (l1 l2 : List Int) (v1 v2 : List α) (g : Int)
    (h : l1.length = v1.length) :
    sel (l1 ++ l2) (v1 ++ v2) g = sel l1 v1 g ++ sel l2 v2 g := by
  rw [sel, sel, sel, List.zip_append h, List.filterMap_append]

theorem sel_map_self (W : List Int) (h : Int → α) (g : Int) (hW : W.Nodup)
    (hg : g ∈ W) :
    sel W (W.map (fun x => h x)) g = [h g] := by
  induction W with
  | nil => cases hg
  | cons a t ih =>
    obtain ⟨hnot, hnd⟩ := List.nodup_cons.mp hW
    rw [List.map_cons, sel, List.zip_cons_cons, List.filterMap_cons]
    rcases List.mem_cons.mp hg with rfl | hg2
    · rw [if_pos rfl]
      have hz : (t.zip (t.map (fun x => h x))).filterMap
          (fun p => if p.1 = g then some p.2 else none) = [] := by
        rw [List.filterMap_eq_nil_iff]
        intro p hp
        have hp1 : p.1 ∈ t := (List.of_mem_zip hp).1
        have hne2 : p.1 ≠ g := by
          intro hc
          rw [← hc] at hnot
          exact hnot hp1
        rw [if_neg hne2]
      rw [hz]
    · have hne : a ≠ g := by
        intro hc
        subst hc
        exact hnot hg2
      rw [if_neg hne]
      exact ih hnd hg2

theorem sel_nonempty (labels : List Int) (vals : List α) (g : Int)
    (hg : g ∈ labels) (hlen : vals.length = labels.length) :
    sel labels vals g ≠ [] := by
  induction labels generalizing vals with
  | nil => cases hg
  | cons a t ih =>
    cases vals with
    | nil => simp at hlen
    | cons w ws =>
      rw [sel, List.zip_cons_cons, List.filterMap_cons]
      rcases List.mem_cons.mp hg with rfl | hg2
      · rw [if_pos rfl]
        simp
      · by_cases hag : a = g
        · rw [if_pos hag]
          simp
        · rw [if_neg hag]
          exact ih ws hg2 (by simpa using hlen)

theorem sel_map_code (labels : List Int) (vals : List α) (cf : Int → Int)
    (g : Int) (j : Int) (hiff : ∀ v ∈ labels, (cf v = j ↔ v = g)) :
    sel (labels.map cf) vals j = sel labels vals g := by
  induction labels generalizing vals with
  | nil => rfl
  | cons a t ih =>
    cases vals with
    | nil =>
      rw [List.map_cons, sel, sel, List.zip_nil_right, List.zip_nil_right]
      rfl
    | cons w ws =>
      rw [List.map_cons, sel, sel, List.zip_cons_cons, List.zip_cons_cons,
        List.filterMap_cons, List.filterMap_cons]
      have hiffa := hiff a (by simp)
      have hrest := ih ws (fun v hv => hiff v (List.mem_cons_of_mem a hv))
      rw [sel, sel] at hrest
      by_cases hc : cf a = j
      · rw [if_pos hc, if_pos (hiffa.mp hc), hrest]
      · rw [if_neg hc, if_neg (fun hc2 => hc (hiffa.mpr hc2)), hrest]

theorem foldlMax_le_of_bounds (c : List Int) (a b : Int) (ha : a ≤ b)
    (hall : ∀ x ∈ c, x ≤ b) : c.foldl max a ≤ b := by
  induction c generalizing a with
  | nil => exact ha
  | cons x t ih =>
    rw [List.foldl_cons]
    exact ih (max a x) (max_le ha (hall x (by simp)))
      (fun y hy => hall y (List.mem_cons_of_mem x hy))

theorem uniqInt_ne_nil (l : List Int) (h : l ≠ []) : uniqInt l ≠ [] := by
  cases l with
  | nil => exact absurd rfl h
  | cons a t =>
    intro hc
    have : a ∈ uniqInt (a :: t) := (mem_uniqInt _ _).mpr (by simp)
    rw [hc] at this
    cases this

theorem map_getD_idxOfB (U : List Int) (h : Int → α) (g : Int) (d : α)
    (hg : g ∈ U) :
    (U.map h).getD (idxOfB beqInt U g).toNat d = h g := by
  have hmem : memB beqInt U g = true := (memB_iff_int U g).mpr hg
  have hge := idxOfB_ge_neg beqInt U g
  have hlt := idxOfB_lt_length beqInt U g hmem
  have hne : idxOfB beqInt U g ≠ -1 := by
    intro hc
    rw [(idxOfB_eq_neg_one_iff beqInt U g).mp hc] at hmem
    cases hmem
  have hbound : (idxOfB beqInt U g).toNat < U.length := by omega
  have hboundm : (idxOfB beqInt U g).toNat < (U.map h).length := by
    simpa using hbound
  rw [List.getD_eq_getElem _ d hboundm, List.getElem_map]
  have := idxOfB_getD beqInt U g 0 hmem
  rw [List.getD_eq_getElem _ 0 hbound] at this
  rw [(beqInt_iff _ _).mp this]

theorem memB_some_lift (U : List Int) (g : Int) :
    memB beqLbl (U.map some) (some g) = memB beqInt U g := by
  induction U with
  | nil => rfl
  | cons a t ih =>
    simp only [List.map_cons, memB, List.any_cons] at *
    rw [show beqLbl (some a) (some g) = beqInt a g from rfl]
    rw [show (t.map some).any (fun x => beqLbl x (some g)) =
      t.any (fun x => beqInt x g) from ih]

theorem idxOfB_some_lift (U : List Int) (g : Int) :
    idxOfB beqLbl (U.map some) (some g) = idxOfB beqInt U g := by
  induction U with
  | nil => rfl
  | cons a t ih =>
    rw [List.map_cons, idxOfB, idxOfB,
      show beqLbl (some a) (some g) = beqInt a g from rfl, ih]

theorem foldl_all_e (opf : α → α → α) (e : α) (hel : ∀ a, opf e a = a)
    (l : List α) (h : ∀ x ∈ l, x = e) : l.foldl opf e = e := by
  induction l with
  | nil => rfl
  | cons a t ih =>
    rw [List.foldl_cons, h a (by simp), hel]
    exact ih (fun x hx => h x (List.mem_cons_of_mem a hx))

theorem foldl_hom (opf : α → α → α) (e : α)
    (hassoc : ∀ a b c, opf (opf a b) c = opf a (opf b c))
    (hel : ∀ a, opf e a = a) (her : ∀ a, opf a e = a)
    (a : α) (l : List α) : l.foldl opf a = opf a (l.foldl opf e) := by
  induction l generalizing a with
  | nil => exact (her a).symm
  | cons x t ih =>
    rw [List.foldl_cons, List.foldl_cons, ih (opf a x), ih (opf e x), hel,
      hassoc]

theorem length_one_eq (l : List α) (d : α) (h : l.length = 1) :
    l = [l.headD d] := by
  cases l with
  | nil => simp at h
  | cons a t =>
    cases t with
    | nil => rfl
    | cons b r => simp at h

theorem countP_isNone_map_some (l : List Int) :
    ((l.map some).countP (fun x => x.isNone)) = 0 := by
  induction l with
  | nil => rfl
  | cons a t ih =>
    rw [List.map_cons, List.countP_cons]
    simp [ih]

/-! ### Chunk reduction characterization -/

theorem pdFactorize_map_some (labels : List Int) :
    pdFactorize (labels.map some) =
      (labels.map (fun v => idxOfB beqInt (firstApp labels) v),
        firstApp labels) := by
  unfold pdFactorize
  rw [filterMap_id_map_some]
  dsimp only
  congr 1
  rw [List.map_map]
  rfl

theorem code_ne_neg (labels : List Int) :
    ∀ i ∈ labels.map (fun v => idxOfB beqInt (firstApp labels) v), i ≠ -1 := by
  intro i hi
  rcases List.mem_map.mp hi with ⟨v, hv, rfl⟩
  intro hc
  have hm : memB beqInt (firstApp labels) v = true :=
    (memB_iff_int _ _).mpr ((mem_firstApp labels v).mpr hv)
  rw [(idxOfB_eq_neg_one_iff beqInt (firstApp labels) v).mp hc] at hm
  cases hm

theorem factorizeDense_map_some (labels : List Int) (hne : labels ≠ []) :
    factorizeDense (labels.map some) =
      .ok (labels.map (fun v => idxOfB beqInt (firstApp labels) v),
        firstApp labels) := by
  unfold factorizeDense
  rw [pdFactorize_map_some]
  dsimp only
  have hie : (labels.map (fun v => idxOfB beqInt (firstApp labels) v)).isEmpty
      = false := by
    cases labels with
    | nil => exact absurd rfl hne
    | cons a t => rfl
  rw [hie]
  simp only [Bool.false_eq_true, if_false]
  rw [sentinelize_id_of_ne _ (code_ne_neg labels)]

theorem firstApp_ne_nil (labels : List Int) (hne : labels ≠ []) :
    firstApp labels ≠ [] := by
  cases labels with
  | nil => exact absurd rfl hne
  | cons a t =>
    intro hc
    have : a ∈ firstApp (a :: t) := (mem_firstApp _ _).mpr (by simp)
    rw [hc] at this
    cases this

theorem codes_foldl_max (labels : List Int) (hne : labels ≠ []) :
    (labels.map (fun v => idxOfB beqInt (firstApp labels) v)).foldl max (-1) =
      ((firstApp labels).length : Int) - 1 := by
  have hfne := firstApp_ne_nil labels hne
  have hpos : 0 < (firstApp labels).length := by
    cases hfa : firstApp labels with
    | nil => exact absurd hfa hfne
    | cons a t => simp
  refine le_antisymm ?_ ?_
  · refine foldlMax_le_of_bounds _ _ _ (by omega) ?_
    intro x hx
    rcases List.mem_map.mp hx with ⟨v, hv, rfl⟩
    have hm : memB beqInt (firstApp labels) v = true :=
      (memB_iff_int _ _).mpr ((mem_firstApp labels v).mpr hv)
    have := idxOfB_lt_length beqInt (firstApp labels) v hm
    omega
  · have hglast : (firstApp labels).getD ((firstApp labels).length - 1) 0 ∈
        firstApp labels :=
      getD_mem_of_lt _ _ _ (by omega)
    have hglabels : (firstApp labels).getD ((firstApp labels).length - 1) 0 ∈
        labels := (mem_firstApp _ _).mp hglast
    have hcode := idxOfB_nodup_self (firstApp labels) (nodup_firstApp labels)
      ((firstApp labels).length - 1) (by omega)
    have hmem2 : (((firstApp labels).length : Int) - 1) ∈
        labels.map (fun v => idxOfB beqInt (firstApp labels) v) := by
      rw [List.mem_map]
      refine ⟨_, hglabels, ?_⟩
      rw [hcode]
      omega
    exact foldlMax_le_of_mem _ _ _ hmem2

theorem npgAggregate_char (hf : List α → α) (e : α) (vals : List α)
    (labels : List Int) (hlen : vals.length = labels.length) :
    npgAggregate ⟨hf, e⟩ (labels.map (fun v => idxOfB beqInt (firstApp labels) v))
      vals (firstApp labels).length =
    (firstApp labels).map (fun g => hf (sel labels vals g)) := by
  rw [npgAggregate]
  refine Eq.trans (List.map_congr_left ?_)
    (mapRange_getD_comp (firstApp labels) (fun g => hf (sel labels vals g)) 0)
  intro j hj
  have hjlt : j < (firstApp labels).length := List.mem_range.mp hj
  have hg : (firstApp labels).getD j 0 ∈ firstApp labels :=
    getD_mem_of_lt _ _ _ hjlt
  have hsel : sel (labels.map (fun v => idxOfB beqInt (firstApp labels) v))
      vals (j : Int) = sel labels vals ((firstApp labels).getD j 0) := by
    refine sel_map_code labels vals _ _ _ ?_
    intro v hv
    have hm : memB beqInt (firstApp labels) v = true :=
      (memB_iff_int _ _).mpr ((mem_firstApp labels v).mpr hv)
    constructor
    · intro hc
      have hbq := idxOfB_getD beqInt (firstApp labels) v 0 hm
      rw [hc] at hbq
      have htn : (j : Int).toNat = j := by omega
      rw [htn] at hbq
      exact ((beqInt_iff _ _).mp hbq).symm
    · intro hc
      rw [hc]
      exact idxOfB_nodup_self (firstApp labels) (nodup_firstApp labels) j hjlt
  have hne2 : sel labels vals ((firstApp labels).getD j 0) ≠ [] :=
    sel_nonempty labels vals _ ((mem_firstApp _ _).mp hg) hlen
  dsimp only
  rw [hsel, if_neg (by simpa using hne2)]

theorem applyIdx_argsort_char (fApp : List Int) (H : Int → α) (e : α) :
    applyIdx (fApp.map H) ((argsortPairs (fApp.map some)).map Prod.fst) e =
      (sortInt fApp).map H := by
  rw [applyIdx, List.map_map]
  have hpt : ∀ pr ∈ argsortPairs (fApp.map some),
      ((fun i => (fApp.map H).getD i e) ∘ Prod.fst) pr =
      ((fun x : Lbl => H (x.getD 0)) ∘ Prod.snd) pr := by
    intro pr hpr
    obtain ⟨hlt, hsnd⟩ := argsortPairs_mem _ pr hpr
    have hlt2 : pr.1 < fApp.length := by simpa using hlt
    have hltH : pr.1 < (fApp.map H).length := by simpa using hlt2
    have hgetsnd : pr.2 = some (fApp.getD pr.1 0) := by
      rw [hsnd, List.getD_eq_getElem _ none (by simpa using hlt2),
        List.getElem_map, List.getD_eq_getElem fApp 0 hlt2]
    simp only [Function.comp_apply]
    rw [hgetsnd, List.getD_eq_getElem _ e hltH, List.getElem_map,
      List.getD_eq_getElem fApp 0 hlt2]
    rfl
  rw [List.map_congr_left hpt, ← List.map_map, argsortPairs_snd_eq_sortLbl,
    sortLbl_map_some, List.map_map]
  refine List.map_congr_left ?_
  intro g _
  rfl

theorem chunkGroups_map_some (labels : List Int) (hne : labels ≠ []) :
    chunkGroups (labels.map some) = (sortInt (firstApp labels)).map some := by
  rw [chunkGroups_char _ (by
    cases labels with
    | nil => exact absurd rfl hne
    | cons a t => simp), filterMap_id_map_some]

theorem mask_all_false' (idx : List Int) (hne : idx ≠ [])
    (h : ∀ i ∈ idx, i ≠ -1) :
    (idx.map (fun i => decide (i ≠ -1))).all (fun b => !b) = false := by
  cases idx with
  | nil => exact absurd rfl hne
  | cons j t =>
    rw [List.all_eq_false]
    refine ⟨decide (j ≠ -1), by simp, ?_⟩
    simp [h j (by simp)]

theorem chunkOpIntermediate_char (hf : List α → α) (e : α) (vals : List α)
    (labels : List Int) (rg : List Lbl)
    (hne : labels ≠ []) (hlen : vals.length = labels.length) :
    chunkOpIntermediate vals (labels.map some)
      (labels.map (fun v => idxOfB beqInt (firstApp labels) v), firstApp labels)
      none rg ⟨hf, e⟩ =
    .ok ((sortInt (firstApp labels)).map (fun g => hf (sel labels vals g))) := by
  unfold chunkOpIntermediate
  dsimp only
  have hcodes_ne : labels.map (fun v => idxOfB beqInt (firstApp labels) v) ≠ [] := by
    cases labels with
    | nil => exact absurd rfl hne
    | cons a t => simp
  have hmaskall := mask_all_false' _ hcodes_ne (code_ne_neg labels)
  have hbe : (labels.map (some : Int → Lbl)).isEmpty = false := by
    cases labels with
    | nil => exact absurd rfl hne
    | cons a t => rfl
  rw [hmaskall, hbe]
  simp only [Bool.or_false, Bool.false_eq_true, if_false]
  have hmaskany := mask_any_false _ (code_ne_neg labels)
  rw [hmaskany]
  simp only [Bool.false_eq_true, if_false]
  rw [codes_foldl_max labels hne]
  have hsize : ((((firstApp labels).length : Int) - 1) + 1).toNat =
      (firstApp labels).length := by omega
  rw [hsize, npgAggregate_char hf e vals labels hlen]
  rw [applyIdx_argsort_char (firstApp labels)
    (fun g => hf (sel labels vals g)) e]

theorem chunkReduceE_char (hf : List α → α) (e : α) (vals : List α)
    (labels : List Int) (hne : labels ≠ []) (hlen : vals.length = labels.length) :
    chunkReduceE [⟨hf, e⟩] vals (labels.map some) none =
      .ok ⟨(uniqInt labels).map some,
        [(uniqInt labels).map (fun g => hf (sel labels vals g))]⟩ := by
  unfold chunkReduceE
  rw [factorizeDense_map_some labels hne]
  dsimp only
  rw [List.mapM_cons, List.mapM_nil,
    chunkOpIntermediate_char hf e vals labels _ hne hlen]
  rw [chunkGroups_map_some labels hne, sortInt_firstApp_eq_uniqInt]
  rfl

theorem npUnique_map_some (m : List Int) :
    npUnique (m.map some) = (uniqInt m).map some := by
  rw [npUnique, uniqInt, sortLbl_map_some]
  simpa using dedupAdj_some_append_none (sortInt m) 0

theorem flatten_map_some (lss : List (List Int)) :
    (lss.map (fun l => l.map (some : Int → Lbl))).flatten =
      lss.flatten.map some := by
  induction lss with
  | nil => rfl
  | cons a t ih =>
    rw [List.map_cons, List.flatten_cons, List.flatten_cons, List.map_append,
      ih]

theorem mem_flatten_const (U : List Int) (ps : List β) (hps : ps ≠ [])
    (a : Int) : a ∈ ((ps.map (fun _ => U)).flatten) ↔ a ∈ U := by
  cases ps with
  | nil => exact absurd rfl hps
  | cons p t =>
    rw [List.map_cons, List.flatten_cons, List.mem_append]
    constructor
    · rintro (h | h)
      · exact h
      · rcases List.mem_flatten.mp h with ⟨l, hl, hal⟩
        rcases List.mem_map.mp hl with ⟨q, _, rfl⟩
        exact hal
    · exact Or.inl

theorem flatten_length_congr {ε : Type} (l : List β) (f : β → List δ)
    (g : β → List ε) (h : ∀ x ∈ l, (f x).length = (g x).length) :
    ((l.map f).flatten).length = ((l.map g).flatten).length := by
  induction l with
  | nil => rfl
  | cons a t ih =>
    rw [List.map_cons, List.map_cons, List.flatten_cons, List.flatten_cons,
      List.length_append, List.length_append, h a (by simp),
      ih (fun x hx => h x (List.mem_cons_of_mem a hx))]

theorem sel_flatten_const (U : List Int) (hU : U.Nodup) (g : Int)
    (hg : g ∈ U) (ps : List β) (lk : β → Int → α) :
    sel ((ps.map (fun _ => U)).flatten)
        ((ps.map (fun p => U.map (fun x => lk p x))).flatten) g =
      ps.map (fun p => lk p g) := by
  induction ps with
  | nil => rfl
  | cons p t ih =>
    rw [List.map_cons, List.map_cons, List.flatten_cons, List.flatten_cons,
      List.map_cons, sel_append _ _ _ _ _ (by simp),
      sel_map_self U (lk p) g hU hg, ih, List.singleton_append]

theorem combineReindex_char (opf : α → α → α) (e : α) (U : List Int)
    (p : List Int × List α) (hlen : p.2.length = p.1.length) :
    combineReindex [⟨fun l => l.foldl opf e, e⟩] (U.map some)
        ⟨p.1.map some, [p.2]⟩ =
      .ok ⟨U.map some, [U.map (fun g => groupLookup e p g)]⟩ := by
  unfold combineReindex
  have hm : (([p.2].zip [(⟨fun l => l.foldl opf e, e⟩ : NpgOp α)]).mapM
      (fun vo => reindex1 beqLbl vo.1 (p.1.map some) (U.map some)
        (some vo.2.fill))) =
      .ok [U.map (fun g => groupLookup e p g)] := by
    rw [show ([p.2].zip [(⟨fun l => l.foldl opf e, e⟩ : NpgOp α)]) =
      [((p.2 : List α), (⟨fun l => l.foldl opf e, e⟩ : NpgOp α))] from rfl]
    rw [List.mapM_cons, List.mapM_nil]
    rw [show (⟨fun l => l.foldl opf e, e⟩ : NpgOp α).fill = e from rfl]
    rw [reindex1_char beqLbl p.2 (p.1.map some) (U.map some) e
      (by simpa using hlen)]
    have hmap : (U.map (some : Int → Lbl)).map (fun lab =>
        if memB beqLbl (p.1.map some) lab then
          p.2.getD (idxOfB beqLbl (p.1.map some) lab).toNat e else e) =
        U.map (fun g => groupLookup e p g) := by
      rw [List.map_map]
      refine List.map_congr_left ?_
      intro g _
      simp only [Function.comp]
      rw [memB_some_lift, idxOfB_some_lift]
      rfl
    rw [hmap]
    rfl
  rw [hm]

theorem npgCombineE_char (opf : α → α → α) (e : α)
    (ps : List (List Int × List α)) (hne : ps ≠ [])
    (hps : ∀ p ∈ ps, p.1 ≠ [] ∧ p.2.length = p.1.length) :
    npgCombineE [⟨fun l => l.foldl opf e, e⟩]
        (ps.map (fun p => ⟨p.1.map some, [p.2]⟩)) =
      .ok ⟨(uniqInt ((ps.map Prod.fst).flatten)).map some,
        [(uniqInt ((ps.map Prod.fst).flatten)).map
          (fun g => (ps.map (fun p => groupLookup e p g)).foldl opf e)]⟩ := by
  have hF : (ps.map Prod.fst).flatten ≠ [] := by
    cases ps with
    | nil => exact absurd rfl hne
    | cons a t =>
      have ha := (hps a (by simp)).1
      cases hfa : a.1 with
      | nil => exact absurd hfa ha
      | cons x r =>
        rw [List.map_cons, List.flatten_cons, hfa]
        simp
  have hU : uniqInt ((ps.map Prod.fst).flatten) ≠ [] := uniqInt_ne_nil _ hF
  unfold npgCombineE
  dsimp only
  have hug : npUnique (((ps.map (fun p => (⟨p.1.map some, [p.2]⟩ : PRes α))).map
      (fun q => q.groups)).flatten) =
      (uniqInt ((ps.map Prod.fst).flatten)).map some := by
    rw [List.map_map]
    rw [show ((fun (q : PRes α) => q.groups) ∘ (fun p : List Int × List α =>
        (⟨p.1.map some, [p.2]⟩ : PRes α))) =
      fun p : List Int × List α => p.1.map some from rfl]
    rw [show (ps.map fun p : List Int × List α => p.1.map (some : Int → Lbl)) =
        (ps.map Prod.fst).map (fun l => l.map some) from by
      rw [List.map_map]; rfl]
    rw [flatten_map_some, npUnique_map_some]
  rw [hug]
  have hmapM : ∀ (qs : List (List Int × List α)),
      (∀ p ∈ qs, p.2.length = p.1.length) →
      (qs.map (fun p => (⟨p.1.map some, [p.2]⟩ : PRes α))).mapM
        (combineReindex [⟨fun l => l.foldl opf e, e⟩]
          ((uniqInt ((ps.map Prod.fst).flatten)).map some)) =
      .ok (qs.map (fun p => (⟨(uniqInt ((ps.map Prod.fst).flatten)).map some,
        [(uniqInt ((ps.map Prod.fst).flatten)).map
          (fun g => groupLookup e p g)]⟩ : PRes α))) := by
    intro qs
    induction qs with
    | nil =>
      intro _
      rw [List.map_nil, List.mapM_nil, List.map_nil]
      rfl
    | cons a t ih =>
      intro hq
      rw [List.map_cons, List.mapM_cons,
        combineReindex_char opf e _ a (hq a (by simp)),
        ih (fun p hp => hq p (List.mem_cons_of_mem a hp))]
      rw [List.map_cons]
      rfl
  rw [hmapM ps (fun p hp => (hps p hp).2)]
  dsimp only
  have henum : ([(⟨fun l => l.foldl opf e, e⟩ : NpgOp α)]).enum =
      [(0, (⟨fun l => l.foldl opf e, e⟩ : NpgOp α))] := rfl
  rw [henum, List.foldlM_cons]
  have hstep : combineStep
      ((ps.map (fun p => (⟨(uniqInt ((ps.map Prod.fst).flatten)).map some,
        [(uniqInt ((ps.map Prod.fst).flatten)).map
          (fun g => groupLookup e p g)]⟩ : PRes α))).map
        (fun q => q.groups)).flatten
      (ps.map (fun p => (⟨(uniqInt ((ps.map Prod.fst).flatten)).map some,
        [(uniqInt ((ps.map Prod.fst).flatten)).map
          (fun g => groupLookup e p g)]⟩ : PRes α)))
      (([] : List Lbl), ([] : List (List α)))
      (0, (⟨fun l => l.foldl opf e, e⟩ : NpgOp α)) =
      .ok ((uniqInt ((ps.map Prod.fst).flatten)).map some,
        [(uniqInt ((ps.map Prod.fst).flatten)).map
          (fun g => (ps.map (fun p => groupLookup e p g)).foldl opf e)]) := by
    unfold combineStep
    dsimp only
    have harr : ((ps.map (fun p =>
        (⟨(uniqInt ((ps.map Prod.fst).flatten)).map some,
          [(uniqInt ((ps.map Prod.fst).flatten)).map
            (fun g => groupLookup e p g)]⟩ : PRes α))).map
        (fun q => q.intermediates.getD 0 [])).flatten =
        ((ps.map (fun p => (uniqInt ((ps.map Prod.fst).flatten)).map
          (fun g => groupLookup e p g))).flatten) := by
      rw [List.map_map]
      rfl
    rw [harr]
    have hgarg : ((ps.map (fun p =>
        (⟨(uniqInt ((ps.map Prod.fst).flatten)).map some,
          [(uniqInt ((ps.map Prod.fst).flatten)).map
            (fun g => groupLookup e p g)]⟩ : PRes α))).map
        (fun q => q.groups)).flatten =
        ((ps.map (fun _ => uniqInt ((ps.map Prod.fst).flatten))).flatten).map
          some := by
      rw [List.map_map]
      rw [show ((fun (q : PRes α) => q.groups) ∘ (fun p : List Int × List α =>
          (⟨(uniqInt ((ps.map Prod.fst).flatten)).map some,
          [(uniqInt ((ps.map Prod.fst).flatten)).map
            (fun g => groupLookup e p g)]⟩ : PRes α))) =
        fun _ : List Int × List α =>
          (uniqInt ((ps.map Prod.fst).flatten)).map some from rfl]
      rw [show (ps.map (fun _ : List Int × List α =>
          (uniqInt ((ps.map Prod.fst).flatten)).map (some : Int → Lbl))) =
        (ps.map (fun _ : List Int × List α =>
          uniqInt ((ps.map Prod.fst).flatten))).map (fun l => l.map some) from
        by rw [List.map_map]; rfl]
      rw [flatten_map_some]
    rw [hgarg]
    have hlenarr : ((ps.map (fun p =>
        (uniqInt ((ps.map Prod.fst).flatten)).map
          (fun g => groupLookup e p g))).flatten).length =
        ((ps.map (fun _ : List Int × List α =>
          uniqInt ((ps.map Prod.fst).flatten))).flatten).length := by
      refine flatten_length_congr ps _ _ ?_
      intro x _
      simp
    have hGu : (ps.map (fun _ : List Int × List α =>
        uniqInt ((ps.map Prod.fst).flatten))).flatten ≠ [] := by
      cases ps with
      | nil => exact absurd rfl hne
      | cons a t =>
        rw [List.map_cons, List.flatten_cons]
        intro hc
        rcases List.append_eq_nil.mp hc with ⟨hc1, _⟩
        exact hU hc1
    have hnz : ¬ (((ps.map (fun p =>
        (uniqInt ((ps.map Prod.fst).flatten)).map
          (fun g => groupLookup e p g))).flatten).length = 0) := by
      rw [hlenarr]
      intro hc
      exact hGu (List.length_eq_zero.mp hc)
    rw [if_neg hnz]
    rw [chunkReduceE_char (fun l => l.foldl opf e) e _ _ hGu hlenarr]
    have hUG : uniqInt ((ps.map (fun _ : List Int × List α =>
        uniqInt ((ps.map Prod.fst).flatten))).flatten) =
        uniqInt ((ps.map Prod.fst).flatten) := by
      refine sorted_nodup_ext _ _ (uniqInt_sorted _) (uniqInt_sorted _)
        (uniqInt_nodup _) (uniqInt_nodup _) ?_
      intro a
      rw [mem_uniqInt, mem_flatten_const _ ps hne, mem_uniqInt]
    rw [hUG]
    have hsel : (uniqInt ((ps.map Prod.fst).flatten)).map
        (fun g => (sel ((ps.map (fun _ : List Int × List α =>
            uniqInt ((ps.map Prod.fst).flatten))).flatten)
          ((ps.map (fun p => (uniqInt ((ps.map Prod.fst).flatten)).map
            (fun g => groupLookup e p g))).flatten) g).foldl opf e) =
        (uniqInt ((ps.map Prod.fst).flatten)).map
          (fun g => (ps.map (fun p => groupLookup e p g)).foldl opf e) := by
      refine List.map_congr_left ?_
      intro g hg
      rw [sel_flatten_const _ (uniqInt_nodup _) g hg ps
        (fun p x => groupLookup e p x)]
    rw [hsel]
    rfl
  rw [hstep]
  rfl

theorem mem_flatten_map (G : List β) (f : β → List δ) (a : δ) :
    a ∈ (G.map f).flatten ↔ ∃ b ∈ G, a ∈ f b := by
  rw [List.mem_flatten]
  constructor
  · rintro ⟨l, hl, hal⟩
    rcases List.mem_map.mp hl with ⟨b, hb, rfl⟩
    exact ⟨b, hb, hal⟩
  · rintro ⟨b, hb, hab⟩
    exact ⟨f b, List.mem_map.mpr ⟨b, hb, rfl⟩, hab⟩

theorem groupLookup_uniq_contrib (hf : List α → α) (e : α)
    (b : List α × List Int) (g : Int) :
    groupLookup e (uniqInt b.2,
      (uniqInt b.2).map (fun x => hf (sel b.2 b.1 x))) g =
    blockContrib hf e b g := by
  unfold groupLookup blockContrib
  by_cases hg : g ∈ b.2
  · have h1 : memB beqInt (uniqInt b.2) g = true :=
      (memB_iff_int _ _).mpr ((mem_uniqInt _ _).mpr hg)
    have h2 : memB beqInt b.2 g = true := (memB_iff_int _ _).mpr hg
    simp only [h1, h2, if_true]
    exact map_getD_idxOfB (uniqInt b.2) _ g e ((mem_uniqInt _ _).mpr hg)
  · have h1 : memB beqInt (uniqInt b.2) g = false := by
      rw [← Bool.not_eq_true, memB_iff_int, mem_uniqInt]
      exact hg
    have h2 : memB beqInt b.2 g = false := by
      rw [← Bool.not_eq_true, memB_iff_int]
      exact hg
    simp only [h1, h2, Bool.false_eq_true, if_false]

theorem reduceBlocks_char (hf : List α → α) (opf : α → α → α) (e : α)
    (G : List (List α × List Int)) (hG : G ≠ [])
    (hb : ∀ b ∈ G, b.2 ≠ [] ∧ b.1.length = b.2.length) :
    reduceBlocks ⟨hf, e⟩ ⟨fun l => l.foldl opf e, e⟩ G =
      .ok ⟨(uniqInt ((G.map Prod.snd).flatten)).map some,
        [(uniqInt ((G.map Prod.snd).flatten)).map
          (fun g => (G.map (fun b => blockContrib hf e b g)).foldl opf e)]⟩ := by
  unfold reduceBlocks
  have hmm : G.mapM (fun b => chunkReduceE [⟨hf, e⟩] b.1 (b.2.map some) none) =
      .ok ((G.map (fun b => ((uniqInt b.2 : List Int),
        (uniqInt b.2).map (fun g => hf (sel b.2 b.1 g))))).map
        (fun p => (⟨p.1.map some, [p.2]⟩ : PRes α))) := by
    rw [List.map_map]
    refine mapM_ok_of_forall _ _ _ ?_
    intro b hbm
    rw [chunkReduceE_char hf e b.1 b.2 (hb b hbm).1 (hb b hbm).2]
    rfl
  rw [hmm]
  show npgCombineE [⟨fun l => l.foldl opf e, e⟩]
      ((G.map (fun b => ((uniqInt b.2 : List Int),
        (uniqInt b.2).map (fun g => hf (sel b.2 b.1 g))))).map
        (fun p => (⟨p.1.map some, [p.2]⟩ : PRes α))) = _
  rw [npgCombineE_char opf e
    (G.map (fun b => ((uniqInt b.2 : List Int),
      (uniqInt b.2).map (fun g => hf (sel b.2 b.1 g)))))
    (by
      cases G with
      | nil => exact absurd rfl hG
      | cons a t => simp)
    (by
      intro p hp
      rcases List.mem_map.mp hp with ⟨q, hq, rfl⟩
      exact ⟨uniqInt_ne_nil _ (hb q hq).1, by simp⟩)]
  have hUeq : uniqInt (((G.map (fun b => ((uniqInt b.2 : List Int),
      (uniqInt b.2).map (fun g => hf (sel b.2 b.1 g))))).map
        Prod.fst).flatten) =
      uniqInt ((G.map Prod.snd).flatten) := by
    refine sorted_nodup_ext _ _ (uniqInt_sorted _) (uniqInt_sorted _)
      (uniqInt_nodup _) (uniqInt_nodup _) ?_
    intro a
    rw [mem_uniqInt, mem_uniqInt, List.map_map, mem_flatten_map,
      mem_flatten_map]
    constructor
    · rintro ⟨b, hbG, hab⟩
      exact ⟨b, hbG, (mem_uniqInt _ _).mp hab⟩
    · rintro ⟨b, hbG, hab⟩
      exact ⟨b, hbG, (mem_uniqInt _ _).mpr hab⟩
  rw [hUeq]
  have hvals : (uniqInt ((G.map Prod.snd).flatten)).map
      (fun g => ((G.map (fun b => ((uniqInt b.2 : List Int),
        (uniqInt b.2).map (fun x => hf (sel b.2 b.1 x))))).map
          (fun p => groupLookup e p g)).foldl opf e) =
      (uniqInt ((G.map Prod.snd).flatten)).map
        (fun g => (G.map (fun b => blockContrib hf e b g)).foldl opf e) := by
    refine List.map_congr_left ?_
    intro g _
    rw [List.map_map]
    have hinner : (G.map ((fun p : List Int × List α => groupLookup e p g) ∘
        (fun b => ((uniqInt b.2 : List Int),
          (uniqInt b.2).map (fun x => hf (sel b.2 b.1 x)))))) =
        G.map (fun b => blockContrib hf e b g) := by
      refine List.map_congr_left ?_
      intro b _
      exact groupLookup_uniq_contrib hf e b g
    rw [hinner]
  rw [hvals]

theorem foldl_pair (opf : α → α → α) (e x y : α) :
    List.foldl opf e [x, y] = opf (opf e x) y := rfl

theorem groupLookup_block_fold (hf : List α → α) (opf : α → α → α) (e : α)
    (hel : ∀ a, opf e a = a)
    (Gi : List (List α × List Int)) (g : Int) :
    groupLookup e ((uniqInt ((Gi.map Prod.snd).flatten) : List Int),
      (uniqInt ((Gi.map Prod.snd).flatten)).map
        (fun x => (Gi.map (fun b => blockContrib hf e b x)).foldl opf e)) g =
    (Gi.map (fun b => blockContrib hf e b g)).foldl opf e := by
  unfold groupLookup
  by_cases hg : g ∈ uniqInt ((Gi.map Prod.snd).flatten)
  · have hm : memB beqInt (uniqInt ((Gi.map Prod.snd).flatten)) g = true :=
      (memB_iff_int _ _).mpr hg
    simp only [hm, if_true]
    exact map_getD_idxOfB _ _ g e hg
  · have hm : memB beqInt (uniqInt ((Gi.map Prod.snd).flatten)) g = false := by
      rw [← Bool.not_eq_true, memB_iff_int]
      exact hg
    simp only [hm, Bool.false_eq_true, if_false]
    refine (foldl_all_e opf e hel _ ?_).symm
    intro x hx
    rcases List.mem_map.mp hx with ⟨b, hbG, rfl⟩
    unfold blockContrib
    have hbm : memB beqInt b.2 g = false := by
      rw [← Bool.not_eq_true, memB_iff_int]
      intro hgb
      exact hg ((mem_uniqInt _ _).mpr
        ((mem_flatten_map Gi Prod.snd g).mpr ⟨b, hbG, hgb⟩))
    simp only [hbm, Bool.false_eq_true, if_false]

/-- The split equality for the "reduce" reduction type: for a chunk op and
an associative combine op with the fill value as two-sided identity (applied
by folding each group's gathered entries, as numpy_groupies does), combining
the two separately reduced halves with one `_npg_combine` equals reducing all
blocks in one step. -/
theorem foldSplit_eq (opf : α → α → α) (e : α)
    (hf : List α → α)
    (hassoc : ∀ a b c, opf (opf a b) c = opf a (opf b c))
    (hel : ∀ a, opf e a = a) (her : ∀ a, opf a e = a)
    (G1 G2 : List (List α × List Int))
    (h1 : G1 ≠ []) (h2 : G2 ≠ [])
    (hb : ∀ b ∈ G1 ++ G2, b.2 ≠ [] ∧ b.1.length = b.2.length) :
    (do
      let r1 ← reduceBlocks ⟨hf, e⟩ ⟨fun l => l.foldl opf e, e⟩ G1
      let r2 ← reduceBlocks ⟨hf, e⟩ ⟨fun l => l.foldl opf e, e⟩ G2
      npgCombineE [⟨fun l => l.foldl opf e, e⟩] [r1, r2]) =
    reduceBlocks ⟨hf, e⟩ ⟨fun l => l.foldl opf e, e⟩ (G1 ++ G2) := by
  have hb1 : ∀ b ∈ G1, b.2 ≠ [] ∧ b.1.length = b.2.length :=
    fun b hbm => hb b (List.mem_append_left _ hbm)
  have hb2 : ∀ b ∈ G2, b.2 ≠ [] ∧ b.1.length = b.2.length :=
    fun b hbm => hb b (List.mem_append_right _ hbm)
  have h12 : G1 ++ G2 ≠ [] := by
    cases G1 with
    | nil => exact absurd rfl h1
    | cons a t => simp
  have hL1 : (G1.map Prod.snd).flatten ≠ [] := by
    cases G1 with
    | nil => exact absurd rfl h1
    | cons a t =>
      rw [List.map_cons, List.flatten_cons]
      intro hc
      rcases List.append_eq_nil.mp hc with ⟨hc1, _⟩
      exact (hb1 a (by simp)).1 hc1
  have hL2 : (G2.map Prod.snd).flatten ≠ [] := by
    cases G2 with
    | nil => exact absurd rfl h2
    | cons a t =>
      rw [List.map_cons, List.flatten_cons]
      intro hc
      rcases List.append_eq_nil.mp hc with ⟨hc1, _⟩
      exact (hb2 a (by simp)).1 hc1
  rw [reduceBlocks_char hf opf e G1 h1 hb1,
    reduceBlocks_char hf opf e G2 h2 hb2,
    reduceBlocks_char hf opf e (G1 ++ G2) h12 hb]
  show npgCombineE [⟨fun l => l.foldl opf e, e⟩]
      (([((uniqInt ((G1.map Prod.snd).flatten) : List Int),
          (uniqInt ((G1.map Prod.snd).flatten)).map
            (fun g => (G1.map (fun b => blockContrib hf e b g)).foldl opf e)),
         ((uniqInt ((G2.map Prod.snd).flatten) : List Int),
          (uniqInt ((G2.map Prod.snd).flatten)).map
            (fun g => (G2.map (fun b => blockContrib hf e b g)).foldl opf e))] :
        List (List Int × List α)).map
          (fun p => (⟨p.1.map some, [p.2]⟩ : PRes α))) = _
  rw [npgCombineE_char opf e _ (by simp)
    (by
      intro p hp
      rcases List.mem_cons.mp hp with rfl | hp2
      · exact ⟨uniqInt_ne_nil _ hL1, by simp⟩
      · rcases List.mem_cons.mp hp2 with rfl | hp3
        · exact ⟨uniqInt_ne_nil _ hL2, by simp⟩
        · cases hp3)]
  have hfl : (([((uniqInt ((G1.map Prod.snd).flatten) : List Int),
      (uniqInt ((G1.map Prod.snd).flatten)).map
        (fun g => (G1.map (fun b => blockContrib hf e b g)).foldl opf e)),
     ((uniqInt ((G2.map Prod.snd).flatten) : List Int),
      (uniqInt ((G2.map Prod.snd).flatten)).map
        (fun g => (G2.map (fun b => blockContrib hf e b g)).foldl opf e))] :
    List (List Int × List α)).map Prod.fst).flatten =
      uniqInt ((G1.map Prod.snd).flatten) ++
        uniqInt ((G2.map Prod.snd).flatten) := by
    simp
  rw [hfl]
  have hUU : uniqInt (uniqInt ((G1.map Prod.snd).flatten) ++
      uniqInt ((G2.map Prod.snd).flatten)) =
      uniqInt (((G1 ++ G2).map Prod.snd).flatten) := by
    refine sorted_nodup_ext _ _ (uniqInt_sorted _) (uniqInt_sorted _)
      (uniqInt_nodup _) (uniqInt_nodup _) ?_
    intro a
    rw [mem_uniqInt, mem_uniqInt, List.mem_append, mem_uniqInt, mem_uniqInt,
      List.map_append, List.flatten_append, List.mem_append]
  rw [hUU]
  have hv : ∀ g : Int,
      ((([((uniqInt ((G1.map Prod.snd).flatten) : List Int),
          (uniqInt ((G1.map Prod.snd).flatten)).map
            (fun x => (G1.map (fun b => blockContrib hf e b x)).foldl opf e)),
         ((uniqInt ((G2.map Prod.snd).flatten) : List Int),
          (uniqInt ((G2.map Prod.snd).flatten)).map
            (fun x => (G2.map (fun b => blockContrib hf e b x)).foldl opf e))] :
        List (List Int × List α)).map
          (fun p => groupLookup e p g)).foldl opf e) =
      ((G1 ++ G2).map (fun b => blockContrib hf e b g)).foldl opf e := by
    intro g
    simp only [List.map_cons, List.map_nil]
    rw [foldl_pair, groupLookup_block_fold hf opf e hel G1 g,
      groupLookup_block_fold hf opf e hel G2 g,
      List.map_append, List.foldl_append]
    conv_rhs => rw [foldl_hom opf e hassoc hel her]
    rw [hel]
  rw [List.map_congr_left (fun g _ => hv g)]

/-! ### Argreduce characterization -/

theorem selWithPos_map_snd (g : Int) (k : Nat) (ls : List Int)
    (vs : List α) : (selWithPos g k ls vs).map Prod.snd = sel ls vs g := by
  induction ls generalizing vs k with
  | nil => rfl
  | cons a t ih =>
    cases vs with
    | nil =>
      rw [show selWithPos g k (a :: t) ([] : List α) = [] from rfl]
      rw [sel, List.zip_nil_right]
      rfl
    | cons w ws =>
      rw [selWithPos, sel, List.zip_cons_cons, List.filterMap_cons]
      by_cases hag : a = g
      · rw [if_pos hag, if_pos hag, List.map_cons, ih]
        rfl
      · rw [if_neg hag, if_neg hag, ih]
        rfl

theorem selWithPos_shift (g : Int) (j k : Nat) (ls : List Int) (vs : List α) :
    selWithPos g (j + k) ls vs =
      (selWithPos g j ls vs).map (fun q => (q.1 + k, q.2)) := by
  induction ls generalizing vs j with
  | nil => rfl
  | cons a t ih =>
    cases vs with
    | nil => rfl
    | cons w ws =>
      rw [selWithPos, selWithPos]
      by_cases hag : a = g
      · rw [if_pos hag, if_pos hag, List.map_cons]
        rw [show j + k + 1 = (j + 1) + k by omega, ih]
      · rw [if_neg hag, if_neg hag,
          show j + k + 1 = (j + 1) + k by omega, ih]

theorem selWithPos_nil_of_not_mem (g : Int) (k : Nat) (ls : List Int)
    (vs : List α) (h : g ∉ ls) : selWithPos g k ls vs = [] := by
  induction ls generalizing vs k with
  | nil => rfl
  | cons a t ih =>
    cases vs with
    | nil => rfl
    | cons w ws =>
      rw [selWithPos, if_neg (fun hc => h (by rw [← hc]; exact List.mem_cons_self a t))]
      exact ih (k + 1) ws (fun hc => h (List.mem_cons_of_mem a hc))

theorem selWithPos_append (g : Int) (k : Nat) (l1 l2 : List Int)
    (v1 v2 : List α) (hlen : l1.length = v1.length) :
    selWithPos g k (l1 ++ l2) (v1 ++ v2) =
      selWithPos g k l1 v1 ++ selWithPos g (k + l1.length) l2 v2 := by
  induction l1 generalizing v1 k with
  | nil =>
    cases v1 with
    | nil => simp [selWithPos]
    | cons w ws => simp at hlen
  | cons a t ih =>
    cases v1 with
    | nil => simp at hlen
    | cons w ws =>
      rw [List.cons_append, List.cons_append, selWithPos, selWithPos]
      have hlen2 : t.length = ws.length := by simpa using hlen
      by_cases hag : a = g
      · rw [if_pos hag, if_pos hag, ih (k + 1) ws hlen2, List.cons_append]
        rw [show k + 1 + t.length = k + (a :: t).length by simp; omega]
      · rw [if_neg hag, if_neg hag, ih (k + 1) ws hlen2]
        rw [show k + 1 + t.length = k + (a :: t).length by simp; omega]

theorem selWithPos_map_self (U : List Int) (h : Int → α) (g : Int) (k : Nat)
    (hU : U.Nodup) (hg : g ∈ U) :
    selWithPos g k U (U.map (fun x => h x)) =
      [(k + (idxOfB beqInt U g).toNat, h g)] := by
  induction U generalizing k with
  | nil => cases hg
  | cons a t ih =>
    obtain ⟨hnot, hnd⟩ := List.nodup_cons.mp hU
    rw [List.map_cons, selWithPos]
    rcases List.mem_cons.mp hg with rfl | hg2
    · rw [if_pos rfl]
      rw [selWithPos_nil_of_not_mem _ _ _ _ hnot]
      rw [show idxOfB beqInt (g :: t) g = 0 from by
        rw [idxOfB, if_pos ((beqInt_iff g g).mpr rfl)]]
      rfl
    · have hne : a ≠ g := fun hc => hnot (hc ▸ hg2)
      rw [if_neg hne, ih (k + 1) hnd hg2]
      have hmem : memB beqInt t g = true := (memB_iff_int t g).mpr hg2
      have hge := idxOfB_ge_neg beqInt t g
      have hne1 : idxOfB beqInt t g ≠ -1 := by
        intro hc
        rw [(idxOfB_eq_neg_one_iff beqInt t g).mp hc] at hmem
        cases hmem
      have hidx : idxOfB beqInt (a :: t) g = idxOfB beqInt t g + 1 := by
        rw [idxOfB, if_neg (by
          intro hc
          exact hne ((beqInt_iff a g).mp hc)), if_neg hne1]
      rw [hidx]
      have : (idxOfB beqInt t g + 1).toNat = (idxOfB beqInt t g).toNat + 1 := by
        omega
      rw [this]
      rw [show k + 1 + (idxOfB beqInt t g).toNat =
        k + ((idxOfB beqInt t g).toNat + 1) by omega]

theorem selWithPos_map_code (labels : List Int) (vals : List α) (k : Nat)
    (cf : Int → Int) (g : Int) (j : Int)
    (hiff : ∀ v ∈ labels, (cf v = j ↔ v = g)) :
    selWithPos j k (labels.map cf) vals = selWithPos g k labels vals := by
  induction labels generalizing vals k with
  | nil => rfl
  | cons a t ih =>
    cases vals with
    | nil => rfl
    | cons w ws =>
      rw [List.map_cons, selWithPos, selWithPos]
      have hiffa := hiff a (by simp)
      have hrest := ih ws (k + 1) (fun v hv => hiff v (List.mem_cons_of_mem a hv))
      by_cases hc : cf a = j
      · rw [if_pos hc, if_pos (hiffa.mp hc), hrest]
      · rw [if_neg hc, if_neg (fun hc2 => hc (hiffa.mpr hc2)), hrest]

theorem sel_map_right (L : List Int) (h : Int → α) (g : Int) :
    sel L (L.map (fun x => h x)) g = (sel L L g).map h := by
  induction L with
  | nil => rfl
  | cons a t ih =>
    rw [List.map_cons, sel, sel, List.zip_cons_cons, List.zip_cons_cons,
      List.filterMap_cons, List.filterMap_cons]
    by_cases hag : a = g
    · rw [if_pos hag, if_pos hag, List.map_cons]
      rw [sel, sel] at ih
      rw [ih]
    · rw [if_neg hag, if_neg hag]
      rw [sel, sel] at ih
      rw [ih]

theorem codegroup_iff (labels : List Int) (j : Nat)
    (hjlt : j < (firstApp labels).length) :
    ∀ v ∈ labels, (idxOfB beqInt (firstApp labels) v = (j : Int) ↔
      v = (firstApp labels).getD j 0) := by
  intro v hv
  have hm : memB beqInt (firstApp labels) v = true :=
    (memB_iff_int _ _).mpr ((mem_firstApp labels v).mpr hv)
  constructor
  · intro hc
    have hbq := idxOfB_getD beqInt (firstApp labels) v 0 hm
    rw [hc] at hbq
    have htn : (j : Int).toNat = j := by omega
    rw [htn] at hbq
    exact ((beqInt_iff _ _).mp hbq).symm
  · intro hc
    rw [hc]
    exact idxOfB_nodup_self (firstApp labels) (nodup_firstApp labels) j hjlt

theorem npgArgmax_char [LinearOrder α] (vals : List α) (labels : List Int) :
    npgArgmax (labels.map (fun v => idxOfB beqInt (firstApp labels) v)) vals
      (firstApp labels).length =
    (firstApp labels).map (fun g => argSelPos labels vals g) := by
  rw [npgArgmax]
  refine Eq.trans (List.map_congr_left ?_)
    (mapRange_getD_comp (firstApp labels) (fun g => argSelPos labels vals g) 0)
  intro j hj
  have hjlt : j < (firstApp labels).length := List.mem_range.mp hj
  have hsw : selWithPos (j : Int) 0
      (labels.map (fun v => idxOfB beqInt (firstApp labels) v)) vals =
      selWithPos ((firstApp labels).getD j 0) 0 labels vals :=
    selWithPos_map_code labels vals 0 _ _ _ (codegroup_iff labels j hjlt)
  show argSelPos _ vals (j : Int) = argSelPos labels vals _
  unfold argSelPos
  rw [hsw]

theorem npgCount_char (labels : List Int) :
    npgCount (labels.map (fun v => idxOfB beqInt (firstApp labels) v))
      (firstApp labels).length =
    (firstApp labels).map (fun g => ((sel labels labels g).length : Int)) := by
  rw [npgCount]
  refine Eq.trans (List.map_congr_left ?_)
    (mapRange_getD_comp (firstApp labels)
      (fun g => ((sel labels labels g).length : Int)) 0)
  intro j hj
  have hjlt : j < (firstApp labels).length := List.mem_range.mp hj
  have hsel : sel (labels.map (fun v => idxOfB beqInt (firstApp labels) v))
      (labels.map (fun v => idxOfB beqInt (firstApp labels) v)) (j : Int) =
      sel labels (labels.map (fun v => idxOfB beqInt (firstApp labels) v))
        ((firstApp labels).getD j 0) :=
    sel_map_code labels _ _ _ _ (codegroup_iff labels j hjlt)
  rw [hsel, sel_map_right]
  simp

theorem chunkPosIntermediate_char [LinearOrder α] (vals : List α)
    (labels : List Int) (hne : labels ≠ []) :
    chunkPosIntermediate vals (labels.map some)
      (labels.map (fun v => idxOfB beqInt (firstApp labels) v),
        firstApp labels) =
    (sortInt (firstApp labels)).map (fun g => argSelPos labels vals g) := by
  unfold chunkPosIntermediate
  dsimp only
  have hcodes_ne : labels.map (fun v => idxOfB beqInt (firstApp labels) v) ≠ [] := by
    cases labels with
    | nil => exact absurd rfl hne
    | cons a t => simp
  have hmaskall := mask_all_false' _ hcodes_ne (code_ne_neg labels)
  have hbe : (labels.map (some : Int → Lbl)).isEmpty = false := by
    cases labels with
    | nil => exact absurd rfl hne
    | cons a t => rfl
  rw [hmaskall, hbe]
  simp only [Bool.or_false, Bool.false_eq_true, if_false]
  have hmaskany := mask_any_false _ (code_ne_neg labels)
  rw [hmaskany]
  simp only [Bool.false_eq_true, if_false]
  rw [codes_foldl_max labels hne]
  have hsize : ((((firstApp labels).length : Int) - 1) + 1).toNat =
      (firstApp labels).length := by omega
  rw [hsize, npgArgmax_char vals labels]
  rw [applyIdx_argsort_char (firstApp labels)
    (fun g => argSelPos labels vals g) 0]

theorem chunkCountIntermediate_char (labels : List Int) (hne : labels ≠ []) :
    chunkCountIntermediate (labels.map some)
      (labels.map (fun v => idxOfB beqInt (firstApp labels) v),
        firstApp labels) =
    (sortInt (firstApp labels)).map
      (fun g => ((sel labels labels g).length : Int)) := by
  unfold chunkCountIntermediate
  dsimp only
  have hcodes_ne : labels.map (fun v => idxOfB beqInt (firstApp labels) v) ≠ [] := by
    cases labels with
    | nil => exact absurd rfl hne
    | cons a t => simp
  have hmaskall := mask_all_false' _ hcodes_ne (code_ne_neg labels)
  have hbe : (labels.map (some : Int → Lbl)).isEmpty = false := by
    cases labels with
    | nil => exact absurd rfl hne
    | cons a t => rfl
  rw [hmaskall, hbe]
  simp only [Bool.or_false, Bool.false_eq_true, if_false]
  have hmaskany := mask_any_false _ (code_ne_neg labels)
  rw [hmaskany]
  simp only [Bool.false_eq_true, if_false]
  rw [codes_foldl_max labels hne]
  have hsize : ((((firstApp labels).length : Int) - 1) + 1).toNat =
      (firstApp labels).length := by omega
  rw [hsize, npgCount_char labels]
  rw [applyIdx_argsort_char (firstApp labels)
    (fun g => ((sel labels labels g).length : Int)) 0]

theorem chunkArgleafE_char [LinearOrder α] (fillv : α) (vals : List α)
    (idxs : List Int) (labels : List Int) (hne : labels ≠ [])
    (hlen : vals.length = labels.length) :
    chunkArgleafE fillv vals idxs (labels.map some) =
      .ok ⟨(uniqInt labels).map some,
        (uniqInt labels).map (fun g => (maxOp fillv).f (sel labels vals g)),
        (uniqInt labels).map (fun g => idxs.getD (argSelPos labels vals g) 0),
        (uniqInt labels).map
          (fun g => ((sel labels labels g).length : Int))⟩ := by
  unfold chunkArgleafE
  rw [factorizeDense_map_some labels hne]
  dsimp only
  rw [show (maxOp fillv : NpgOp α) = ⟨(maxOp fillv).f, fillv⟩ from rfl,
    chunkOpIntermediate_char ((maxOp fillv).f) fillv vals labels _ hne hlen]
  rw [chunkPosIntermediate_char vals labels hne,
    chunkCountIntermediate_char labels hne, List.map_map,
    chunkGroups_map_some labels hne, sortInt_firstApp_eq_uniqInt]
  rfl

theorem chunkArgreduceE_char [LinearOrder α] (fillv : α) (vals : List α)
    (idxs : List Int) (labels : List Int) (hne : labels ≠ [])
    (hlen : vals.length = labels.length) :
    chunkArgreduceE fillv vals idxs (labels.map some) none =
      .ok ((uniqInt labels).map some,
        (uniqInt labels).map (fun g => (maxOp fillv).f (sel labels vals g)),
        (uniqInt labels).map
          (fun g => idxs.getD (argSelPos labels vals g) 0)) := by
  unfold chunkArgreduceE
  rw [factorizeDense_map_some labels hne]
  dsimp only
  rw [show (maxOp fillv : NpgOp α) = ⟨(maxOp fillv).f, fillv⟩ from rfl,
    chunkOpIntermediate_char ((maxOp fillv).f) fillv vals labels _ hne hlen]
  rw [chunkPosIntermediate_char vals labels hne, List.map_map,
    chunkGroups_map_some labels hne, sortInt_firstApp_eq_uniqInt]
  rfl

theorem strided_map_snd (L : Nat) (base : Nat) (vs : List γ) :
    (strided L base vs).map Prod.snd = vs := by
  induction vs generalizing base with
  | nil => rfl
  | cons v t ih => rw [strided, List.map_cons, ih]

theorem strided_map_val (L : Nat) (base : Nat) (h : γ → δ) (vs : List γ) :
    strided L base (vs.map h) =
      (strided L base vs).map (fun q => (q.1, h q.2)) := by
  induction vs generalizing base with
  | nil => rfl
  | cons v t ih => rw [List.map_cons, strided, strided, ih, List.map_cons]

theorem strided_ne_nil (L : Nat) (base : Nat) (vs : List γ) (h : vs ≠ []) :
    strided L base vs ≠ [] := by
  cases vs with
  | nil => exact absurd rfl h
  | cons v t => rw [strided]; simp

theorem strided_mem (L : Nat) : ∀ (base : Nat) (vs : List γ) (q : Nat × γ),
    q ∈ strided L base vs →
    ∃ k, ∃ hk : k < vs.length, q = (base + L * k, vs.get ⟨k, hk⟩) := by
  intro base vs
  induction vs generalizing base with
  | nil => intro q hq; cases hq
  | cons v t ih =>
    intro q hq
    rw [strided] at hq
    rcases List.mem_cons.mp hq with rfl | hq2
    · exact ⟨0, by simp, by simp⟩
    · rcases ih (base + L) q hq2 with ⟨k, hk, rfl⟩
      refine ⟨k + 1, by simpa using hk, ?_⟩
      have : base + L + L * k = base + L * (k + 1) := by ring
      rw [this]
      rfl

theorem val_pickBy [LinearOrder α] (val : β → α) (a b : β) :
    val (pickBy val a b) = max (val a) (val b) := by
  unfold pickBy
  split_ifs with h
  · exact (max_eq_right h.le).symm
  · exact (max_eq_left (not_lt.mp h)).symm

theorem foldl_pickBy_val [LinearOrder α] (val : β → α) :
    ∀ (l : List β) (x : β),
      val (l.foldl (pickBy val) x) = (l.map val).foldl max (val x) := by
  intro l
  induction l with
  | nil => intro x; rfl
  | cons y r ih =>
    intro x
    rw [List.foldl_cons, List.map_cons, List.foldl_cons, ih, val_pickBy val x y]

theorem foldl_pickBy_map_comm [LinearOrder α] (val1 : γ → α)
    (val2 : ε → α) (h : γ → ε) (hval : ∀ x, val2 (h x) = val1 x) :
    ∀ (l : List γ) (x : γ),
      (l.map h).foldl (pickBy val2) (h x) = h (l.foldl (pickBy val1) x) := by
  intro l
  induction l with
  | nil => intro x; rfl
  | cons y r ih =>
    intro x
    rw [List.map_cons, List.foldl_cons, List.foldl_cons]
    have hp : pickBy val2 (h x) (h y) = h (pickBy val1 x y) := by
      unfold pickBy
      rw [hval, hval]
      split_ifs <;> rfl
    rw [hp, ih]

theorem foldl_pickBy_mem [LinearOrder α] (val : β → α) :
    ∀ (r : List β) (x : β), r.foldl (pickBy val) x ∈ x :: r := by
  intro r
  induction r with
  | nil => intro x; simp
  | cons y t ih =>
    intro x
    rw [List.foldl_cons]
    have := ih (pickBy val x y)
    have hxy : pickBy val x y = x ∨ pickBy val x y = y := by
      unfold pickBy
      split_ifs
      · exact Or.inr rfl
      · exact Or.inl rfl
    rcases List.mem_cons.mp this with heq | hmem
    · rcases hxy with h2 | h2
      · rw [heq, h2]; simp
      · rw [heq, h2]; simp
    · exact List.mem_cons_of_mem _ (List.mem_cons_of_mem _ hmem)

theorem flatten_getD (L : Nat) (d : δ) :
    ∀ (segs : List (List δ)) (k j : Nat), (∀ s ∈ segs, s.length = L) →
      k < segs.length → j < L →
      (segs.flatten).getD (L * k + j) d = (segs.getD k []).getD j d := by
  intro segs
  induction segs with
  | nil => intro k j _ hk _; cases hk
  | cons s t ih =>
    intro k j hall hk hj
    rw [List.flatten_cons]
    cases k with
    | zero =>
      have hjs : j < s.length := by rw [hall s (by simp)]; exact hj
      rw [show L * 0 + j = j by ring]
      rw [List.getD_append _ _ _ _ (by simpa using hjs)]
      rfl
    | succ k' =>
      have hsL : s.length = L := hall s (by simp)
      have hge : s.length ≤ L * (k' + 1) + j := by
        rw [hsL]
        have : L * (k' + 1) = L * k' + L := by ring
        omega
      rw [List.getD_append_right _ _ _ _ hge]
      have harith : L * (k' + 1) + j - s.length = L * k' + j := by
        rw [hsL]
        have : L * (k' + 1) = L * k' + L := by ring
        omega
      rw [harith, ih k' j (fun x hx => hall x (List.mem_cons_of_mem s hx))
        (by simpa using hk) hj]
      rfl

theorem reindex_map_some_lookup (e : α) (W : List Int) (v : List α)
    (U : List Int) (hlen : v.length = W.length) :
    reindex1 beqLbl v (W.map some) (U.map some) (some e) =
      .ok (U.map (fun x => groupLookup e (W, v) x)) := by
  rw [reindex1_char beqLbl v (W.map some) (U.map some) e (by simpa using hlen)]
  congr 1
  rw [List.map_map]
  refine List.map_congr_left ?_
  intro g _
  simp only [Function.comp]
  rw [memB_some_lift, idxOfB_some_lift]
  rfl

theorem selWithPos_flatten_const (U : List Int) (hU : U.Nodup) (g : Int)
    (hg : g ∈ U) (ps : List β) (lk : β → Int → α) :
    ∀ base, selWithPos g base ((ps.map (fun _ => U)).flatten)
        ((ps.map (fun p => U.map (fun x => lk p x))).flatten) =
      strided U.length (base + (idxOfB beqInt U g).toNat)
        (ps.map (fun p => lk p g)) := by
  induction ps with
  | nil => intro base; rfl
  | cons p t ih =>
    intro base
    rw [List.map_cons, List.map_cons, List.flatten_cons, List.flatten_cons,
      selWithPos_append g base _ _ _ _ (by simp),
      selWithPos_map_self U (lk p) g base hU hg,
      ih (base + U.length), List.map_cons, strided, List.singleton_append]
    have harith : base + U.length + (idxOfB beqInt U g).toNat =
        base + (idxOfB beqInt U g).toNat + U.length := by omega
    rw [harith]

theorem argCombineE_mapM_char [LinearOrder α] (fillv : α) (filli : Int)
    (U : List Int) :
    ∀ (qs : List (List Int × List α × List Int × List Int)),
    (∀ p ∈ qs, p.2.1.length = p.1.length ∧ p.2.2.1.length = p.1.length ∧
      p.2.2.2.length = p.1.length) →
    (qs.map (fun p =>
        (⟨p.1.map some, p.2.1, p.2.2.1, p.2.2.2⟩ : APres α))).mapM
      (fun p =>
        (match reindex1 beqLbl p.vals p.groups (U.map some) (some fillv) with
        | .error e => .error e
        | .ok v =>
          match reindex1 beqLbl p.idxs p.groups (U.map some) (some filli) with
          | .error e => .error e
          | .ok i =>
            match reindex1 beqLbl p.counts p.groups (U.map some)
                (some (0 : Int)) with
            | .error e => .error e
            | .ok c => .ok ⟨U.map some, v, i, c⟩ :
          Except String (APres α))) =
    .ok (qs.map (fun p => (⟨U.map some,
      U.map (fun x => groupLookup fillv (p.1, p.2.1) x),
      U.map (fun x => groupLookup filli (p.1, p.2.2.1) x),
      U.map (fun x => groupLookup 0 (p.1, p.2.2.2) x)⟩ : APres α))) := by
  intro qs
  induction qs with
  | nil =>
    intro _
    rw [List.map_nil, List.mapM_nil, List.map_nil]
    rfl
  | cons p t ih =>
    intro hq
    obtain ⟨h1, h2, h3⟩ := hq p (by simp)
    rw [List.map_cons, List.mapM_cons]
    dsimp only
    rw [reindex_map_some_lookup fillv p.1 p.2.1 U h1,
      reindex_map_some_lookup filli p.1 p.2.2.1 U h2,
      reindex_map_some_lookup 0 p.1 p.2.2.2 U h3,
      ih (fun x hx => hq x (List.mem_cons_of_mem p hx)), List.map_cons]
    rfl

theorem argSelPos_of_selWithPos [LinearOrder α] (labels : List Int)
    (vals : List α) (g : Int) (x : Nat × α) (r : List (Nat × α))
    (hsw : selWithPos g 0 labels vals = x :: r) :
    argSelPos labels vals g = (r.foldl (pickBy Prod.snd) x).1 := by
  unfold argSelPos
  rw [hsw]

theorem combine_max_pointwise [LinearOrder α] (fillv : α) (filli : Int)
    (U : List Int) (hU : U.Nodup) (g : Int) (hg : g ∈ U)
    (ps : List (List Int × List α × List Int × List Int)) (hne : ps ≠ []) :
    (maxOp fillv).f (sel ((ps.map (fun _ => U)).flatten)
      ((ps.map (fun p => U.map
        (fun x => groupLookup fillv (p.1, p.2.1) x))).flatten) g) =
    (firstMaxBy Prod.fst (fillv, filli)
      (ps.map (fun p => pairLookup fillv filli p g))).1 := by
  rw [sel_flatten_const U hU g hg ps
    (fun p x => groupLookup fillv (p.1, p.2.1) x)]
  have hmm : ps.map (fun p => groupLookup fillv (p.1, p.2.1) g) =
      (ps.map (fun p => pairLookup fillv filli p g)).map Prod.fst := by
    rw [List.map_map]
    rfl
  rw [hmm]
  cases hps : ps.map (fun p => pairLookup fillv filli p g) with
  | nil =>
    exfalso
    cases ps with
    | nil => exact hne rfl
    | cons a t => cases hps
  | cons q qr =>
    rw [List.map_cons]
    have h1 : (maxOp fillv).f (q.1 :: qr.map Prod.fst) =
        (qr.map Prod.fst).foldl max q.1 := rfl
    have h2 : firstMaxBy Prod.fst (fillv, filli) (q :: qr) =
        qr.foldl (pickBy Prod.fst) q := rfl
    rw [h1, h2]
    exact (foldl_pickBy_val Prod.fst qr q).symm

theorem combine_idx_pointwise [LinearOrder α] (fillv : α) (filli : Int)
    (U : List Int) (hU : U.Nodup) (g : Int) (hg : g ∈ U)
    (ps : List (List Int × List α × List Int × List Int)) (hne : ps ≠ []) :
    ((ps.map (fun p => U.map
        (fun x => groupLookup filli (p.1, p.2.2.1) x))).flatten).getD
      (argSelPos ((ps.map (fun _ => U)).flatten)
        ((ps.map (fun p => U.map
          (fun x => groupLookup fillv (p.1, p.2.1) x))).flatten) g) 0 =
    (firstMaxBy Prod.fst (fillv, filli)
      (ps.map (fun p => pairLookup fillv filli p g))).2 := by
  have hmemb : memB beqInt U g = true := (memB_iff_int U g).mpr hg
  have hjlt : (idxOfB beqInt U g).toNat < U.length := by
    have h1 := idxOfB_lt_length beqInt U g hmemb
    have h2 := idxOfB_ge_neg beqInt U g
    have h3 : idxOfB beqInt U g ≠ -1 := by
      intro hc
      rw [(idxOfB_eq_neg_one_iff beqInt U g).mp hc] at hmemb
      cases hmemb
    omega
  have hsw : selWithPos g 0 ((ps.map (fun _ => U)).flatten)
      ((ps.map (fun p => U.map
        (fun x => groupLookup fillv (p.1, p.2.1) x))).flatten) =
      (strided U.length ((idxOfB beqInt U g).toNat)
        (ps.map (fun p => pairLookup fillv filli p g))).map
          (fun q => (q.1, q.2.1)) := by
    rw [selWithPos_flatten_const U hU g hg ps
      (fun p x => groupLookup fillv (p.1, p.2.1) x) 0, Nat.zero_add]
    have hvsf : ps.map (fun p => groupLookup fillv (p.1, p.2.1) g) =
        (ps.map (fun p => pairLookup fillv filli p g)).map Prod.fst := by
      rw [List.map_map]
      rfl
    rw [hvsf, strided_map_val]
  cases hvs : ps.map (fun p => pairLookup fillv filli p g) with
  | nil =>
    exfalso
    cases ps with
    | nil => exact hne rfl
    | cons a t => cases hvs
  | cons q0 qr =>
    rw [hvs] at hsw
    have hA : argSelPos ((ps.map (fun _ => U)).flatten)
        ((ps.map (fun p => U.map
          (fun x => groupLookup fillv (p.1, p.2.1) x))).flatten) g =
        ((strided U.length ((idxOfB beqInt U g).toNat + U.length) qr).foldl
          (pickBy (fun w : Nat × (α × Int) => w.2.1))
          ((idxOfB beqInt U g).toNat, q0)).1 := by
      unfold argSelPos
      rw [hsw]
      exact congrArg Prod.fst
        (foldl_pickBy_map_comm (fun w : Nat × (α × Int) => w.2.1)
          Prod.snd (fun q : Nat × (α × Int) => (q.1, q.2.1)) (by intro x; rfl)
          (strided U.length ((idxOfB beqInt U g).toNat + U.length) qr)
          ((idxOfB beqInt U g).toNat, q0))
    have hB : firstMaxBy Prod.fst (fillv, filli) (q0 :: qr) =
        ((strided U.length ((idxOfB beqInt U g).toNat + U.length) qr).foldl
          (pickBy (fun w : Nat × (α × Int) => w.2.1))
          ((idxOfB beqInt U g).toNat, q0)).2 := by
      have h2 : firstMaxBy Prod.fst (fillv, filli) (q0 :: qr) =
          qr.foldl (pickBy Prod.fst) q0 := rfl
      rw [h2]
      have hq : qr = (strided U.length
          ((idxOfB beqInt U g).toNat + U.length) qr).map Prod.snd :=
        (strided_map_snd _ _ qr).symm
      nth_rewrite 1 [hq]
      exact foldl_pickBy_map_comm (fun w : Nat × (α × Int) => w.2.1)
        Prod.fst Prod.snd (by intro x; rfl)
        (strided U.length ((idxOfB beqInt U g).toNat + U.length) qr)
        ((idxOfB beqInt U g).toNat, q0)
    have hWmem : ((strided U.length
        ((idxOfB beqInt U g).toNat + U.length) qr).foldl
          (pickBy (fun w : Nat × (α × Int) => w.2.1))
          ((idxOfB beqInt U g).toNat, q0)) ∈
        strided U.length ((idxOfB beqInt U g).toNat) (q0 :: qr) := by
      rw [strided]
      exact foldl_pickBy_mem _ _ _
    rcases strided_mem U.length _ _ _ hWmem with ⟨k, hk, hWeq⟩
    rw [hA, hB, hWeq]
    have hklen : k < ps.length := by
      have hl : (q0 :: qr).length = ps.length := by
        rw [← hvs]
        simp
      omega
    have harith : (idxOfB beqInt U g).toNat + U.length * k =
        U.length * k + (idxOfB beqInt U g).toNat := by omega
    rw [harith]
    rw [flatten_getD U.length 0 _ k _ (by
        intro s hs
        rcases List.mem_map.mp hs with ⟨p, _, rfl⟩
        simp)
      (by simpa using hklen) hjlt]
    have hseg : (ps.map (fun p => U.map
        (fun x => groupLookup filli (p.1, p.2.2.1) x))).getD k [] =
        U.map (fun x => groupLookup filli ((ps.get ⟨k, hklen⟩).1,
          (ps.get ⟨k, hklen⟩).2.2.1) x) := by
      rw [List.getD_eq_getElem _ [] (by simpa using hklen),
        List.getElem_map, List.get_eq_getElem]
    rw [hseg, map_getD_idxOfB U _ g 0 hg]
    have hget : (q0 :: qr).get ⟨k, hk⟩ =
        pairLookup fillv filli (ps.get ⟨k, hklen⟩) g := by
      have h2 : (q0 :: qr).getD k q0 =
          pairLookup fillv filli (ps.get ⟨k, hklen⟩) g := by
        rw [← hvs, List.getD_eq_getElem _ _ (by simpa using hklen),
          List.getElem_map, List.get_eq_getElem]
      rw [← h2, List.get_eq_getElem, List.getD_eq_getElem _ _ hk]
    rw [hget]
    rfl

theorem argCombineE_char [LinearOrder α] (fillv : α) (filli : Int)
    (ps : List (List Int × List α × List Int × List Int)) (hne : ps ≠ [])
    (hps : ∀ p ∈ ps, p.1 ≠ [] ∧ p.2.1.length = p.1.length ∧
      p.2.2.1.length = p.1.length ∧ p.2.2.2.length = p.1.length) :
    argCombineE fillv filli
        (ps.map (fun p => ⟨p.1.map some, p.2.1, p.2.2.1, p.2.2.2⟩)) =
      .ok ⟨(uniqInt ((ps.map Prod.fst).flatten)).map some,
        (uniqInt ((ps.map Prod.fst).flatten)).map
          (fun g => (firstMaxBy Prod.fst (fillv, filli)
            (ps.map (fun p => pairLookup fillv filli p g))).1),
        (uniqInt ((ps.map Prod.fst).flatten)).map
          (fun g => (firstMaxBy Prod.fst (fillv, filli)
            (ps.map (fun p => pairLookup fillv filli p g))).2),
        (uniqInt ((ps.map Prod.fst).flatten)).map
          (fun g => (ps.map (fun p => groupLookup 0 (p.1, p.2.2.2) g)).foldl
            (· + ·) 0)⟩ := by
  have hF : (ps.map Prod.fst).flatten ≠ [] := by
    cases ps with
    | nil => exact absurd rfl hne
    | cons a t =>
      have ha := (hps a (by simp)).1
      cases hfa : a.1 with
      | nil => exact absurd hfa ha
      | cons x r =>
        rw [List.map_cons, List.flatten_cons, hfa]
        simp
  have hU : uniqInt ((ps.map Prod.fst).flatten) ≠ [] := uniqInt_ne_nil _ hF
  unfold argCombineE
  dsimp only
  have hug : npUnique (((ps.map (fun p =>
      (⟨p.1.map some, p.2.1, p.2.2.1, p.2.2.2⟩ : APres α))).map
      (fun q => q.groups)).flatten) =
      (uniqInt ((ps.map Prod.fst).flatten)).map some := by
    rw [List.map_map]
    rw [show ((fun (q : APres α) => q.groups) ∘
        (fun p : List Int × List α × List Int × List Int =>
          (⟨p.1.map some, p.2.1, p.2.2.1, p.2.2.2⟩ : APres α))) =
      fun p : List Int × List α × List Int × List Int =>
        p.1.map some from rfl]
    rw [show (ps.map fun p : List Int × List α × List Int × List Int =>
        p.1.map (some : Int → Lbl)) =
      (ps.map Prod.fst).map (fun l => l.map some) from by
        rw [List.map_map]; rfl]
    rw [flatten_map_some, npUnique_map_some]
  rw [hug]
  rw [argCombineE_mapM_char fillv filli (uniqInt ((ps.map Prod.fst).flatten))
    ps (fun p hp => ⟨(hps p hp).2.1, (hps p hp).2.2.1, (hps p hp).2.2.2⟩)]
  dsimp only
  have hgarg : ((ps.map (fun p =>
      (⟨(uniqInt ((ps.map Prod.fst).flatten)).map some,
        (uniqInt ((ps.map Prod.fst).flatten)).map
          (fun x => groupLookup fillv (p.1, p.2.1) x),
        (uniqInt ((ps.map Prod.fst).flatten)).map
          (fun x => groupLookup filli (p.1, p.2.2.1) x),
        (uniqInt ((ps.map Prod.fst).flatten)).map
          (fun x => groupLookup 0 (p.1, p.2.2.2) x)⟩ : APres α))).map
      (fun q => q.groups)).flatten =
      ((ps.map (fun _ => uniqInt ((ps.map Prod.fst).flatten))).flatten).map
        some := by
    rw [List.map_map]
    rw [show (ps.map ((fun (q : APres α) => q.groups) ∘ (fun p =>
        (⟨(uniqInt ((ps.map Prod.fst).flatten)).map some,
          (uniqInt ((ps.map Prod.fst).flatten)).map
            (fun x => groupLookup fillv (p.1, p.2.1) x),
          (uniqInt ((ps.map Prod.fst).flatten)).map
            (fun x => groupLookup filli (p.1, p.2.2.1) x),
          (uniqInt ((ps.map Prod.fst).flatten)).map
            (fun x => groupLookup 0 (p.1, p.2.2.2) x)⟩ : APres α)))) =
      (ps.map (fun _ : List Int × List α × List Int × List Int =>
        uniqInt ((ps.map Prod.fst).flatten))).map (fun l => l.map some) from by
        rw [List.map_map]; rfl]
    rw [flatten_map_some]
  have harr : ((ps.map (fun p =>
      (⟨(uniqInt ((ps.map Prod.fst).flatten)).map some,
        (uniqInt ((ps.map Prod.fst).flatten)).map
          (fun x => groupLookup fillv (p.1, p.2.1) x),
        (uniqInt ((ps.map Prod.fst).flatten)).map
          (fun x => groupLookup filli (p.1, p.2.2.1) x),
        (uniqInt ((ps.map Prod.fst).flatten)).map
          (fun x => groupLookup 0 (p.1, p.2.2.2) x)⟩ : APres α))).map
      (fun q => q.vals)).flatten =
      (ps.map (fun p => (uniqInt ((ps.map Prod.fst).flatten)).map
        (fun x => groupLookup fillv (p.1, p.2.1) x))).flatten := by
    rw [List.map_map]
    rfl
  have hidx2 : ((ps.map (fun p =>
      (⟨(uniqInt ((ps.map Prod.fst).flatten)).map some,
        (uniqInt ((ps.map Prod.fst).flatten)).map
          (fun x => groupLookup fillv (p.1, p.2.1) x),
        (uniqInt ((ps.map Prod.fst).flatten)).map
          (fun x => groupLookup filli (p.1, p.2.2.1) x),
        (uniqInt ((ps.map Prod.fst).flatten)).map
          (fun x => groupLookup 0 (p.1, p.2.2.2) x)⟩ : APres α))).map
      (fun q => q.idxs)).flatten =
      (ps.map (fun p => (uniqInt ((ps.map Prod.fst).flatten)).map
        (fun x => groupLookup filli (p.1, p.2.2.1) x))).flatten := by
    rw [List.map_map]
    rfl
  have hcnt : ((ps.map (fun p =>
      (⟨(uniqInt ((ps.map Prod.fst).flatten)).map some,
        (uniqInt ((ps.map Prod.fst).flatten)).map
          (fun x => groupLookup fillv (p.1, p.2.1) x),
        (uniqInt ((ps.map Prod.fst).flatten)).map
          (fun x => groupLookup filli (p.1, p.2.2.1) x),
        (uniqInt ((ps.map Prod.fst).flatten)).map
          (fun x => groupLookup 0 (p.1, p.2.2.2) x)⟩ : APres α))).map
      (fun q => q.counts)).flatten =
      (ps.map (fun p => (uniqInt ((ps.map Prod.fst).flatten)).map
        (fun x => groupLookup 0 (p.1, p.2.2.2) x))).flatten := by
    rw [List.map_map]
    rfl
  rw [hgarg, harr, hidx2, hcnt]
  have hGu : (ps.map (fun _ : List Int × List α × List Int × List Int =>
      uniqInt ((ps.map Prod.fst).flatten))).flatten ≠ [] := by
    cases ps with
    | nil => exact absurd rfl hne
    | cons a t =>
      rw [List.map_cons, List.flatten_cons]
      intro hc
      rcases List.append_eq_nil.mp hc with ⟨hc1, _⟩
      exact hU hc1
  have hlenv : ((ps.map (fun p =>
      (uniqInt ((ps.map Prod.fst).flatten)).map
        (fun x => groupLookup fillv (p.1, p.2.1) x))).flatten).length =
      ((ps.map (fun _ : List Int × List α × List Int × List Int =>
        uniqInt ((ps.map Prod.fst).flatten))).flatten).length := by
    refine flatten_length_congr ps _ _ ?_
    intro x _
    simp
  rw [chunkArgreduceE_char fillv _ _ _ hGu hlenv]
  have hlenc : ((ps.map (fun p =>
      (uniqInt ((ps.map Prod.fst).flatten)).map
        (fun x => groupLookup 0 (p.1, p.2.2.2) x))).flatten).length =
      ((ps.map (fun _ : List Int × List α × List Int × List Int =>
        uniqInt ((ps.map Prod.fst).flatten))).flatten).length := by
    refine flatten_length_congr ps _ _ ?_
    intro x _
    simp
  rw [chunkReduceE_char (fun l => l.foldl (· + ·) 0) 0 _ _ hGu hlenc]
  have hUG : uniqInt ((ps.map (fun _ : List Int × List α × List Int × List Int =>
      uniqInt ((ps.map Prod.fst).flatten))).flatten) =
      uniqInt ((ps.map Prod.fst).flatten) := by
    refine sorted_nodup_ext _ _ (uniqInt_sorted _) (uniqInt_sorted _)
      (uniqInt_nodup _) (uniqInt_nodup _) ?_
    intro a
    rw [mem_uniqInt, mem_flatten_const _ ps hne, mem_uniqInt]
  rw [hUG]
  have hmax : (uniqInt ((ps.map Prod.fst).flatten)).map
      (fun g => (maxOp fillv).f (sel
        ((ps.map (fun _ : List Int × List α × List Int × List Int =>
          uniqInt ((ps.map Prod.fst).flatten))).flatten)
        ((ps.map (fun p => (uniqInt ((ps.map Prod.fst).flatten)).map
          (fun x => groupLookup fillv (p.1, p.2.1) x))).flatten) g)) =
      (uniqInt ((ps.map Prod.fst).flatten)).map
        (fun g => (firstMaxBy Prod.fst (fillv, filli)
          (ps.map (fun p => pairLookup fillv filli p g))).1) :=
    List.map_congr_left (fun g hg => combine_max_pointwise fillv filli _
      (uniqInt_nodup _) g hg ps hne)
  have hidxeq : (uniqInt ((ps.map Prod.fst).flatten)).map
      (fun g => ((ps.map (fun p =>
        (uniqInt ((ps.map Prod.fst).flatten)).map
          (fun x => groupLookup filli (p.1, p.2.2.1) x))).flatten).getD
        (argSelPos
          ((ps.map (fun _ : List Int × List α × List Int × List Int =>
            uniqInt ((ps.map Prod.fst).flatten))).flatten)
          ((ps.map (fun p => (uniqInt ((ps.map Prod.fst).flatten)).map
            (fun x => groupLookup fillv (p.1, p.2.1) x))).flatten) g) 0) =
      (uniqInt ((ps.map Prod.fst).flatten)).map
        (fun g => (firstMaxBy Prod.fst (fillv, filli)
          (ps.map (fun p => pairLookup fillv filli p g))).2) :=
    List.map_congr_left (fun g hg => combine_idx_pointwise fillv filli _
      (uniqInt_nodup _) g hg ps hne)
  have hcnteq : (uniqInt ((ps.map Prod.fst).flatten)).map
      (fun g => (fun l => l.foldl (· + ·) 0) (sel
        ((ps.map (fun _ : List Int × List α × List Int × List Int =>
          uniqInt ((ps.map Prod.fst).flatten))).flatten)
        ((ps.map (fun p => (uniqInt ((ps.map Prod.fst).flatten)).map
          (fun x => groupLookup 0 (p.1, p.2.2.2) x))).flatten) g)) =
      (uniqInt ((ps.map Prod.fst).flatten)).map
        (fun g => (ps.map (fun p => groupLookup 0 (p.1, p.2.2.2) g)).foldl
          (· + ·) 0) := by
    refine List.map_congr_left ?_
    intro g hg
    rw [sel_flatten_const _ (uniqInt_nodup _) g hg ps
      (fun p x => groupLookup 0 (p.1, p.2.2.2) x)]
  rw [hmax, hidxeq, hcnteq]
  rfl

theorem pairLookup_uniq_contrib [LinearOrder α] (fillv : α) (filli : Int)
    (b : List α × List Int × List Int) (g : Int) :
    pairLookup fillv filli ((uniqInt b.2.2 : List Int),
      (uniqInt b.2.2).map (fun x => (maxOp fillv).f (sel b.2.2 b.1 x)),
      (uniqInt b.2.2).map (fun x => b.2.1.getD (argSelPos b.2.2 b.1 x) 0),
      (uniqInt b.2.2).map (fun x => ((sel b.2.2 b.2.2 x).length : Int))) g =
    blockArgContrib fillv filli b g := by
  unfold pairLookup blockArgContrib groupLookup
  by_cases hg : g ∈ b.2.2
  · have h1 : memB beqInt (uniqInt b.2.2) g = true :=
      (memB_iff_int _ _).mpr ((mem_uniqInt _ _).mpr hg)
    have h2 : memB beqInt b.2.2 g = true := (memB_iff_int _ _).mpr hg
    simp only [h1, h2, if_true]
    rw [map_getD_idxOfB (uniqInt b.2.2) _ g fillv ((mem_uniqInt _ _).mpr hg),
      map_getD_idxOfB (uniqInt b.2.2) _ g filli ((mem_uniqInt _ _).mpr hg)]
  · have h1 : memB beqInt (uniqInt b.2.2) g = false := by
      rw [← Bool.not_eq_true, memB_iff_int, mem_uniqInt]
      exact hg
    have h2 : memB beqInt b.2.2 g = false := by
      rw [← Bool.not_eq_true, memB_iff_int]
      exact hg
    simp only [h1, h2, Bool.false_eq_true, if_false]

theorem cntLookup_uniq_contrib [LinearOrder α] (fillv : α)
    (b : List α × List Int × List Int) (g : Int) :
    groupLookup 0 ((uniqInt b.2.2 : List Int),
      (uniqInt b.2.2).map (fun x => ((sel b.2.2 b.2.2 x).length : Int))) g =
    blockCountContrib b g := by
  unfold groupLookup blockCountContrib
  by_cases hg : g ∈ b.2.2
  · have h1 : memB beqInt (uniqInt b.2.2) g = true :=
      (memB_iff_int _ _).mpr ((mem_uniqInt _ _).mpr hg)
    have h2 : memB beqInt b.2.2 g = true := (memB_iff_int _ _).mpr hg
    simp only [h1, h2, if_true]
    exact map_getD_idxOfB (uniqInt b.2.2) _ g 0 ((mem_uniqInt _ _).mpr hg)
  · have h1 : memB beqInt (uniqInt b.2.2) g = false := by
      rw [← Bool.not_eq_true, memB_iff_int, mem_uniqInt]
      exact hg
    have h2 : memB beqInt b.2.2 g = false := by
      rw [← Bool.not_eq_true, memB_iff_int]
      exact hg
    simp only [h1, h2, Bool.false_eq_true, if_false]

theorem argReduceBlocks_char [LinearOrder α] (fillv : α) (filli : Int)
    (A : List (List α × List Int × List Int)) (hA : A ≠ [])
    (hb : ∀ b ∈ A, b.2.2 ≠ [] ∧ b.1.length = b.2.2.length) :
    argReduceBlocks fillv filli A =
      .ok ⟨(uniqInt ((A.map (fun b => b.2.2)).flatten)).map some,
        (uniqInt ((A.map (fun b => b.2.2)).flatten)).map
          (fun g => (firstMaxBy Prod.fst (fillv, filli)
            (A.map (fun b => blockArgContrib fillv filli b g))).1),
        (uniqInt ((A.map (fun b => b.2.2)).flatten)).map
          (fun g => (firstMaxBy Prod.fst (fillv, filli)
            (A.map (fun b => blockArgContrib fillv filli b g))).2),
        (uniqInt ((A.map (fun b => b.2.2)).flatten)).map
          (fun g => (A.map (fun b => blockCountContrib b g)).foldl
            (· + ·) 0)⟩ := by
  unfold argReduceBlocks
  have hmm : A.mapM (fun b => chunkArgleafE fillv b.1 b.2.1 (b.2.2.map some)) =
      .ok ((A.map (fun b => ((uniqInt b.2.2 : List Int),
        (uniqInt b.2.2).map (fun x => (maxOp fillv).f (sel b.2.2 b.1 x)),
        (uniqInt b.2.2).map (fun x => b.2.1.getD (argSelPos b.2.2 b.1 x) 0),
        (uniqInt b.2.2).map
          (fun x => ((sel b.2.2 b.2.2 x).length : Int))))).map
        (fun p => (⟨p.1.map some, p.2.1, p.2.2.1, p.2.2.2⟩ : APres α))) := by
    rw [List.map_map]
    refine mapM_ok_of_forall _ _ _ ?_
    intro b hbm
    rw [chunkArgleafE_char fillv b.1 b.2.1 b.2.2 (hb b hbm).1 (hb b hbm).2]
    rfl
  rw [hmm]
  show argCombineE fillv filli
      ((A.map (fun b => ((uniqInt b.2.2 : List Int),
        (uniqInt b.2.2).map (fun x => (maxOp fillv).f (sel b.2.2 b.1 x)),
        (uniqInt b.2.2).map (fun x => b.2.1.getD (argSelPos b.2.2 b.1 x) 0),
        (uniqInt b.2.2).map
          (fun x => ((sel b.2.2 b.2.2 x).length : Int))))).map
        (fun p => (⟨p.1.map some, p.2.1, p.2.2.1, p.2.2.2⟩ : APres α))) = _
  rw [argCombineE_char fillv filli _
    (by
      cases A with
      | nil => exact absurd rfl hA
      | cons a t => simp)
    (by
      intro p hp
      rcases List.mem_map.mp hp with ⟨q, hq, rfl⟩
      exact ⟨uniqInt_ne_nil _ (hb q hq).1, by simp, by simp, by simp⟩)]
  have hUeq : uniqInt (((A.map (fun b => ((uniqInt b.2.2 : List Int),
      (uniqInt b.2.2).map (fun x => (maxOp fillv).f (sel b.2.2 b.1 x)),
      (uniqInt b.2.2).map (fun x => b.2.1.getD (argSelPos b.2.2 b.1 x) 0),
      (uniqInt b.2.2).map
        (fun x => ((sel b.2.2 b.2.2 x).length : Int))))).map
      Prod.fst).flatten) =
      uniqInt ((A.map (fun b => b.2.2)).flatten) := by
    refine sorted_nodup_ext _ _ (uniqInt_sorted _) (uniqInt_sorted _)
      (uniqInt_nodup _) (uniqInt_nodup _) ?_
    intro a
    rw [mem_uniqInt, mem_uniqInt, List.map_map, mem_flatten_map,
      mem_flatten_map]
    constructor
    · rintro ⟨b, hbG, hab⟩
      exact ⟨b, hbG, (mem_uniqInt _ _).mp hab⟩
    · rintro ⟨b, hbG, hab⟩
      exact ⟨b, hbG, (mem_uniqInt _ _).mpr hab⟩
  rw [hUeq]
  have hpair : ∀ g : Int, (A.map (fun b => ((uniqInt b.2.2 : List Int),
      (uniqInt b.2.2).map (fun x => (maxOp fillv).f (sel b.2.2 b.1 x)),
      (uniqInt b.2.2).map (fun x => b.2.1.getD (argSelPos b.2.2 b.1 x) 0),
      (uniqInt b.2.2).map
        (fun x => ((sel b.2.2 b.2.2 x).length : Int))))).map
      (fun p => pairLookup fillv filli p g) =
      A.map (fun b => blockArgContrib fillv filli b g) := by
    intro g
    rw [List.map_map]
    refine List.map_congr_left ?_
    intro b _
    exact pairLookup_uniq_contrib fillv filli b g
  have hcntl : ∀ g : Int, (A.map (fun b => ((uniqInt b.2.2 : List Int),
      (uniqInt b.2.2).map (fun x => (maxOp fillv).f (sel b.2.2 b.1 x)),
      (uniqInt b.2.2).map (fun x => b.2.1.getD (argSelPos b.2.2 b.1 x) 0),
      (uniqInt b.2.2).map
        (fun x => ((sel b.2.2 b.2.2 x).length : Int))))).map
      (fun p => groupLookup 0 (p.1, p.2.2.2) g) =
      A.map (fun b => blockCountContrib b g) := by
    intro g
    rw [List.map_map]
    refine List.map_congr_left ?_
    intro b _
    exact cntLookup_uniq_contrib fillv b g
  have hm1 := List.map_congr_left (l := uniqInt ((A.map (fun b => b.2.2)).flatten))
    (fun g _ => congrArg (fun z => (firstMaxBy Prod.fst (fillv, filli) z).1)
      (hpair g))
  have hm2 := List.map_congr_left (l := uniqInt ((A.map (fun b => b.2.2)).flatten))
    (fun g _ => congrArg (fun z => (firstMaxBy Prod.fst (fillv, filli) z).2)
      (hpair g))
  have hm3 := List.map_congr_left (l := uniqInt ((A.map (fun b => b.2.2)).flatten))
    (fun g _ => congrArg (fun z => z.foldl (· + ·) (0 : Int)) (hcntl g))
  rw [hm1, hm2, hm3]

theorem firstMaxBy_const [LinearOrder α] (val : β → α) (d : β)
    (l : List β) (h : ∀ x ∈ l, x = d) : firstMaxBy val d l = d := by
  have hfold : ∀ (r : List β), (∀ x ∈ r, x = d) →
      r.foldl (pickBy val) d = d := by
    intro r
    induction r with
    | nil => intro _; rfl
    | cons y t ih =>
      intro hr
      rw [List.foldl_cons, hr y (by simp), show pickBy val d d = d from by
        unfold pickBy
        rw [if_neg (lt_irrefl (val d))]]
      exact ih (fun z hz => hr z (List.mem_cons_of_mem _ hz))
  cases l with
  | nil => rfl
  | cons x r =>
    have hx := h x (by simp)
    show r.foldl (pickBy val) x = d
    rw [hx]
    exact hfold r (fun z hz => h z (List.mem_cons_of_mem _ hz))

theorem pickBy_assoc [LinearOrder α] (val : β → α) (a b c : β) :
    pickBy val (pickBy val a b) c = pickBy val a (pickBy val b c) := by
  unfold pickBy
  by_cases h1 : val a < val b
  · simp only [if_pos h1]
    by_cases h2 : val b < val c
    · simp only [if_pos h2, if_pos (lt_trans h1 h2)]
    · simp only [if_neg h2, if_pos h1]
  · simp only [if_neg h1]
    by_cases h2 : val b < val c
    · simp only [if_pos h2]
    · have h3 : ¬ val a < val c :=
        not_lt.mpr (le_trans (not_lt.mp h2) (not_lt.mp h1))
      simp only [if_neg h2, if_neg h1, if_neg h3]

theorem foldl_pickBy_assoc [LinearOrder α] (val : β → α) :
    ∀ (l : List β) (a y : β),
      l.foldl (pickBy val) (pickBy val a y) =
        pickBy val a (l.foldl (pickBy val) y) := by
  intro l
  induction l with
  | nil => intro a y; rfl
  | cons z t ih =>
    intro a y
    rw [List.foldl_cons, List.foldl_cons, pickBy_assoc, ih]

theorem firstMaxBy_append [LinearOrder α] (val : β → α) (d : β)
    (P1 P2 : List β) (h1 : P1 ≠ []) (h2 : P2 ≠ []) :
    firstMaxBy val d (P1 ++ P2) =
      pickBy val (firstMaxBy val d P1) (firstMaxBy val d P2) := by
  cases P1 with
  | nil => exact absurd rfl h1
  | cons x r =>
    cases P2 with
    | nil => exact absurd rfl h2
    | cons y s =>
      show (r ++ y :: s).foldl (pickBy val) x = _
      rw [List.foldl_append, List.foldl_cons]
      show s.foldl (pickBy val) (pickBy val (r.foldl (pickBy val) x) y) = _
      rw [foldl_pickBy_assoc]
      rfl

theorem argPairLookup_block_fold [LinearOrder α] (fillv : α) (filli : Int)
    (Ai : List (List α × List Int × List Int)) (g : Int) :
    pairLookup fillv filli
      ((uniqInt ((Ai.map (fun b => b.2.2)).flatten) : List Int),
       (uniqInt ((Ai.map (fun b => b.2.2)).flatten)).map
         (fun x => (firstMaxBy Prod.fst (fillv, filli)
           (Ai.map (fun b => blockArgContrib fillv filli b x))).1),
       (uniqInt ((Ai.map (fun b => b.2.2)).flatten)).map
         (fun x => (firstMaxBy Prod.fst (fillv, filli)
           (Ai.map (fun b => blockArgContrib fillv filli b x))).2),
       (uniqInt ((Ai.map (fun b => b.2.2)).flatten)).map
         (fun x => (Ai.map (fun b => blockCountContrib b x)).foldl
           (· + ·) 0)) g =
    firstMaxBy Prod.fst (fillv, filli)
      (Ai.map (fun b => blockArgContrib fillv filli b g)) := by
  unfold pairLookup groupLookup
  by_cases hg : g ∈ uniqInt ((Ai.map (fun b => b.2.2)).flatten)
  · have hm : memB beqInt (uniqInt ((Ai.map (fun b => b.2.2)).flatten)) g =
        true := (memB_iff_int _ _).mpr hg
    simp only [hm, if_true]
    rw [map_getD_idxOfB _ _ g fillv hg, map_getD_idxOfB _ _ g filli hg]
  · have hm : memB beqInt (uniqInt ((Ai.map (fun b => b.2.2)).flatten)) g =
        false := by
      rw [← Bool.not_eq_true, memB_iff_int]
      exact hg
    simp only [hm, Bool.false_eq_true, if_false]
    refine (firstMaxBy_const Prod.fst (fillv, filli) _ ?_).symm
    intro x hx
    rcases List.mem_map.mp hx with ⟨b, hbG, rfl⟩
    unfold blockArgContrib
    have hbm : memB beqInt b.2.2 g = false := by
      rw [← Bool.not_eq_true, memB_iff_int]
      intro hgb
      exact hg ((mem_uniqInt _ _).mpr
        ((mem_flatten_map Ai (fun b => b.2.2) g).mpr ⟨b, hbG, hgb⟩))
    simp only [hbm, Bool.false_eq_true, if_false]

theorem argCntLookup_block_fold
    (Ai : List (List α × List Int × List Int)) (g : Int) :
    groupLookup 0 ((uniqInt ((Ai.map (fun b => b.2.2)).flatten) : List Int),
      (uniqInt ((Ai.map (fun b => b.2.2)).flatten)).map
        (fun x => (Ai.map (fun b => blockCountContrib b x)).foldl
          (· + ·) 0)) g =
    (Ai.map (fun b => blockCountContrib b g)).foldl (· + ·) 0 := by
  unfold groupLookup
  by_cases hg : g ∈ uniqInt ((Ai.map (fun b => b.2.2)).flatten)
  · have hm : memB beqInt (uniqInt ((Ai.map (fun b => b.2.2)).flatten)) g =
        true := (memB_iff_int _ _).mpr hg
    simp only [hm, if_true]
    exact map_getD_idxOfB _ _ g 0 hg
  · have hm : memB beqInt (uniqInt ((Ai.map (fun b => b.2.2)).flatten)) g =
        false := by
      rw [← Bool.not_eq_true, memB_iff_int]
      exact hg
    simp only [hm, Bool.false_eq_true, if_false]
    refine (foldl_all_e (· + ·) 0 (fun a => zero_add a) _ ?_).symm
    intro x hx
    rcases List.mem_map.mp hx with ⟨b, hbG, rfl⟩
    unfold blockCountContrib
    have hbm : memB beqInt b.2.2 g = false := by
      rw [← Bool.not_eq_true, memB_iff_int]
      intro hgb
      exact hg ((mem_uniqInt _ _).mpr
        ((mem_flatten_map Ai (fun b => b.2.2) g).mpr ⟨b, hbG, hgb⟩))
    simp only [hbm, Bool.false_eq_true, if_false]

theorem argSplit_eq [LinearOrder α] (fillv : α) (filli : Int)
    (A1 A2 : List (List α × List Int × List Int))
    (ha1 : A1 ≠ []) (ha2 : A2 ≠ [])
    (hab : ∀ b ∈ A1 ++ A2, b.2.2 ≠ [] ∧ b.1.length = b.2.2.length) :
    (do
      let s1 ← argReduceBlocks fillv filli A1
      let s2 ← argReduceBlocks fillv filli A2
      argCombineE fillv filli [s1, s2]) =
    argReduceBlocks fillv filli (A1 ++ A2) := by
  have hb1 : ∀ b ∈ A1, b.2.2 ≠ [] ∧ b.1.length = b.2.2.length :=
    fun b hbm => hab b (List.mem_append_left _ hbm)
  have hb2 : ∀ b ∈ A2, b.2.2 ≠ [] ∧ b.1.length = b.2.2.length :=
    fun b hbm => hab b (List.mem_append_right _ hbm)
  have h12 : A1 ++ A2 ≠ [] := by
    cases A1 with
    | nil => exact absurd rfl ha1
    | cons a t => simp
  have hL1 : (A1.map (fun b => b.2.2)).flatten ≠ [] := by
    cases A1 with
    | nil => exact absurd rfl ha1
    | cons a t =>
      rw [List.map_cons, List.flatten_cons]
      intro hc
      rcases List.append_eq_nil.mp hc with ⟨hc1, _⟩
      exact (hb1 a (by simp)).1 hc1
  have hL2 : (A2.map (fun b => b.2.2)).flatten ≠ [] := by
    cases A2 with
    | nil => exact absurd rfl ha2
    | cons a t =>
      rw [List.map_cons, List.flatten_cons]
      intro hc
      rcases List.append_eq_nil.mp hc with ⟨hc1, _⟩
      exact (hb2 a (by simp)).1 hc1
  rw [argReduceBlocks_char fillv filli A1 ha1 hb1,
    argReduceBlocks_char fillv filli A2 ha2 hb2,
    argReduceBlocks_char fillv filli (A1 ++ A2) h12 hab]
  show argCombineE fillv filli
      (([(((uniqInt ((A1.map (fun b => b.2.2)).flatten)) : List Int),
        (uniqInt ((A1.map (fun b => b.2.2)).flatten)).map
          (fun x => (firstMaxBy Prod.fst (fillv, filli)
            (A1.map (fun b => blockArgContrib fillv filli b x))).1),
        (uniqInt ((A1.map (fun b => b.2.2)).flatten)).map
          (fun x => (firstMaxBy Prod.fst (fillv, filli)
            (A1.map (fun b => blockArgContrib fillv filli b x))).2),
        (uniqInt ((A1.map (fun b => b.2.2)).flatten)).map
          (fun x => (A1.map (fun b => blockCountContrib b x)).foldl
            (· + ·) 0)),
       (((uniqInt ((A2.map (fun b => b.2.2)).flatten)) : List Int),
        (uniqInt ((A2.map (fun b => b.2.2)).flatten)).map
          (fun x => (firstMaxBy Prod.fst (fillv, filli)
            (A2.map (fun b => blockArgContrib fillv filli b x))).1),
        (uniqInt ((A2.map (fun b => b.2.2)).flatten)).map
          (fun x => (firstMaxBy Prod.fst (fillv, filli)
            (A2.map (fun b => blockArgContrib fillv filli b x))).2),
        (uniqInt ((A2.map (fun b => b.2.2)).flatten)).map
          (fun x => (A2.map (fun b => blockCountContrib b x)).foldl
            (· + ·) 0))] :
        List (List Int × List α × List Int × List Int)).map
          (fun p => (⟨p.1.map some, p.2.1, p.2.2.1, p.2.2.2⟩ : APres α))) = _
  rw [argCombineE_char fillv filli _ (by simp)
    (by
      intro p hp
      rcases List.mem_cons.mp hp with rfl | hp2
      · exact ⟨uniqInt_ne_nil _ hL1, by simp, by simp, by simp⟩
      · rcases List.mem_cons.mp hp2 with rfl | hp3
        · exact ⟨uniqInt_ne_nil _ hL2, by simp, by simp, by simp⟩
        · cases hp3)]
  have hfl : (([(((uniqInt ((A1.map (fun b => b.2.2)).flatten)) : List Int),
        (uniqInt ((A1.map (fun b => b.2.2)).flatten)).map
          (fun x => (firstMaxBy Prod.fst (fillv, filli)
            (A1.map (fun b => blockArgContrib fillv filli b x))).1),
        (uniqInt ((A1.map (fun b => b.2.2)).flatten)).map
          (fun x => (firstMaxBy Prod.fst (fillv, filli)
            (A1.map (fun b => blockArgContrib fillv filli b x))).2),
        (uniqInt ((A1.map (fun b => b.2.2)).flatten)).map
          (fun x => (A1.map (fun b => blockCountContrib b x)).foldl
            (· + ·) 0)),
       (((uniqInt ((A2.map (fun b => b.2.2)).flatten)) : List Int),
        (uniqInt ((A2.map (fun b => b.2.2)).flatten)).map
          (fun x => (firstMaxBy Prod.fst (fillv, filli)
            (A2.map (fun b => blockArgContrib fillv filli b x))).1),
        (uniqInt ((A2.map (fun b => b.2.2)).flatten)).map
          (fun x => (firstMaxBy Prod.fst (fillv, filli)
            (A2.map (fun b => blockArgContrib fillv filli b x))).2),
        (uniqInt ((A2.map (fun b => b.2.2)).flatten)).map
          (fun x => (A2.map (fun b => blockCountContrib b x)).foldl
            (· + ·) 0))] :
      List (List Int × List α × List Int × List Int)).map Prod.fst).flatten =
      (uniqInt ((A1.map (fun b => b.2.2)).flatten)) ++ (uniqInt ((A2.map (fun b => b.2.2)).flatten)) := by
    simp
  rw [hfl]
  have hUU : uniqInt ((uniqInt ((A1.map (fun b => b.2.2)).flatten)) ++ (uniqInt ((A2.map (fun b => b.2.2)).flatten))) =
      uniqInt (((A1 ++ A2).map (fun b => b.2.2)).flatten) := by
    refine sorted_nodup_ext _ _ (uniqInt_sorted _) (uniqInt_sorted _)
      (uniqInt_nodup _) (uniqInt_nodup _) ?_
    intro a
    rw [mem_uniqInt, mem_uniqInt, List.mem_append, mem_uniqInt, mem_uniqInt,
      List.map_append, List.flatten_append, List.mem_append]
  rw [hUU]
  have hv : ∀ g : Int,
      firstMaxBy Prod.fst (fillv, filli)
        (([(((uniqInt ((A1.map (fun b => b.2.2)).flatten)) : List Int),
        (uniqInt ((A1.map (fun b => b.2.2)).flatten)).map
          (fun x => (firstMaxBy Prod.fst (fillv, filli)
            (A1.map (fun b => blockArgContrib fillv filli b x))).1),
        (uniqInt ((A1.map (fun b => b.2.2)).flatten)).map
          (fun x => (firstMaxBy Prod.fst (fillv, filli)
            (A1.map (fun b => blockArgContrib fillv filli b x))).2),
        (uniqInt ((A1.map (fun b => b.2.2)).flatten)).map
          (fun x => (A1.map (fun b => blockCountContrib b x)).foldl
            (· + ·) 0)),
       (((uniqInt ((A2.map (fun b => b.2.2)).flatten)) : List Int),
        (uniqInt ((A2.map (fun b => b.2.2)).flatten)).map
          (fun x => (firstMaxBy Prod.fst (fillv, filli)
            (A2.map (fun b => blockArgContrib fillv filli b x))).1),
        (uniqInt ((A2.map (fun b => b.2.2)).flatten)).map
          (fun x => (firstMaxBy Prod.fst (fillv, filli)
            (A2.map (fun b => blockArgContrib fillv filli b x))).2),
        (uniqInt ((A2.map (fun b => b.2.2)).flatten)).map
          (fun x => (A2.map (fun b => blockCountContrib b x)).foldl
            (· + ·) 0))] :
          List (List Int × List α × List Int × List Int)).map
            (fun p => pairLookup fillv filli p g)) =
      firstMaxBy Prod.fst (fillv, filli)
        ((A1 ++ A2).map (fun b => blockArgContrib fillv filli b g)) := by
    intro g
    simp only [List.map_cons, List.map_nil]
    rw [argPairLookup_block_fold fillv filli A1 g,
      argPairLookup_block_fold fillv filli A2 g, List.map_append,
      firstMaxBy_append Prod.fst (fillv, filli) _ _
        (by
          cases A1 with
          | nil => exact absurd rfl ha1
          | cons a t => simp)
        (by
          cases A2 with
          | nil => exact absurd rfl ha2
          | cons a t => simp)]
    rfl
  have hc : ∀ g : Int,
      (([(((uniqInt ((A1.map (fun b => b.2.2)).flatten)) : List Int),
        (uniqInt ((A1.map (fun b => b.2.2)).flatten)).map
          (fun x => (firstMaxBy Prod.fst (fillv, filli)
            (A1.map (fun b => blockArgContrib fillv filli b x))).1),
        (uniqInt ((A1.map (fun b => b.2.2)).flatten)).map
          (fun x => (firstMaxBy Prod.fst (fillv, filli)
            (A1.map (fun b => blockArgContrib fillv filli b x))).2),
        (uniqInt ((A1.map (fun b => b.2.2)).flatten)).map
          (fun x => (A1.map (fun b => blockCountContrib b x)).foldl
            (· + ·) 0)),
       (((uniqInt ((A2.map (fun b => b.2.2)).flatten)) : List Int),
        (uniqInt ((A2.map (fun b => b.2.2)).flatten)).map
          (fun x => (firstMaxBy Prod.fst (fillv, filli)
            (A2.map (fun b => blockArgContrib fillv filli b x))).1),
        (uniqInt ((A2.map (fun b => b.2.2)).flatten)).map
          (fun x => (firstMaxBy Prod.fst (fillv, filli)
            (A2.map (fun b => blockArgContrib fillv filli b x))).2),
        (uniqInt ((A2.map (fun b => b.2.2)).flatten)).map
          (fun x => (A2.map (fun b => blockCountContrib b x)).foldl
            (· + ·) 0))] :
        List (List Int × List α × List Int × List Int)).map
          (fun p => groupLookup 0 (p.1, p.2.2.2) g)).foldl (· + ·) 0 =
      ((A1 ++ A2).map (fun b => blockCountContrib b g)).foldl (· + ·) 0 := by
    intro g
    simp only [List.map_cons, List.map_nil]
    rw [foldl_pair]
    rw [argCntLookup_block_fold A1 g, argCntLookup_block_fold A2 g,
      List.map_append, List.foldl_append]
    conv_rhs => rw [foldl_hom (· + ·) 0 (fun a b c => add_assoc a b c)
      (fun a => zero_add a) (fun a => add_zero a)]
    rw [zero_add]
  rw [List.map_congr_left (fun g _ => congrArg Prod.fst (hv g)),
    List.map_congr_left (fun g _ => congrArg Prod.snd (hv g)),
    List.map_congr_left (fun g _ => hc g)]

/-- C1: the shape of the combine tree cannot change the numeric result, for
both reduction types of `_npg_combine`.  For the "reduce" type (sum, count,
min/max, any/all and the sum/count intermediates of mean and var): for any
chunk op and any associative combine op whose fill value is a two-sided
identity, chunk-reducing two sets of blocks separately and merging the two
partial results with one `_npg_combine` equals reducing all blocks at once.
For the "argreduce" type (argmax over any linear order, and argmin as argmax
of the dual order): splitting the `(values, index, labels)` blocks in two,
arg-reducing each half through `chunk_argreduce` and merging the two
argreduce partials with the argreduce combine (which carries value/index
pairs together and sums counts) equals arg-reducing all blocks in one step,
first-occurrence tie resolution included. -/
theorem combine_split_eq_reduce_all [LinearOrder β]
    (opf : α → α → α) (e : α) (hf : List α → α)
    (hassoc : ∀ a b c, opf (opf a b) c = opf a (opf b c))
    (hel : ∀ a, opf e a = a) (her : ∀ a, opf a e = a)
    (G1 G2 : List (List α × List Int)) (h1 : G1 ≠ []) (h2 : G2 ≠ [])
    (hb : ∀ b ∈ G1 ++ G2, b.2 ≠ [] ∧ b.1.length = b.2.length)
    (fillv : β) (filli : Int)
    (A1 A2 : List (List β × List Int × List Int))
    (ha1 : A1 ≠ []) (ha2 : A2 ≠ [])
    (hab : ∀ b ∈ A1 ++ A2, b.2.2 ≠ [] ∧ b.1.length = b.2.2.length) :
    ((do
      let r1 ← reduceBlocks ⟨hf, e⟩ ⟨fun l => l.foldl opf e, e⟩ G1
      let r2 ← reduceBlocks ⟨hf, e⟩ ⟨fun l => l.foldl opf e, e⟩ G2
      npgCombineE [⟨fun l => l.foldl opf e, e⟩] [r1, r2]) =
      reduceBlocks ⟨hf, e⟩ ⟨fun l => l.foldl opf e, e⟩ (G1 ++ G2)) ∧
    ((do
      let s1 ← argReduceBlocks fillv filli A1
      let s2 ← argReduceBlocks fillv filli A2
      argCombineE fillv filli [s1, s2]) =
      argReduceBlocks fillv filli (A1 ++ A2)) :=
  ⟨foldSplit_eq opf e hf hassoc hel her G1 G2 h1 h2 hb,
   argSplit_eq fillv filli A1 A2 ha1 ha2 hab⟩

/-- Witness for C1.  Reduce type: the sum reduction over the blocks
`([1,2], labels [0,1])` and `([3], labels [0])`, both orders yielding groups
`[0, 1]` with sums `[4, 2]`.  Argreduce type: argmax over the blocks
`(values [1,3], indices [10,11], labels [0,1])` and
`(values [5], indices [12], labels [0])`, both orders yielding maxima
`[5, 3]` at original indices `[12, 11]` with counts `[2, 1]`. -/
theorem combine_split_eq_reduce_all_w :
    ((do
      let r1 ← reduceBlocks ⟨fun l => l.foldl (· + ·) 0, 0⟩
        ⟨fun l => l.foldl (· + ·) 0, 0⟩
        [(([1, 2] : List Int), ([0, 1] : List Int))]
      let r2 ← reduceBlocks ⟨fun l => l.foldl (· + ·) 0, 0⟩
        ⟨fun l => l.foldl (· + ·) 0, 0⟩
        [(([3] : List Int), ([0] : List Int))]
      npgCombineE [⟨fun l => l.foldl (· + ·) 0, 0⟩] [r1, r2]) =
    reduceBlocks ⟨fun l => l.foldl (· + ·) 0, 0⟩
      ⟨fun l => l.foldl (· + ·) 0, 0⟩
      [(([1, 2] : List Int), ([0, 1] : List Int)),
       (([3] : List Int), ([0] : List Int))]) ∧
    ((do
      let s1 ← argReduceBlocks (-100 : Int) (-1)
        [(([1, 3] : List Int), ([10, 11] : List Int), ([0, 1] : List Int))]
      let s2 ← argReduceBlocks (-100 : Int) (-1)
        [(([5] : List Int), ([12] : List Int), ([0] : List Int))]
      argCombineE (-100 : Int) (-1) [s1, s2]) =
    argReduceBlocks (-100 : Int) (-1)
      [(([1, 3] : List Int), ([10, 11] : List Int), ([0, 1] : List Int)),
       (([5] : List Int), ([12] : List Int), ([0] : List Int))]) :=
  combine_split_eq_reduce_all (· + ·) 0 (fun l => l.foldl (· + ·) 0)
    (by intro a b c; simp only []; omega)
    (by intro a; simp only []; omega) (by intro a; simp only []; omega)
    [(([1, 2] : List Int), ([0, 1] : List Int))]
    [(([3] : List Int), ([0] : List Int))]
    (by decide) (by decide) (by decide)
    (-100 : Int) (-1)
    [(([1, 3] : List Int), ([10, 11] : List Int), ([0, 1] : List Int))]
    [(([5] : List Int), ([12] : List Int), ([0] : List Int))]
    (by decide) (by decide) (by decide)
